import Mathlib

/-!
# imgtools: perceptual hash, duplicate grouping and border trimming

A shallow embedding of the hashing core of `imghash.c`, of the clustering pass
and the record callbacks of `imgdups.c`, of the record writer of `imgcmp.c` and
of the border scan and crop of `jpgtrim.c`, followed by the properties proved
about them.

Conventions of the embedding.

* Memory reached through a pointer (a buffer of `double`s such as
  `double ebe[64]`, the `struct item_t` cells of the item list) is a `Mem α`:
  a map from index (address) to content.  A load `buf[i]` is `buf.read i`, a
  store `buf[i] = v` is `buf.write i v`.
* A `double` is the rational number it denotes.  In `genhash` every product and
  every sum is rounded to the nearest double, ties to even (`fl`), each operation
  on its own, and a table entry is the double nearest to the decimal written in
  the source; overflow to infinity is outside the embedding.  The functions that
  compute a hash take the rounding as a parameter, `genhash` is the instance with
  `fl`, and the instance with no rounding is the exact arithmetic the
  specification speaks of.  The sums of `scale_down` are whole numbers, exact in
  double; its final division is not rounded.
* `uint64_t` values are natural numbers below `2 ^ 64`; a shift that can
  overflow is reduced `% 2 ^ 64`.
* `int` counters (`eq_n`, loop indices, image sizes) are unbounded; signed
  overflow is undefined behaviour in C and is outside the embedding.
* A `for` loop over an index range is a left fold over the list of the values
  the index takes, in the order the loop takes them.  A loop whose number of
  iterations depends on the data is either defined by well-founded recursion
  (the two popcount loops, which always terminate) or run with a step budget
  `fuel` and has no result (`none`) when the budget is exhausted (pointer
  chasing, the line scan of `findborder`).
* Where a property speaks of the states a pass goes through, the pass is also
  given as the list of the heaps after each of its stores (`intracmp_trace`),
  whose last heap is proved to be the result of the pass.
* Calls into libraries are taken by their contract: `strtoul` and `printf` by the
  C standard, the calls of `crop` on files by their outcome on a map from path
  to content.  `int` and `uint8_t` values of the trimmer are integers; a sample
  is a natural number and the properties of the scan assume it is at most 255.
-/

namespace Imgtools

/-- Memory: a map from index to content. -/
structure Mem (α : Type) where
  read : Nat → α

/-- The store `m[i] = v`. -/
def Mem.write {α : Type} (m : Mem α) (i : Nat) (v : α) : Mem α :=
  ⟨Function.update m.read i v⟩

/-! ## `imgcmp.h` -/

/-- Transform indices, `enum trans_t`. -/
def TI_BASE : Nat := 0
def TI_ROT1 : Nat := 1
def TI_ROT2 : Nat := 2
def TI_ROT3 : Nat := 3
def TI_FLIP : Nat := 4
def TI_FLR1 : Nat := 5
def TI_FLR2 : Nat := 6
def TI_FLR3 : Nat := 7
def TI_LAST : Nat := 8

def TRANS_NONE : Nat := 0
def TRANS_ROTATE : Nat := 1
def TRANS_FLIP : Nat := 2

/-! ## `imghash.c` -/

/-- The table `DCT_O`, 64 entries, row-major. -/
def DCT_O : List ℚ := [
  0.500000000000, 0.500000000000, 0.500000000000, 0.500000000000, 0.500000000000, 0.500000000000, 0.500000000000, 0.500000000000,
  0.490392640202, 0.415734806151, 0.277785116510, 0.097545161008, -0.097545161008, -0.277785116510, -0.415734806151, -0.490392640202,
  0.461939766256, 0.191341716183, -0.191341716183, -0.461939766256, -0.461939766256, -0.191341716183, 0.191341716183, 0.461939766256,
  0.415734806151, -0.097545161008, -0.490392640202, -0.277785116510, 0.277785116510, 0.490392640202, 0.097545161008, -0.415734806151,
  0.353553390593, -0.353553390593, -0.353553390593, 0.353553390593, 0.353553390593, -0.353553390593, -0.353553390593, 0.353553390593,
  0.277785116510, -0.490392640202, 0.097545161008, 0.415734806151, -0.415734806151, -0.097545161008, 0.490392640202, -0.277785116510,
  0.191341716183, -0.461939766256, 0.461939766256, -0.191341716183, -0.191341716183, 0.461939766256, -0.461939766256, 0.191341716183,
  0.097545161008, -0.277785116510, 0.415734806151, -0.490392640202, 0.490392640202, -0.415734806151, 0.277785116510, -0.097545161008]

/-- The table `DCT_T`, 64 entries, row-major. -/
def DCT_T : List ℚ := [
  0.500000000000, 0.490392640202, 0.461939766256, 0.415734806151, 0.353553390593, 0.277785116510, 0.191341716183, 0.097545161008,
  0.500000000000, 0.415734806151, 0.191341716183, -0.097545161008, -0.353553390593, -0.490392640202, -0.461939766256, -0.277785116510,
  0.500000000000, 0.277785116510, -0.191341716183, -0.490392640202, -0.353553390593, 0.097545161008, 0.461939766256, 0.415734806151,
  0.500000000000, 0.097545161008, -0.461939766256, -0.277785116510, 0.353553390593, 0.415734806151, -0.191341716183, -0.490392640202,
  0.500000000000, -0.097545161008, -0.461939766256, 0.277785116510, 0.353553390593, -0.415734806151, -0.191341716183, 0.490392640202,
  0.500000000000, -0.277785116510, -0.191341716183, 0.490392640202, -0.353553390593, -0.097545161008, 0.461939766256, -0.415734806151,
  0.500000000000, -0.415734806151, 0.191341716183, 0.097545161008, -0.353553390593, 0.490392640202, -0.461939766256, 0.277785116510,
  0.500000000000, -0.490392640202, 0.461939766256, -0.415734806151, 0.353553390593, -0.277785116510, 0.191341716183, -0.097545161008]

/-- Entry `i` of `DCT_O` as written (`dct_row[i]` is the double nearest to
`DCT_O_at (8 * y + i)`). -/
def DCT_O_at (i : Nat) : ℚ := DCT_O.getD i 0

/-- Entry `i` of `DCT_T` as written (`dct_col[i]` is the double nearest to
`DCT_T_at (8 * x + i)`). -/
def DCT_T_at (i : Nat) : ℚ := DCT_T.getD i 0

/-- The number of binary digits of `n`, by halving, in at most `fuel` steps. -/
def bit_length : Nat → Nat → Nat
  | 0, _ => 0
  | fuel + 1, n => if n = 0 then 0 else bit_length fuel (n / 2) + 1

/-- Rounding to `double` (IEEE 754 binary64): the nearest number of the form
`k * 2 ^ s` with `k < 2 ^ 53` and `s ≥ -1074`, ties to the even `k`.  With
`2 ^ e ≤ |q| < 2 ^ (e + 1)` the exponent `s` of the last place is `e - 52`, and
`-1074` in the subnormal range; `|q| / 2 ^ s` is `N / D`, rounded to the whole
number `k`.  No overflow: a result beyond the largest double stays finite. -/
def fl (q : ℚ) : ℚ :=
  if q = 0 then 0
  else
    let n := q.num.natAbs
    let d := q.den
    let e0 : Int := (bit_length n n : Int) - (bit_length d d : Int)
    let e : Int := if n * 2 ^ (-e0).toNat < d * 2 ^ e0.toNat then e0 - 1 else e0
    let s : Int := max e (-1022) - 52
    let N := n * 2 ^ (-s).toNat
    let D := d * 2 ^ s.toNat
    let k := N / D
    let r := N % D
    let k := if 2 * r > D ∨ (2 * r = D ∧ k % 2 = 1) then k + 1 else k
    let v : ℚ := (k : ℚ) * (2 : ℚ) ^ s
    if q < 0 then -v else v

/-- First inner loop of `genhash`:
`tmp = 0.0; for (i = 0; i < 8; ++i) tmp += dct_row[i] * ebe[x + i * 8];`
with `dct_row = DCT_O + 8 * y`; `rnd` rounds the table entry, the product and
the sum. -/
def genhash_tmp (rnd : ℚ → ℚ) (ebe : Mem ℚ) (y x : Nat) : ℚ :=
  (List.range 8).foldl
    (fun tmp i => rnd (tmp + rnd (rnd (DCT_O_at (8 * y + i)) * ebe.read (x + i * 8)))) 0

/-- The coefficient buffer `dct` of `genhash` after the clearing loop
`for (i = 0; i < 64; ++i) dct[i] = 0.0;` and the `y`/`x` loops, whose body ends with
`for (i = 0; i < 8; ++i) ret_row[i] += dct_col[i] * tmp;`
(`ret_row = dct + 8 * y`, `dct_col = DCT_T + 8 * x`); `stack` is the content of
the local array `dct` on entry. -/
def genhash_dct (rnd : ℚ → ℚ) (stack : Mem ℚ) (ebe : Mem ℚ) : Mem ℚ :=
  let dct := (List.range 64).foldl (fun d i => d.write i 0) stack
  (List.range 8).foldl
    (fun d y => (List.range 8).foldl
      (fun d x =>
        let tmp := genhash_tmp rnd ebe y x
        (List.range 8).foldl
          (fun d i => d.write (8 * y + i)
            (rnd (d.read (8 * y + i) + rnd (rnd (DCT_T_at (8 * x + i)) * tmp)))) d)
      d) dct

/-- Last loop of `genhash`:
`for (ret = 0, bit = 1, i = 0; i < 64; ++i, bit <<= 1) if (dct[i] > 0.0) ret |= bit;`
The state is the pair `(ret, bit)`. -/
def genhash_bits (dct : Mem ℚ) : Nat × Nat :=
  (List.range 64).foldl
    (fun st i => (if dct.read i > 0 then st.1 ||| st.2 else st.1, (st.2 <<< 1) % 2 ^ 64)) (0, 1)

/-- The function `genhash`, with the rounding and the entry content of its local
array made explicit. -/
def genhash_on (rnd : ℚ → ℚ) (stack : Mem ℚ) (ebe : Mem ℚ) : Nat :=
  (genhash_bits (genhash_dct rnd stack ebe)).1

/-- The function `genhash`: the arithmetic is that of `double`.  The local array
`dct` is cleared before use, so its entry content is immaterial
(`genhash_on_stack`); it is taken to be zero. -/
def genhash (ebe : Mem ℚ) : Nat := genhash_on fl ⟨fun _ => 0⟩ ebe

/-- Loops of `hflip`: `p = src; for y in 0..7, for x in 7..0: dst[8 * y + x] = *p++`.
The state is `(dst, p)` with `p` the offset of the pointer into `src`. -/
def hflip_loop (dst src : Mem ℚ) : (Mem ℚ) × Nat :=
  (List.range 8).foldl
    (fun st y => [7, 6, 5, 4, 3, 2, 1, 0].foldl
      (fun st x => (st.1.write (8 * y + x) (src.read st.2), st.2 + 1)) st) (dst, 0)

/-- Loops of `hrot1`: `for x in 7..0, for y in 0..7: dst[8 * y + x] = *p++`. -/
def hrot1_loop (dst src : Mem ℚ) : (Mem ℚ) × Nat :=
  [7, 6, 5, 4, 3, 2, 1, 0].foldl
    (fun st x => (List.range 8).foldl
      (fun st y => (st.1.write (8 * y + x) (src.read st.2), st.2 + 1)) st) (dst, 0)

/-- Loops of `hrot2`: `for y in 7..0, for x in 7..0: dst[8 * y + x] = *p++`. -/
def hrot2_loop (dst src : Mem ℚ) : (Mem ℚ) × Nat :=
  [7, 6, 5, 4, 3, 2, 1, 0].foldl
    (fun st y => [7, 6, 5, 4, 3, 2, 1, 0].foldl
      (fun st x => (st.1.write (8 * y + x) (src.read st.2), st.2 + 1)) st) (dst, 0)

/-- Loops of `hrot3`: `for x in 0..7, for y in 7..0: dst[8 * y + x] = *p++`. -/
def hrot3_loop (dst src : Mem ℚ) : (Mem ℚ) × Nat :=
  (List.range 8).foldl
    (fun st x => [7, 6, 5, 4, 3, 2, 1, 0].foldl
      (fun st y => (st.1.write (8 * y + x) (src.read st.2), st.2 + 1)) st) (dst, 0)

/-- The function `hflip`: fills `dst` from `src` and returns `genhash(dst)`.
The result is the new content of `dst` and the returned hash. -/
def hflip (dst src : Mem ℚ) : (Mem ℚ) × Nat :=
  let out := (hflip_loop dst src).1
  (out, genhash out)

/-- The function `hrot1`. -/
def hrot1 (dst src : Mem ℚ) : (Mem ℚ) × Nat :=
  let out := (hrot1_loop dst src).1
  (out, genhash out)

/-- The function `hrot2`. -/
def hrot2 (dst src : Mem ℚ) : (Mem ℚ) × Nat :=
  let out := (hrot2_loop dst src).1
  (out, genhash out)

/-- The function `hrot3`. -/
def hrot3 (dst src : Mem ℚ) : (Mem ℚ) × Nat :=
  let out := (hrot3_loop dst src).1
  (out, genhash out)


/-! ### Specification side of the DCT -/

/-- The table `DCT_O` read as an 8×8 matrix, row-major. -/
def DCT_O_matrix : Matrix (Fin 8) (Fin 8) ℚ := fun y x => DCT_O_at (8 * y.val + x.val)

/-- The table `DCT_T` read as an 8×8 matrix, row-major. -/
def DCT_T_matrix : Matrix (Fin 8) (Fin 8) ℚ := fun y x => DCT_T_at (8 * y.val + x.val)

/-- A 64-entry buffer read as an 8×8 matrix, row-major. -/
def grid_matrix (m : Mem ℚ) : Matrix (Fin 8) (Fin 8) ℚ := fun y x => m.read (8 * y.val + x.val)

/-- The value the loops of `genhash` leave in `dct[8 * y + x]`: the sum over `b`
of `DCT_T[8 * b + x] * tmp`, `tmp` the sum over `a` of
`DCT_O[8 * y + a] * ebe[b + 8 * a]`, both accumulated from 0 in the order of the
loops, with `rnd` applied to every table entry, product and partial sum. -/
def genhash_coeff (rnd : ℚ → ℚ) (ebe : Mem ℚ) (y x : Nat) : ℚ :=
  (List.range 8).foldl
    (fun acc b => rnd (acc + rnd (rnd (DCT_T_at (8 * b + x)) * genhash_tmp rnd ebe y b))) 0

/-- The fields of `struct item_t` (`imgcmp.h`).  The raw file bytes `data` are
not modelled, and the `next` link is represented by the list of item addresses
(see `intracmp`).  A pointer to an item is its address in a `Mem item_t`;
`NULL` is `none`. -/
structure item_t where
  valid : Bool
  path : String
  mtime : Int
  etime : Int
  w : Int
  h : Int
  size : Int
  hashes : Nat → Nat
  eq_parent : Option Nat
  eq_next : Option Nat
  eq_trans : Nat
  eq_dist : Int
  eq_n : Nat

/-- Inner loops of `scale_down` for the cell `(y0, x0)`:
`sum = 0.0; for dy < Dy, for dx < Dx: sum += src[w * row + col]` with
`row = Y0 + y0 * Dy + dy`, `col = X0 + x0 * Dx + dx`.  The pixel buffer `src` is
a list; a read outside it has no result. -/
def scale_down_sum (src : List Nat) (w Dx Dy X0 Y0 y0 x0 : Nat) : Option ℚ :=
  (List.range Dy).foldlM
    (fun sum dy => (List.range Dx).foldlM
      (fun sum dx =>
        let row := Y0 + y0 * Dy + dy
        let col := X0 + x0 * Dx + dx
        (src[w * row + col]?).map (fun v => sum + (v : ℚ))) sum) 0

/-- The function `scale_down`: `dst[i++] = sum / (Dx * Dy)` for the 64 cells in
row-major order.  The state of the outer loops is `(dst, i)`; the result is the
new content of `dst`, or `none` if a pixel read falls outside `src`.  (For
`w < 8` or `h < 8` the C code divides by zero; `handle_item` rejects such images
right after the call.) -/
def scale_down (dst : Mem ℚ) (src : List Nat) (w h : Nat) : Option (Mem ℚ) :=
  let Dy := h / 8
  let Dx := w / 8
  let X0 := (w % 8) / 2
  let Y0 := (h % 8) / 2
  ((List.range 8).foldlM
    (fun st y0 => (List.range 8).foldlM
      (fun (st : Mem ℚ × Nat) x0 =>
        (scale_down_sum src w Dx Dy X0 Y0 y0 x0).map
          (fun sum => (st.1.write st.2 (sum / ((Dx * Dy : Nat) : ℚ)), st.2 + 1))) st)
    (dst, 0)).map Prod.fst

/-- The store `item->hashes[t] = v`. -/
def item_t.set_hash (item : item_t) (t : Nat) (v : Nat) : item_t :=
  { item with hashes := Function.update item.hashes t v }

/-- State of the hashing part of `handle_item`: the item and the two stack
buffers `ebe_base` and `ebe_temp`. -/
structure hash_state where
  item : item_t
  ebe_base : Mem ℚ
  ebe_temp : Mem ℚ

/-- The three rotation calls of `handle_item`, writing into `ebe_temp`. -/
def handle_item_rotate (s : hash_state) : hash_state :=
  let r1 := hrot1 s.ebe_temp s.ebe_base
  let s := { s with ebe_temp := r1.1, item := s.item.set_hash TI_ROT1 r1.2 }
  let r2 := hrot2 s.ebe_temp s.ebe_base
  let s := { s with ebe_temp := r2.1, item := s.item.set_hash TI_ROT2 r2.2 }
  let r3 := hrot3 s.ebe_temp s.ebe_base
  { s with ebe_temp := r3.1, item := s.item.set_hash TI_ROT3 r3.2 }

/-- The three flipped rotation calls of `handle_item`, reading `ebe_temp` and
writing into `ebe_base` ("reuse stacked ebe_base"). -/
def handle_item_fliprot (s : hash_state) : hash_state :=
  let r1 := hrot1 s.ebe_base s.ebe_temp
  let s := { s with ebe_base := r1.1, item := s.item.set_hash TI_FLR1 r1.2 }
  let r2 := hrot2 s.ebe_base s.ebe_temp
  let s := { s with ebe_base := r2.1, item := s.item.set_hash TI_FLR2 r2.2 }
  let r3 := hrot3 s.ebe_base s.ebe_temp
  { s with ebe_base := r3.1, item := s.item.set_hash TI_FLR3 r3.2 }

/-- The hashing part of `handle_item`, from `item->hashes[TI_BASE] = genhash(ebe_base)`
to the end of the `if (transform)` block.  The inner test of the flip branch is
`transform & TRANS_FLIP` in the source, as here. -/
def handle_item_hashes (transform : Nat) (s : hash_state) : hash_state :=
  let s := { s with item := s.item.set_hash TI_BASE (genhash s.ebe_base) }
  if transform ≠ 0 then
    let s := if transform &&& TRANS_ROTATE ≠ 0 then handle_item_rotate s else s
    if transform &&& TRANS_FLIP ≠ 0 then
      let f := hflip s.ebe_temp s.ebe_base
      let s := { s with ebe_temp := f.1, item := s.item.set_hash TI_FLIP f.2 }
      if transform &&& TRANS_FLIP ≠ 0 then handle_item_fliprot s else s
    else s
  else s

/-- The function `handle_item` after the file has been read and decoded to the
grayscale buffer `img` of a `w`×`h` image: `scale_down`, the validity test and
the hashes (the EXIF date and the printing of the item are not modelled).  The
result is `none` if `scale_down` reads outside `img`. -/
def handle_item (transform : Nat) (item : item_t) (img : List Nat) (w h : Nat)
    (ebe_base ebe_temp : Mem ℚ) : Option item_t :=
  (scale_down ebe_base img w h).map (fun base =>
    let item := { item with w := w, h := h, valid := decide (w ≥ 8 ∧ h ≥ 8) }
    if item.valid then (handle_item_hashes transform ⟨item, base, ebe_temp⟩).item else item)

/-! ### Specification side of the image transforms -/

/-- The horizontally mirrored image: pixel `(row, col)` of the result is pixel
`(row, w - 1 - col)` of `src`. -/
def mirror_image (src : List Nat) (w h : Nat) : List Nat :=
  (List.range (w * h)).map (fun i => src.getD (w * (i / w) + (w - 1 - i % w)) 0)

/-- The sum of the pixels of cell `(y0, x0)`, the value of `sum` after the
inner loops of `scale_down`. -/
def cell_sum (src : List Nat) (w h y0 x0 : Nat) : ℚ :=
  ∑ dy in Finset.range (h / 8), ∑ dx in Finset.range (w / 8),
    (src.getD (w * ((h % 8) / 2 + y0 * (h / 8) + dy) + ((w % 8) / 2 + x0 * (w / 8) + dx)) 0 : ℚ)

/-! ## `imgdups.c` -/

/-- Loop of `dist`: `for (c = a ^ b; c; c &= c - 1) ++d;` from the state `(c, d)`. -/
@[semireducible] def dist_loop (c d : Nat) : Nat :=
  if h : c = 0 then d else dist_loop (c &&& (c - 1)) (d + 1)
termination_by c
decreasing_by
  have h1 : c &&& (c - 1) ≤ c - 1 := Nat.and_le_right
  omega

/-- The function `dist`. -/
def dist (a b : Nat) : Nat := dist_loop (a ^^^ b) 0

/-- Loop of `hasheq`: `for (c = a ^ b; c; c &= c - 1) if (++d > threshold) return false;`
from the state `(c, d)`, followed by `return true`. -/
@[semireducible] def hasheq_loop (threshold : Int) (c : Nat) (d : Int) : Bool :=
  if h : c = 0 then true
  else if d + 1 > threshold then false
  else hasheq_loop threshold (c &&& (c - 1)) (d + 1)
termination_by c
decreasing_by
  have h1 : c &&& (c - 1) ≤ c - 1 := Nat.and_le_right
  omega

/-- The function `hasheq`; the global `threshold` is a parameter. -/
def hasheq (threshold : Int) (a b : Nat) : Bool := hasheq_loop threshold (a ^^^ b) 0

/-- The function `cmp_items`: the macro `_CMP(t)` expanded in source order
`TI_BASE, TI_FLIP, TI_ROT1, TI_ROT2, TI_ROT3, TI_FLR1, TI_FLR2, TI_FLR3`. -/
def cmp_items (threshold : Int) (a b : item_t) : Nat :=
  if hasheq threshold (a.hashes TI_BASE) (b.hashes TI_BASE) then TI_LAST + TI_BASE
  else if hasheq threshold (a.hashes TI_BASE) (b.hashes TI_FLIP) then TI_LAST + TI_FLIP
  else if hasheq threshold (a.hashes TI_BASE) (b.hashes TI_ROT1) then TI_LAST + TI_ROT1
  else if hasheq threshold (a.hashes TI_BASE) (b.hashes TI_ROT2) then TI_LAST + TI_ROT2
  else if hasheq threshold (a.hashes TI_BASE) (b.hashes TI_ROT3) then TI_LAST + TI_ROT3
  else if hasheq threshold (a.hashes TI_BASE) (b.hashes TI_FLR1) then TI_LAST + TI_FLR1
  else if hasheq threshold (a.hashes TI_BASE) (b.hashes TI_FLR2) then TI_LAST + TI_FLR2
  else if hasheq threshold (a.hashes TI_BASE) (b.hashes TI_FLR3) then TI_LAST + TI_FLR3
  else 0

/-- The loop `for (p = ref; p->eq_parent; p = p->eq_parent);` of `handle_pair`,
run for at most `fuel` tests of the loop condition; `none` if it has not
terminated by then. -/
def find_root (heap : Mem item_t) : Nat → Nat → Option Nat
  | 0, _ => none
  | fuel + 1, p =>
    match (heap.read p).eq_parent with
    | none => some p
    | some q => find_root heap fuel q

/-- The five stores of `handle_pair` that attach `tmp` to the root `p`, in
source order. -/
def attach (heap : Mem item_t) (p tmp eqt : Nat) : Mem item_t :=
  let heap := heap.write tmp { heap.read tmp with eq_parent := some p }
  let heap := heap.write tmp { heap.read tmp with eq_next := (heap.read p).eq_next }
  let heap := heap.write tmp { heap.read tmp with eq_trans := eqt - TI_LAST }
  let heap := heap.write p { heap.read p with eq_next := some tmp }
  heap.write p { heap.read p with eq_n := (heap.read p).eq_n + 1 }

/-- The function `handle_pair` on the items at addresses `ref` and `tmp`. -/
def handle_pair (fuel : Nat) (threshold : Int) (heap : Mem item_t) (ref tmp : Nat) :
    Option (Mem item_t) :=
  if (heap.read tmp).eq_parent.isSome then some heap
  else
    let eqt := cmp_items threshold (heap.read ref) (heap.read tmp)
    if eqt ≠ 0 then
      (find_root heap fuel ref).map (fun p => attach heap p tmp eqt)
    else some heap

/-- The loops of `refcmp`: `for ref in refs, for tmp in items: handle_pair(ref, tmp)`.
A list linked through `next` is given by the list of the addresses of its
items. -/
def refcmp (fuel : Nat) (threshold : Int) (heap : Mem item_t) (items refs : List Nat) :
    Option (Mem item_t) :=
  refs.foldlM
    (fun heap ref => items.foldlM (fun heap tmp => handle_pair fuel threshold heap ref tmp) heap)
    heap

/-- The loops of `intracmp`:
`for (ref = items; ref; ref = ref->next) for (tmp = ref->next; tmp; tmp = tmp->next)
handle_pair(ref, tmp)`. -/
def intracmp (fuel : Nat) (threshold : Int) (heap : Mem item_t) : List Nat → Option (Mem item_t)
  | [] => some heap
  | ref :: rest =>
    (rest.foldlM (fun heap tmp => handle_pair fuel threshold heap ref tmp) heap).bind
      (fun heap => intracmp fuel threshold heap rest)

/-- The inner loop of `postproc`, `for (tmp = ref->eq_next; tmp; tmp = tmp->eq_next)`,
started at the pointer `start`: the list of the items it visits, or `none` if it
has not reached `NULL` after `fuel` items. -/
def peers_walk (heap : Mem item_t) : Nat → Option Nat → Option (List Nat)
  | _, none => some []
  | 0, some _ => none
  | fuel + 1, some t => (peers_walk heap fuel (heap.read t).eq_next).map (fun l => t :: l)

/-- The value `postproc` stores in `tmp->eq_dist` for the peer `tmp` of the root `ref`. -/
def postproc_dist (heap : Mem item_t) (ref tmp : Nat) : Nat :=
  dist ((heap.read ref).hashes TI_BASE) ((heap.read tmp).hashes (heap.read tmp).eq_trans)

/-! ### Specification side of the grouper -/

/-- Hamming distance of two 64-bit words: the number of bit positions below 64
in which they differ. -/
def hamming (a b : Nat) : Nat :=
  ((List.range 64).filter (fun i => a.testBit i != b.testBit i)).length

/-- A freshly parsed item: no parent, no peer, no cluster count. -/
def fresh (it : item_t) : Prop := it.eq_parent = none ∧ it.eq_next = none ∧ it.eq_n = 0

/-- The root of the cluster of the item at `a`: its parent, or itself. -/
def cluster_root (heap : Mem item_t) (a : Nat) : Nat := ((heap.read a).eq_parent).getD a

/-- The pointer `start` leads, through `eq_next`, along exactly the items of `l`
and then to `NULL`. -/
def chain (heap : Mem item_t) : Option Nat → List Nat → Prop
  | start, [] => start = none
  | start, c :: l => start = some c ∧ chain heap (heap.read c).eq_next l

/-- Two items match: `cmp_items` finds a transform. -/
def matches_item (threshold : Int) (heap : Mem item_t) (a b : Nat) : Prop :=
  cmp_items threshold (heap.read a) (heap.read b) ≠ 0

/-- Well-formed clusters over the items `all`: parents are roots, and the
`eq_next` chain of a root holds each of its children once and is counted by
`eq_n`; every child matched some item of its cluster under its `eq_trans`. -/
structure clusters_wf (threshold : Int) (heap : Mem item_t) (all : List Nat) : Prop where
  parent_root : ∀ c ∈ all, ∀ p, (heap.read c).eq_parent = some p →
    p ∈ all ∧ (heap.read p).eq_parent = none
  peers : ∀ r ∈ all, (heap.read r).eq_parent = none →
    ∃ l, chain heap (heap.read r).eq_next l ∧ l.Nodup ∧ l.length = (heap.read r).eq_n ∧
      ∀ c, c ∈ l ↔ (c ∈ all ∧ (heap.read c).eq_parent = some r)
  matched : ∀ c ∈ all, ∀ p, (heap.read c).eq_parent = some p →
    (heap.read c).eq_trans < 8 ∧
    ∃ m ∈ all, cluster_root heap m = p ∧
      hasheq threshold ((heap.read m).hashes TI_BASE)
        ((heap.read c).hashes (heap.read c).eq_trans) = true

/-- The clustering pass only adds parents and never touches hashes. -/
def frozen (heap heap2 : Mem item_t) : Prop :=
  (∀ a, (heap2.read a).hashes = (heap.read a).hashes) ∧
  (∀ a p, (heap.read a).eq_parent = some p → (heap2.read a).eq_parent = some p)

/-- An item with the eight hashes all equal to `v` and no cluster links. -/
def plain_item (v : Nat) : item_t :=
  ⟨true, "", 0, 0, 0, 0, 0, fun _ => v, none, none, 0, -1, 0⟩

/-- Three items at addresses 0, 1, 2 with hashes 0, 1, 3: consecutive items are
at distance 1, the first and the last at distance 2. -/
def heap_chain3 : Mem item_t :=
  ⟨fun a => plain_item (if a = 0 then 0 else if a = 1 then 1 else 3)⟩

instance (threshold : Int) (heap : Mem item_t) (a b : Nat) :
    Decidable (matches_item threshold heap a b) :=
  inferInstanceAs (Decidable (cmp_items threshold (heap.read a) (heap.read b) ≠ 0))

instance (it : item_t) : Decidable (fresh it) :=
  inferInstanceAs (Decidable (it.eq_parent = none ∧ it.eq_next = none ∧ it.eq_n = 0))

/-- The match relation is transitive on the items `all`. -/
def match_trans (threshold : Int) (heap : Mem item_t) (all : List Nat) : Prop :=
  ∀ a ∈ all, ∀ b ∈ all, ∀ c ∈ all,
    matches_item threshold heap a b → matches_item threshold heap b c →
      matches_item threshold heap a c

/-- The match relation is symmetric on the items `all`. -/
def match_symm (threshold : Int) (heap : Mem item_t) (all : List Nat) : Prop :=
  ∀ a ∈ all, ∀ b ∈ all, matches_item threshold heap a b → matches_item threshold heap b a

/-- Loop invariant of `intracmp`, started on `heap0`, when the items `pend` have
not yet been the `ref` of the outer loop: clusters are well formed, no pending
item is a parent, hashes and parents already set are kept, and, if matching
is transitive, every child matches its parent. -/
structure intra_inv (threshold : Int) (heap0 : Mem item_t) (all pend : List Nat)
    (heap : Mem item_t) : Prop where
  wf : clusters_wf threshold heap all
  np : ∀ c ∈ all, ∀ p, (heap.read c).eq_parent = some p → p ∉ pend
  fr : frozen heap0 heap
  pm : match_trans threshold heap0 all →
    ∀ c ∈ all, ∀ p, (heap.read c).eq_parent = some p → matches_item threshold heap0 p c

/-- Loop invariant of `refcmp`, started on `heap0`: hashes and parents already
set are kept, no reference has a parent, and the parent of each candidate `c`
is `expect c`. -/
structure ref_inv (heap0 : Mem item_t) (refs items : List Nat) (heap : Mem item_t)
    (expect : Nat → Option Nat) : Prop where
  fr : frozen heap0 heap
  refs_root : ∀ r ∈ refs, (heap.read r).eq_parent = none
  cand : ∀ c ∈ items, (heap.read c).eq_parent = expect c

/-- The first item of `refs`, in list order, that matches the candidate `c`. -/
def first_match (threshold : Int) (heap : Mem item_t) (refs : List Nat) (c : Nat) : Option Nat :=
  refs.find? (fun r => decide (matches_item threshold heap r c))

/-- The first item of `refs`, in list order, whose BASE hash is within Hamming
distance `threshold` of one of the eight hashes of the candidate `c`. -/
def first_within (threshold : Int) (heap : Mem item_t) (refs : List Nat) (c : Nat) : Option Nat :=
  refs.find? (fun r => (List.range 8).any (fun t =>
    decide ((hamming ((heap.read r).hashes TI_BASE) ((heap.read c).hashes t) : Int) ≤ threshold)))

/-- Two items, at every address, with the eight hashes all equal to 5. -/
def heap_twins : Mem item_t := ⟨fun _ => plain_item 5⟩

/-- Every child was attached on a match with an earlier item of its cluster:
for a child `c` of `p` there is an item `m` that stands before `c` in the list
`all`, belongs to the cluster of `p`, and whose BASE hash is `hasheq` to the hash
of `c` that `c.eq_trans` selects. -/
def matched_before (threshold : Int) (heap : Mem item_t) (all : List Nat) : Prop :=
  ∀ c ∈ all, ∀ p, (heap.read c).eq_parent = some p →
    ∃ m pre post, all = pre ++ m :: post ∧ c ∈ post ∧ cluster_root heap m = p ∧
      hasheq threshold ((heap.read m).hashes TI_BASE)
        ((heap.read c).hashes (heap.read c).eq_trans) = true

/-! ## The record codec: `tname`, `fputjson` (`imgcmp.c`) and the parser callbacks (`imgdups.c`) -/

/-- The function `tname`. -/
def tname (t : Nat) : String :=
  if t = TI_BASE then "base"
  else if t = TI_FLIP then "flip"
  else if t = TI_ROT1 then "rot1"
  else if t = TI_ROT2 then "rot2"
  else if t = TI_ROT3 then "rot3"
  else if t = TI_FLR1 then "flr1"
  else if t = TI_FLR2 then "flr2"
  else if t = TI_FLR3 then "flr3"
  else ""

/-- Decimal digits of `v`, most significant first, in front of `acc`. -/
@[semireducible] def print_lu_aux (v : Nat) (acc : List Char) : List Char :=
  if v < 10 then Char.ofNat (48 + v) :: acc
  else print_lu_aux (v / 10) (Char.ofNat (48 + v % 10) :: acc)
termination_by v
decreasing_by omega

/-- The text `printf` writes for the conversion `%lu` (C library): the decimal
digits of `v`, without sign and without leading zeros. -/
def print_lu (v : Nat) : String := ⟨print_lu_aux v []⟩

/-- The text `printf` writes for the conversions `%d` and `%ld` (C library). -/
def print_d (x : Int) : String :=
  if x < 0 then ⟨'-' :: print_lu_aux (-x).toNat []⟩ else print_lu x.toNat

/-- A value written by `fputjson`: the text of a number, or the content of a string. -/
inductive json_text where
  | num (text : String)
  | str (text : String)
deriving DecidableEq

/-- The function `fputjson`: the keys it writes with their values, in the order
it writes them (indentation and punctuation are not modelled). -/
def fputjson_fields (item : item_t) : List (String × json_text) :=
  [("path", json_text.str item.path),
   ("size", json_text.num (print_d item.size)),
   ("w", json_text.num (print_d item.w)),
   ("h", json_text.num (print_d item.h)),
   ("mtime", json_text.num (print_d item.mtime))]
  ++ (if item.etime ≠ 0 then [("etime", json_text.num (print_d item.etime))] else [])
  ++ (if item.eq_dist ≠ -1 then
        [("dist", json_text.num (print_d item.eq_dist)),
         ("xform", json_text.str (tname item.eq_trans)),
         ("hash", json_text.num (print_lu (item.hashes item.eq_trans)))]
      else
        (List.range TI_LAST).map
          (fun i => (tname i, json_text.num (print_lu (item.hashes i)))))

/-- The C string that starts at the first byte of `s`: the bytes before the
first NUL. -/
def c_str (s : String) : String := ⟨s.data.takeWhile (fun c => c ≠ Char.ofNat 0)⟩

/-- The function `mkstr`: a NUL-terminated copy of the `len` bytes of `val`; the
result is the C string the copy holds. -/
def mkstr (val : String) : String := c_str val

/-- The test `isspace` of the C library in the "C" locale. -/
def c_isspace (c : Char) : Bool :=
  c.toNat = 32 || (9 ≤ c.toNat && c.toNat ≤ 13)

/-- The function `strtoul(str, &end, 10)` of the C library on the text `str`
(followed by a byte that is not a digit): white space is skipped, an optional
sign is read, then decimal digits.  The result is the value returned and
`end - str`.  Without digits nothing is converted; a magnitude that does not fit
64 bits gives `ULONG_MAX`; after a minus sign the value is negated modulo `2 ^ 64`. -/
def strtoul10 (str : List Char) : Nat × Nat :=
  let s1 := str.dropWhile c_isspace
  let neg := s1.head? = some '-'
  let s2 := if s1.head? = some '-' ∨ s1.head? = some '+' then s1.tail else s1
  let ds := s2.takeWhile Char.isDigit
  if ds = [] then (0, 0)
  else
    let n := ds.foldl (fun a c => 10 * a + (c.toNat - 48)) 0
    let val := if n ≥ 2 ^ 64 then 2 ^ 64 - 1 else if neg then (2 ^ 64 - n) % 2 ^ 64 else n
    (val, (str.length - s2.length) + ds.length)

/-- Conversion of an `unsigned long` to `int`. -/
def to_int (v : Nat) : Int := ((v + 2 ^ 31) % 2 ^ 32 : Nat) - 2 ^ 31

/-- Conversion of an `unsigned long` to `time_t` (`long`). -/
def to_long (v : Nat) : Int := ((v + 2 ^ 63) % 2 ^ 64 : Nat) - 2 ^ 63

/-- The globals of the parser: `last_key` (`none` is `NULL`) and the list
`g_head`, whose first item is the item under construction. -/
structure parser_state where
  last_key : Option String
  g_head : List item_t

/-- The item `ecalloc` and `jmaps` set up: all fields zero, `eq_dist = -1`,
`eq_trans = TI_LAST`. -/
def new_item : item_t :=
  ⟨false, "", 0, 0, 0, 0, 0, fun _ => 0, none, none, TI_LAST, -1, 0⟩

/-- The callback `jmaps`. -/
def jmaps (st : parser_state) : Nat × parser_state :=
  (1, { st with g_head := new_item :: st.g_head })

/-- The callback `jkey`. -/
def jkey (st : parser_state) (str : String) : Nat × parser_state :=
  (1, { st with last_key := some (mkstr str) })

/-- The callback `jstr`: the return value and the new state. -/
def jstr (st : parser_state) (str : String) : Nat × parser_state :=
  let val := mkstr str
  match st.last_key, st.g_head with
  | some key, item :: rest =>
    if key = "path" then (1, { st with g_head := { item with path := val } :: rest })
    else (0, st)
  | _, _ => (0, st)

/-- The callback `jnum` on the number token `str`: the return value and the new
state.  `STOREATIF` is expanded in source order. -/
def jnum (st : parser_state) (str : String) : Nat × parser_state :=
  let r := strtoul10 str.data
  let val := r.1
  if r.2 ≠ str.data.length then (0, st)
  else
    match st.last_key, st.g_head with
    | some key, item :: rest =>
      if key = "size" then (1, { st with g_head := { item with size := to_int val } :: rest })
      else if key = "w" then (1, { st with g_head := { item with w := to_int val } :: rest })
      else if key = "h" then (1, { st with g_head := { item with h := to_int val } :: rest })
      else if key = "mtime" then
        (1, { st with g_head := { item with mtime := to_long val } :: rest })
      else if key = "etime" then
        (1, { st with g_head := { item with etime := to_long val } :: rest })
      else if key = "base" then (1, { st with g_head := item.set_hash TI_BASE val :: rest })
      else if key = "rot1" then (1, { st with g_head := item.set_hash TI_ROT1 val :: rest })
      else if key = "rot2" then (1, { st with g_head := item.set_hash TI_ROT2 val :: rest })
      else if key = "rot3" then (1, { st with g_head := item.set_hash TI_ROT3 val :: rest })
      else if key = "flip" then (1, { st with g_head := item.set_hash TI_FLIP val :: rest })
      else if key = "flr1" then (1, { st with g_head := item.set_hash TI_FLR1 val :: rest })
      else if key = "flr2" then (1, { st with g_head := item.set_hash TI_FLR2 val :: rest })
      else if key = "flr3" then (1, { st with g_head := item.set_hash TI_FLR3 val :: rest })
      else (0, st)
    | _, _ => (0, st)

/-! ### Specification side of the record codec -/

/-- The field names the parser knows. -/
def known_keys : List String :=
  ["path", "size", "w", "h", "mtime", "etime",
   "base", "rot1", "rot2", "rot3", "flip", "flr1", "flr2", "flr3"]

/-- The eight keys that carry a hash, in the order of the transform indices. -/
def hash_keys : List String :=
  ["base", "rot1", "rot2", "rot3", "flip", "flr1", "flr2", "flr3"]

/-- Digits of a JSON number: the rest after one or more decimal digits, or
`none` without a digit. -/
def json_digits (s : List Char) : Option (List Char) :=
  if s.takeWhile Char.isDigit = [] then none else some (s.dropWhile Char.isDigit)

/-- The grammar of a JSON number token:
`-? (0 | [1-9][0-9]*) (. [0-9]+)? ([eE] [+-]? [0-9]+)?`. -/
def json_number (tok : List Char) : Bool :=
  let s := if tok.head? = some '-' then tok.tail else tok
  let afterInt : Option (List Char) :=
    match s with
    | '0' :: r => some r
    | c :: _ => if c.isDigit then some (s.dropWhile Char.isDigit) else none
    | [] => none
  match afterInt with
  | none => false
  | some r =>
    let afterFrac : Option (List Char) :=
      if r.head? = some '.' then json_digits r.tail else some r
    match afterFrac with
    | none => false
    | some r2 =>
      if r2.head? = some 'e' ∨ r2.head? = some 'E' then
        let r3 := r2.tail
        let r4 := if r3.head? = some '+' ∨ r3.head? = some '-' then r3.tail else r3
        json_digits r4 = some []
      else r2 = []

/-- A number token without its minus sign. -/
def json_body (tok : List Char) : List Char :=
  if tok.head? = some '-' then tok.tail else tok

/-- The number a text of decimal digits denotes. -/
def decimal_value (ds : List Char) : Nat :=
  ds.foldl (fun a c => 10 * a + (c.toNat - 48)) 0

/-- The 64-bit value an integer token denotes when it is read as an
`unsigned long`: `2 ^ 64 - 1` for a magnitude that does not fit, the negation
modulo `2 ^ 64` after a minus sign, else the magnitude. -/
def wrapped_value (tok : List Char) : Nat :=
  if decimal_value (json_body tok) ≥ 2 ^ 64 then 2 ^ 64 - 1
  else if tok.head? = some '-' then (2 ^ 64 - decimal_value (json_body tok)) % 2 ^ 64
  else decimal_value (json_body tok)

/-! ## `jpgtrim.c` -/

/-- The globals `threshold`, `gradient` and `margin` of `jpgtrim.c`. -/
structure trim_cfg where
  threshold : Int
  gradient : Int
  margin : Int

/-- The function `abs` of the C library. -/
def c_abs (x : Int) : Int := if x < 0 then -x else x

/-- The locals `min`, `max`, `di`, `prev` of the inner loop of `findborder`. -/
structure scan_state where
  min : Int
  max : Int
  di : Int
  prev : Int

/-- Body of the inner loop of `findborder` for the index `i` and the sample `v`. -/
def scan_step (st : scan_state) (i : Int) (v : Int) : scan_state :=
  let min := if v < st.min then v else st.min
  let max := if v > st.max then v else st.max
  let di :=
    if i ≠ 0 then
      let delta := c_abs (st.prev - v)
      if delta > st.di then delta else st.di
    else st.di
  ⟨min, max, di, v⟩

/-- Inner loop of `findborder` for the line `o`:
`for (int i = is; i < ie; ++i) { uint8_t v = data[o * oM + i * iM]; ... }`
from `min = 1000, max = 0, di = 0, prev = -1`.  The pixel buffer `data` is a
map from offset to sample. -/
def scan_line (data : Int → Nat) (is ie o iM oM : Int) : scan_state :=
  (List.range (ie - is).toNat).foldl
    (fun st (k : Nat) => scan_step st (is + (k : Int)) (data (o * oM + (is + (k : Int)) * iM)))
    ⟨1000, 0, 0, -1⟩

/-- The test that ends the scan of `findborder`:
`di > gradient && abs(min - max) > threshold`. -/
def scan_breaks (cfg : trim_cfg) (st : scan_state) : Bool :=
  decide (st.di > cfg.gradient) && decide (c_abs (st.min - st.max) > cfg.threshold)

/-- Outer loop of `findborder`, `for (int o = os; o != oe; o += od)`, from the
state `(o, ret)`, run for at most `fuel` lines. -/
def findborder_loop (cfg : trim_cfg) (data : Int → Nat) (is ie oe od iM oM : Int) :
    Nat → Int → Int → Option Int
  | 0, o, ret => if o = oe then some ret else none
  | fuel + 1, o, ret =>
    if o = oe then some ret
    else if scan_breaks cfg (scan_line data is ie o iM oM) then some ret
    else findborder_loop cfg data is ie oe od iM oM fuel (o + od) (ret + 1)

/-- The function `findborder`. -/
def findborder (fuel : Nat) (cfg : trim_cfg) (data : Int → Nat)
    (is ie os oe od iM oM : Int) : Option Int :=
  findborder_loop cfg data is ie oe od iM oM fuel os cfg.margin

/-- The four depths `mt`, `mb`, `ml`, `mr` computed by `handle`. -/
structure borders where
  mt : Int
  mb : Int
  ml : Int
  mr : Int

/-- The four calls of `findborder` in `handle` on the decoded `w`×`h` image. -/
def handle_borders (fuel : Nat) (cfg : trim_cfg) (data : Int → Nat) (w h : Int) :
    Option borders :=
  (findborder fuel cfg data 0 w 0 (h - 1) 1 1 w).bind fun mt =>
  (findborder fuel cfg data 0 w (h - 1) (-1) (-1) 1 w).bind fun mb =>
  (findborder fuel cfg data mt (h - mb) 0 (w - 1) 1 w 1).bind fun ml =>
  (findborder fuel cfg data mt (h - mb) (w - 1) (-1) (-1) w 1).bind fun mr =>
  some ⟨mt, mb, ml, mr⟩

/-- The crop `handle` computes: origin, size and the flag `do_crop`. -/
structure crop_rect where
  cx : Int
  cy : Int
  cw : Int
  ch : Int
  do_crop : Bool
deriving DecidableEq

/-- The crop computation of `handle`; `%` of C is `Int.tmod`, and `xmod`, `ymod`
are the entries of `tjMCUWidth`, `tjMCUHeight` for the subsampling of the file. -/
def crop_geometry (w h xmod ymod : Int) (b : borders) : crop_rect :=
  let xm := Int.tmod b.ml xmod
  let ym := Int.tmod b.mt ymod
  let cx := b.ml + (xmod - xm)
  let cy := b.mt + (ymod - ym)
  let cw := w - b.mr - xm - cx
  let cw := cw - Int.tmod cw xmod
  let ch := h - b.mb - ym - cy
  let ch := ch - Int.tmod ch ymod
  ⟨cx, cy, cw, ch, decide (cx + cw ≤ w ∧ cy + ch ≤ h)⟩

/-- The part of `handle` from the four scans to the decision: `none` inside when
no depth exceeds the margin, otherwise the crop. -/
def handle_crop (fuel : Nat) (cfg : trim_cfg) (data : Int → Nat) (w h xmod ymod : Int) :
    Option (Option crop_rect) :=
  (handle_borders fuel cfg data w h).map fun b =>
    if b.mt > cfg.margin ∨ b.mb > cfg.margin ∨ b.ml > cfg.margin ∨ b.mr > cfg.margin then
      some (crop_geometry w h xmod ymod b)
    else none

/-- The file system: the content of the file at each path, if there is one. -/
structure file_system where
  file : String → Option (List Nat)

/-- A successful `rename(src, dst)`. -/
def file_system.rename (fs : file_system) (src dst : String) : file_system :=
  ⟨fun p => if p = src then none else if p = dst then fs.file src else fs.file p⟩

/-- The content of the file at `path` becomes `bytes`. -/
def file_system.store (fs : file_system) (path : String) (bytes : List Nat) : file_system :=
  ⟨fun p => if p = path then some bytes else fs.file p⟩

/-- Outcome of the external steps of `crop`: whether each call succeeds, the
bytes `tj3Transform` produces (`none` when it fails), what a write that does
not complete leaves in the file, and whether `fclose` gets the buffered bytes
into the file. -/
structure crop_env where
  rename_backup_ok : Bool
  init_ok : Bool
  transform : Option (List Nat)
  fopen_ok : Bool
  fwrite_ok : Bool
  short_bytes : List Nat
  rename_restore_ok : Bool
  fclose_ok : Bool

/-- How `crop` ends: it returns `ret`, or `err` ends the process, or the process
crashes in `fclose(NULL)`. -/
inductive crop_result where
  | returned (ret : Int) (fs : file_system)
  | exited (fs : file_system)
  | crashed (fs : file_system)

/-- The function `crop` as far as the files are concerned.  The source buffer
and the rectangle only feed `tj3Transform`, whose outcome is in `env`.  A
successful `fopen(path, "wb")` leaves an empty file at `path`; the bytes given to
`fwrite` reach the file `fp` when `fclose(fp)` succeeds, whose result the code
does not look at.  After the `rename` back, `fp` is no longer the file at
`path`.  After a failed `fopen` the code calls `fclose(NULL)`, which is taken to
crash the process. -/
def crop (clobber : Bool) (oldext : String) (env : crop_env) (fs : file_system)
    (path : String) : crop_result :=
  let old := path ++ oldext
  if !clobber && !env.rename_backup_ok then crop_result.returned 1 fs
  else
    let fs := if !clobber then fs.rename path old else fs
    if !env.init_ok then crop_result.exited fs
    else
      match env.transform with
      | none => crop_result.returned 1 fs
      | some dstbuf =>
        let opened := env.fopen_ok
        let fs := if opened then fs.store path [] else fs
        let ret : Int := if opened && env.fwrite_ok then 0 else 1
        let restored := decide (ret ≠ 0) && !clobber && env.rename_restore_ok
        let fs := if restored then fs.rename old path else fs
        if !opened then crop_result.crashed fs
        else
          let written := if env.fwrite_ok && env.fclose_ok then dstbuf else env.short_bytes
          let fs := if restored then fs else fs.store path written
          crop_result.returned ret fs

/-! ### Specification side of the trimmer -/

/-- Sample `i` of the line `o`. -/
def sample (data : Int → Nat) (o iM oM i : Int) : Int := (data (o * oM + i * iM) : Int)

/-- The gradient test on the samples `is ≤ i < ie` of a line: every pair of
adjacent samples inside the range differs by at most `g`. -/
def gradient_ok (data : Int → Nat) (o iM oM is ie g : Int) : Prop :=
  ∀ i, is < i → i < ie → c_abs (sample data o iM oM (i - 1) - sample data o iM oM i) ≤ g

/-- The luminosity test on the samples `is ≤ i < ie` of a line: no two samples
of the range differ by more than `t` (`max - min ≤ t`). -/
def range_ok (data : Int → Nat) (o iM oM is ie t : Int) : Prop :=
  ∀ i j, is ≤ i → i < ie → is ≤ j → j < ie →
    sample data o iM oM i - sample data o iM oM j ≤ t

/-- The maximum of `|v[i] - v[i-1]|` over the adjacent pairs of samples inside
`is ≤ i < ie`, and 0 when there is no such pair. -/
def max_adjacent_delta (data : Int → Nat) (o iM oM is ie : Int) : Int :=
  (List.range ((ie - is).toNat - 1)).foldl
    (fun m (k : Nat) => max m (c_abs (sample data o iM oM (is + (k : Int) + 1)
      - sample data o iM oM (is + (k : Int))))) 0

/-- When the test at the end of the inner loop of `findborder` does not fire on
a line, in terms of the samples: the adjacent samples differ by at most
`gradient` and, when the range does not start at index 0, the first sample plus
one is at most `gradient` (the comparison the loop makes with `prev = -1`), or no
two samples differ by more than `threshold`.  Used to run the scans. -/
def line_border (cfg : trim_cfg) (data : Int → Nat) (is ie o iM oM : Int) : Prop :=
  (gradient_ok data o iM oM is ie cfg.gradient ∧
    (is ≠ 0 → is < ie → sample data o iM oM is + 1 ≤ cfg.gradient)) ∨
  range_ok data o iM oM is ie cfg.threshold

/-- A line passes at least one of the two tests: the gradient test or the
luminosity test. -/
def line_border_either (cfg : trim_cfg) (data : Int → Nat) (is ie o iM oM : Int) : Prop :=
  gradient_ok data o iM oM is ie cfg.gradient ∨ range_ok data o iM oM is ie cfg.threshold

/-- A line is border in the strict sense: it passes the gradient test and the
luminosity test. -/
def line_border_both (cfg : trim_cfg) (data : Int → Nat) (is ie o iM oM : Int) : Prop :=
  gradient_ok data o iM oM is ie cfg.gradient ∧ range_ok data o iM oM is ie cfg.threshold

/-- What the locals of the inner loop of `findborder` hold after the first `m`
samples `v 0, v 1, ...` of a range that starts at index `is`. -/
def scan_inv (v : Nat → Int) (is : Int) (m : Nat) (st : scan_state) : Prop :=
  (m = 0 → st.min = 1000 ∧ st.max = 0 ∧ st.di = 0 ∧ st.prev = -1) ∧
  (0 < m → (∀ k, k < m → st.min ≤ v k) ∧ (∃ k, k < m ∧ st.min = v k)) ∧
  (0 < m → (∀ k, k < m → v k ≤ st.max) ∧ (∃ k, k < m ∧ st.max = v k)) ∧
  (0 < m → st.prev = v (m - 1)) ∧
  0 ≤ st.di ∧
  (∀ k, k + 1 < m → c_abs (v k - v (k + 1)) ≤ st.di) ∧
  (is ≠ 0 → 0 < m → v 0 + 1 ≤ st.di) ∧
  (st.di = 0 ∨ (∃ k, k + 1 < m ∧ st.di = c_abs (v k - v (k + 1))) ∨
    (is ≠ 0 ∧ 0 < m ∧ st.di = v 0 + 1))

/-- A 4×3 test image: the first row is the ramp `0, 10, 20, 30`, the other rows
alternate between 0 and 100. -/
def ramp_image : Int → Nat :=
  fun p => if p < 4 then (p * 10).toNat else if p % 2 = 0 then 0 else 100

/-- A 480×320 test image: the outer 12 pixels on every side are white (255),
the inside is a checkerboard of 0 and 100. -/
def s5_image : Int → Nat :=
  fun p =>
    if p / 480 < 12 ∨ 308 ≤ p / 480 ∨ p % 480 < 12 ∨ 468 ≤ p % 480 then 255
    else if (p / 480 + p % 480) % 2 = 0 then 0 else 100

/-- The order in which `cmp_items` tries the transforms. -/
def cmp_order : List Nat :=
  [TI_BASE, TI_FLIP, TI_ROT1, TI_ROT2, TI_ROT3, TI_FLR1, TI_FLR2, TI_FLR3]

/-! ## The stores of the intra-group pass, one by one -/

/-- The heap after each of the five stores of `handle_pair` that attach `tmp` to
the root `p`, in source order; the last one is `attach heap p tmp eqt`. -/
def attach_trace (heap : Mem item_t) (p tmp eqt : Nat) : List (Mem item_t) :=
  let h1 := heap.write tmp { heap.read tmp with eq_parent := some p }
  let h2 := h1.write tmp { h1.read tmp with eq_next := (h1.read p).eq_next }
  let h3 := h2.write tmp { h2.read tmp with eq_trans := eqt - TI_LAST }
  let h4 := h3.write p { h3.read p with eq_next := some tmp }
  let h5 := h4.write p { h4.read p with eq_n := (h4.read p).eq_n + 1 }
  [h1, h2, h3, h4, h5]

/-- The function `handle_pair`, reporting the heap after each store it makes:
no heap when it returns at once or finds no match. -/
def handle_pair_trace (fuel : Nat) (threshold : Int) (heap : Mem item_t) (ref tmp : Nat) :
    Option (List (Mem item_t)) :=
  if (heap.read tmp).eq_parent.isSome then some []
  else
    let eqt := cmp_items threshold (heap.read ref) (heap.read tmp)
    if eqt ≠ 0 then
      (find_root heap fuel ref).map (fun p => attach_trace heap p tmp eqt)
    else some []

/-- The calls `handle_pair(ref, tmp)` that the two loops of `intracmp` make, in
the order they make them. -/
def intracmp_calls : List Nat → List (Nat × Nat)
  | [] => []
  | ref :: rest => rest.map (fun tmp => (ref, tmp)) ++ intracmp_calls rest

/-- The heaps a sequence of calls of `handle_pair` goes through, store by
store, started on `heap`. -/
def calls_trace (fuel : Nat) (threshold : Int) :
    Mem item_t → List (Nat × Nat) → Option (List (Mem item_t))
  | _, [] => some []
  | heap, c :: cs =>
    (handle_pair_trace fuel threshold heap c.1 c.2).bind fun t =>
      (calls_trace fuel threshold (t.getLastD heap) cs).map (fun rest => t ++ rest)

/-- The heaps the loops of `intracmp` go through, store by store. -/
def intracmp_trace (fuel : Nat) (threshold : Int) (heap : Mem item_t) (items : List Nat) :
    Option (List (Mem item_t)) :=
  calls_trace fuel threshold heap (intracmp_calls items)

/-- Parent chains have depth at most one: the parent of an item of `all` has no
parent itself, and an item with a parent has no peers counted. -/
def depth_one (heap : Mem item_t) (all : List Nat) : Prop :=
  ∀ c ∈ all, ∀ p, (heap.read c).eq_parent = some p →
    (heap.read p).eq_parent = none ∧ (heap.read c).eq_n = 0

/-- No count `eq_n` is smaller in `heap2` than in `heap`. -/
def n_mono (heap heap2 : Mem item_t) : Prop :=
  ∀ a, (heap.read a).eq_n ≤ (heap2.read a).eq_n

/-- Roots are final from `heap` to the later `heap2`: an item of `all` that has
peers in `heap` has no parent in `heap2`. -/
def root_final (all : List Nat) (heap heap2 : Mem item_t) : Prop :=
  ∀ x ∈ all, 0 < (heap.read x).eq_n → (heap2.read x).eq_parent = none

/-! # Theorems -/

/-! ## Memory -/

@[simp] theorem Mem.read_write {α : Type} (m : Mem α) (i : Nat) (v : α) (j : Nat) :
    (m.write i v).read j = if j = i then v else m.read j := by
  simp [Mem.write, Function.update_apply]

/-! ## Loops as sums -/

theorem foldl_add_range (f : Nat → ℚ) (a : ℚ) (n : Nat) :
    (List.range n).foldl (fun acc i => acc + f i) a = a + ∑ i in Finset.range n, f i := by
  induction n with
  | zero => simp
  | succ n ih => simp [List.range_succ, List.foldl_append, ih, Finset.sum_range_succ, add_assoc]

theorem foldl_clear (n : Nat) (d : Mem ℚ) (k : Nat) :
    ((List.range n).foldl (fun d i => d.write i 0) d).read k = if k < n then 0 else d.read k := by
  induction n with
  | zero => simp
  | succ n ih =>
    simp only [List.range_succ, List.foldl_append, List.foldl_cons, List.foldl_nil,
      Mem.read_write, ih]
    by_cases h1 : k = n
    · simp [h1]
    · by_cases h2 : k < n
      · simp [h1, h2, Nat.lt_succ_of_lt h2]
      · have h3 : ¬ k < n + 1 := by omega
        simp [h1, h2, h3]

theorem foldl_row_upd (u : Nat → ℚ → ℚ) (b n : Nat) (d : Mem ℚ) (k : Nat) :
    ((List.range n).foldl (fun d i => d.write (b + i) (u i (d.read (b + i)))) d).read k
      = if b ≤ k ∧ k < b + n then u (k - b) (d.read k) else d.read k := by
  induction n with
  | zero =>
    rw [if_neg (by omega)]
    rfl
  | succ n ih =>
    simp only [List.range_succ, List.foldl_append, List.foldl_cons, List.foldl_nil,
      Mem.read_write]
    by_cases h1 : k = b + n
    · subst h1
      have h0 : ¬ (b ≤ b + n ∧ b + n < b + n) := by omega
      simp [ih, h0]
    · by_cases h2 : b ≤ k ∧ k < b + n
      · have h3 : b ≤ k ∧ k < b + (n + 1) := ⟨h2.1, by omega⟩
        simp [ih, h1, h2, h3]
      · have h3 : ¬ (b ≤ k ∧ k < b + (n + 1)) := by omega
        simp [ih, h1, h2, h3]

theorem foldl_col_upd (u : Nat → Nat → ℚ → ℚ) (b w m : Nat) (d : Mem ℚ) (k : Nat) :
    ((List.range m).foldl
        (fun d x => (List.range w).foldl
          (fun d i => d.write (b + i) (u x i (d.read (b + i)))) d) d).read k
      = if b ≤ k ∧ k < b + w then (List.range m).foldl (fun acc x => u x (k - b) acc) (d.read k)
        else d.read k := by
  induction m with
  | zero => simp
  | succ m ih =>
    simp only [List.range_succ, List.foldl_append, List.foldl_cons, List.foldl_nil]
    rw [foldl_row_upd (u m) b w, ih]
    by_cases h : b ≤ k ∧ k < b + w
    · simp [h]
    · simp [h]

theorem foldl_grid_upd (u : Nat → Nat → Nat → ℚ → ℚ) (w n : Nat) (d : Mem ℚ) (k : Nat) :
    ((List.range n).foldl
        (fun d y => (List.range w).foldl
          (fun d x => (List.range 8).foldl
            (fun d i => d.write (8 * y + i) (u y x i (d.read (8 * y + i)))) d) d) d).read k
      = if k < 8 * n then (List.range w).foldl (fun acc x => u (k / 8) x (k % 8) acc) (d.read k)
        else d.read k := by
  induction n with
  | zero => simp
  | succ n ih =>
    rw [List.range_succ n, List.foldl_append, List.foldl_cons, List.foldl_nil,
      foldl_col_upd (u n) (8 * n) 8 w, ih]
    by_cases h1 : 8 * n ≤ k ∧ k < 8 * n + 8
    · have h2 : ¬ k < 8 * n := by omega
      have h3 : k < 8 * (n + 1) := by omega
      have h4 : k / 8 = n := by omega
      have h5 : k - 8 * n = k % 8 := by omega
      simp [h1, h2, h3, h4, h5]
    · by_cases h2 : k < 8 * n
      · have h3 : k < 8 * (n + 1) := by omega
        simp [h1, h2, h3]
      · have h3 : ¬ k < 8 * (n + 1) := by omega
        simp [h1, h2, h3]

/-! ## `genhash` -/

/-- The entries of the buffer `dct` after the loops of `genhash`, whatever the
array held on entry. -/
theorem genhash_dct_read (rnd : ℚ → ℚ) (stack ebe : Mem ℚ) (k : Nat) (hk : k < 64) :
    (genhash_dct rnd stack ebe).read k = genhash_coeff rnd ebe (k / 8) (k % 8) := by
  unfold genhash_dct genhash_coeff
  simp only []
  rw [foldl_grid_upd
    (fun y x i v => rnd (v + rnd (rnd (DCT_T_at (8 * x + i)) * genhash_tmp rnd ebe y x))) 8 8,
    foldl_clear]
  simp [hk]

theorem foldl_congr_mem {α β : Type} (f g : α → β → α) (l : List β) (a : α)
    (h : ∀ acc, ∀ b ∈ l, f acc b = g acc b) : l.foldl f a = l.foldl g a := by
  induction l generalizing a with
  | nil => rfl
  | cons b l ih =>
    rw [List.foldl_cons, List.foldl_cons, h a b (List.mem_cons_self _ _)]
    exact ih _ (fun acc c hc => h acc c (List.mem_cons_of_mem _ hc))

theorem genhash_tmp_congr (rnd : ℚ → ℚ) (a b : Mem ℚ) (y x : Nat) (hx : x < 8)
    (h : ∀ k, k < 64 → a.read k = b.read k) :
    genhash_tmp rnd a y x = genhash_tmp rnd b y x := by
  unfold genhash_tmp
  apply foldl_congr_mem
  intro acc i hi
  rw [List.mem_range] at hi
  rw [h _ (by omega)]

theorem genhash_coeff_congr (rnd : ℚ → ℚ) (a b : Mem ℚ) (y x : Nat)
    (h : ∀ k, k < 64 → a.read k = b.read k) :
    genhash_coeff rnd a y x = genhash_coeff rnd b y x := by
  unfold genhash_coeff
  apply foldl_congr_mem
  intro acc i hi
  rw [List.mem_range] at hi
  rw [genhash_tmp_congr rnd a b y i hi h]

theorem genhash_tmp_exact (ebe : Mem ℚ) (y x : Nat) :
    genhash_tmp id ebe y x
      = ∑ i in Finset.range 8, DCT_O_at (8 * y + i) * ebe.read (x + i * 8) := by
  unfold genhash_tmp
  simp only [id]
  rw [foldl_add_range (fun i => DCT_O_at (8 * y + i) * ebe.read (x + i * 8)) 0 8]
  simp

/-- Without rounding, the value the loops compute is the double sum. -/
theorem genhash_coeff_exact (ebe : Mem ℚ) (y x : Nat) :
    genhash_coeff id ebe y x
      = ∑ b in Finset.range 8, DCT_T_at (8 * b + x) *
          ∑ a in Finset.range 8, DCT_O_at (8 * y + a) * ebe.read (b + a * 8) := by
  unfold genhash_coeff
  simp only [id, genhash_tmp_exact]
  rw [foldl_add_range (fun b => DCT_T_at (8 * b + x) *
    ∑ a in Finset.range 8, DCT_O_at (8 * y + a) * ebe.read (b + a * 8)) 0 8]
  simp

theorem genhash_bits_upto (dct : Mem ℚ) (n : Nat) (hn : n ≤ 64) :
    let st := (List.range n).foldl
      (fun (st : Nat × Nat) i =>
        (if dct.read i > 0 then st.1 ||| st.2 else st.1, (st.2 <<< 1) % 2 ^ 64)) (0, 1)
    st.2 = 2 ^ n % 2 ^ 64 ∧ st.1 < 2 ^ n ∧
      ∀ j, st.1.testBit j = decide (j < n ∧ dct.read j > 0) := by
  induction n with
  | zero => simp
  | succ n ih =>
    obtain ⟨h2, h1, hb⟩ := ih (by omega)
    have hlt : 2 ^ n < 2 ^ 64 := Nat.pow_lt_pow_right (by norm_num) (by omega)
    rw [Nat.mod_eq_of_lt hlt] at h2
    simp only [List.range_succ, List.foldl_append, List.foldl_cons, List.foldl_nil]
    refine ⟨?_, ?_, ?_⟩
    · rw [h2, Nat.shiftLeft_eq, pow_one, pow_succ 2 n]
    · split
      · rw [h2]
        exact Nat.or_lt_two_pow (lt_trans h1 (by simp [pow_succ]))
          (by simp [pow_succ])
      · exact lt_trans h1 (by simp [pow_succ])
    · intro j
      split
      · rename_i hpos
        rw [Nat.testBit_or, hb, h2, Nat.testBit_two_pow]
        by_cases hj : j = n
        · subst hj
          simp [hpos]
        · have hne : ¬ n = j := fun h => hj h.symm
          by_cases hjn : j < n
          · simp [hne, hjn, Nat.lt_succ_of_lt hjn]
          · have : ¬ j < n + 1 := by omega
            simp [hne, hjn, this]
      · rename_i hpos
        rw [hb]
        by_cases hj : j = n
        · subst hj
          simp [hpos]
        · by_cases hjn : j < n
          · simp [hjn, Nat.lt_succ_of_lt hjn]
          · have : ¬ j < n + 1 := by omega
            simp [hjn, this]

theorem genhash_bits_testBit (dct : Mem ℚ) (j : Nat) :
    (genhash_bits dct).1.testBit j = decide (j < 64 ∧ dct.read j > 0) :=
  (genhash_bits_upto dct 64 (le_refl 64)).2.2 j

theorem genhash_bits_lt (dct : Mem ℚ) : (genhash_bits dct).1 < 2 ^ 64 :=
  (genhash_bits_upto dct 64 (le_refl 64)).2.1

theorem genhash_on_stack (rnd : ℚ → ℚ) (s1 s2 ebe : Mem ℚ) :
    genhash_on rnd s1 ebe = genhash_on rnd s2 ebe := by
  apply Nat.eq_of_testBit_eq
  intro j
  unfold genhash_on
  rw [genhash_bits_testBit, genhash_bits_testBit]
  by_cases hj : j < 64
  · rw [genhash_dct_read rnd s1 ebe j hj, genhash_dct_read rnd s2 ebe j hj]
  · simp [hj]

theorem genhash_lt (ebe : Mem ℚ) : genhash ebe < 2 ^ 64 := genhash_bits_lt _

/-- Bit `k` of the result of `genhash` in terms of the value the loops leave in
`dct[k]`. -/
theorem genhash_on_testBit (rnd : ℚ → ℚ) (stack ebe : Mem ℚ) (k : Nat) :
    (genhash_on rnd stack ebe).testBit k
      = decide (k < 64 ∧ 0 < genhash_coeff rnd ebe (k / 8) (k % 8)) := by
  unfold genhash_on
  rw [genhash_bits_testBit]
  by_cases hk : k < 64
  · rw [genhash_dct_read rnd _ ebe k hk]
  · simp [hk]

theorem genhash_testBit (ebe : Mem ℚ) (k : Nat) :
    (genhash ebe).testBit k = decide (k < 64 ∧ 0 < genhash_coeff fl ebe (k / 8) (k % 8)) :=
  genhash_on_testBit fl _ ebe k

theorem genhash_congr (a b : Mem ℚ) (h : ∀ k, k < 64 → a.read k = b.read k) :
    genhash a = genhash b := by
  apply Nat.eq_of_testBit_eq
  intro j
  rw [genhash_testBit, genhash_testBit, genhash_coeff_congr fl a b _ _ h]

theorem DCT_T_is_transpose : DCT_T_matrix = DCT_O_matrix.transpose := by
  ext y x
  fin_cases y <;> fin_cases x <;> rfl

theorem coefficient_eq (ebe : Mem ℚ) (y x : Fin 8) :
    (DCT_O_matrix * grid_matrix ebe * DCT_T_matrix) y x
      = ∑ b in Finset.range 8, DCT_T_at (8 * b + x.val) *
          ∑ a in Finset.range 8, DCT_O_at (8 * y.val + a) * ebe.read (b + a * 8) := by
  rw [Matrix.mul_apply, Finset.sum_range]
  apply Finset.sum_congr rfl
  intro b _
  rw [Matrix.mul_apply, Finset.sum_range, mul_comm]
  congr 1
  apply Finset.sum_congr rfl
  intro a _
  simp [DCT_O_matrix, grid_matrix, mul_comm, add_comm]

/-- On the uniform grid of ones the double the loops leave in `dct[63]` is
positive. -/
theorem genhash_coeff_ones_pos : 0 < genhash_coeff fl ⟨fun _ => 1⟩ 7 7 := by
  decide!

/-- Claim C1 fails on the code: on the uniform grid of ones, bit 63 of `genhash`
is set, although the coefficient at row 7, column 7 of `O * M * Oᵀ` is 0: the
rounding errors of the sums leave a small positive double in `dct[63]`. -/
theorem genhash_sets_bit_of_zero_coefficient :
    (genhash ⟨fun _ => 1⟩).testBit (8 * 7 + 7) = true ∧
    (DCT_O_matrix * grid_matrix ⟨fun _ => 1⟩ * DCT_O_matrix.transpose) 7 7 = 0 := by
  constructor
  · rw [genhash_testBit]
    exact decide_eq_true ⟨by decide, genhash_coeff_ones_pos⟩
  · rw [← DCT_T_is_transpose, coefficient_eq]
    have hv : (7 : Fin 8).val = 7 := rfl
    rw [hv]
    have h : ∑ a in Finset.range 8, DCT_O_at (8 * 7 + a) * (1 : ℚ) = 0 := by
      simp only [Finset.sum_range_succ, Finset.sum_range_zero]
      norm_num [DCT_O_at, DCT_O]
    have h2 : ∀ b ∈ Finset.range 8, DCT_T_at (8 * b + 7) *
        ∑ a in Finset.range 8, DCT_O_at (8 * 7 + a) *
          (⟨fun _ => 1⟩ : Mem ℚ).read (b + a * 8) = 0 := by
      intro b _
      show DCT_T_at (8 * b + 7) *
        ∑ a in Finset.range 8, DCT_O_at (8 * 7 + a) * (1 : ℚ) = 0
      rw [h, mul_zero]
    exact Finset.sum_eq_zero h2

/-- Claim C1, amended. The table `DCT_T` the code multiplies by on the right is
the transpose of `DCT_O`.  For every grid `M` of doubles (`fl` leaves each entry
unchanged) that do not make a sum overflow (entries of magnitude at most
`2 ^ 1000`), bit `8 * y + x` of `genhash M`
(bit 0 the least significant) is set exactly when the double the loops leave in
`dct[8 * y + x]` is `> 0.0`; that double is the coefficient at row `y`, column
`x` of `O * M * Oᵀ` computed in the order of the loops with every table entry,
product and partial sum rounded to double (`genhash_coeff fl`).  Without
rounding, that value is the coefficient of the exact product, and the bit is
set exactly when the exact coefficient is positive.  The DC coefficient
(`y = x = 0`) is treated like every other; a computed value equal to 0 gives a
zero bit. -/
theorem genhash_bit_iff_rounded_coefficient_pos :
    DCT_T_matrix = DCT_O_matrix.transpose ∧
    (∀ M : Mem ℚ, (∀ k, k < 64 → fl (M.read k) = M.read k ∧ |M.read k| ≤ 2 ^ 1000) →
      ∀ y x : Fin 8,
      ((genhash M).testBit (8 * y.val + x.val) = true ↔
        0 < genhash_coeff fl M y.val x.val)) ∧
    (∀ (M : Mem ℚ) (y x : Fin 8),
      genhash_coeff id M y.val x.val
        = (DCT_O_matrix * grid_matrix M * DCT_O_matrix.transpose) y x) ∧
    (∀ (stack M : Mem ℚ) (y x : Fin 8),
      ((genhash_on id stack M).testBit (8 * y.val + x.val) = true ↔
        0 < (DCT_O_matrix * grid_matrix M * DCT_O_matrix.transpose) y x)) := by
  have hidx : ∀ y x : Fin 8, (8 * y.val + x.val) % 8 = x.val ∧
      (8 * y.val + x.val) / 8 = y.val ∧ 8 * y.val + x.val < 64 := by
    intro y x
    omega
  refine ⟨DCT_T_is_transpose, ?_, ?_, ?_⟩
  · intro M _ y x
    obtain ⟨h1, h2, h3⟩ := hidx y x
    rw [genhash_testBit, h1, h2]
    simp [h3]
  · intro M y x
    rw [← DCT_T_is_transpose, coefficient_eq, genhash_coeff_exact]
  · intro stack M y x
    obtain ⟨h1, h2, h3⟩ := hidx y x
    rw [genhash_on_testBit, h1, h2, ← DCT_T_is_transpose, coefficient_eq, genhash_coeff_exact]
    simp [h3]

theorem genhash_bit_iff_rounded_coefficient_pos_witness :
    ∀ y x : Fin 8,
      ((genhash ⟨fun _ => 1⟩).testBit (8 * y.val + x.val) = true ↔
        0 < genhash_coeff fl ⟨fun _ => 1⟩ y.val x.val) :=
  genhash_bit_iff_rounded_coefficient_pos.2.1 ⟨fun _ => 1⟩
    (fun _ _ => by
      show fl 1 = 1 ∧ |(1 : ℚ)| ≤ 2 ^ 1000
      refine ⟨by decide!, ?_⟩
      rw [abs_one]
      exact one_le_pow₀ (by norm_num))

/-! ## The grid permutations -/

theorem hflip_loop_read (dst src : Mem ℚ) (k : Nat) (hk : k < 64) :
    (hflip_loop dst src).1.read k = src.read (8 * (k / 8) + (7 - k % 8)) := by
  interval_cases k <;> rfl

theorem hflip_fst (dst src : Mem ℚ) : (hflip dst src).1 = (hflip_loop dst src).1 := by
  simp only [hflip]

theorem hflip_snd (dst src : Mem ℚ) : (hflip dst src).2 = genhash (hflip_loop dst src).1 := by
  simp only [hflip]

theorem hflip_read (dst src : Mem ℚ) (k : Nat) (hk : k < 64) :
    (hflip dst src).1.read k = src.read (8 * (k / 8) + (7 - k % 8)) := by
  rw [hflip_fst, hflip_loop_read dst src k hk]

theorem hflip_hash_congr (d1 d2 s1 s2 : Mem ℚ) (h : ∀ k, k < 64 → s1.read k = s2.read k) :
    genhash (hflip_loop d1 s1).1 = genhash (hflip_loop d2 s2).1 := by
  apply genhash_congr
  intro k hk
  rw [hflip_loop_read d1 s1 k hk, hflip_loop_read d2 s2 k hk]
  exact h _ (by omega)

theorem hrot1_loop_read (dst src : Mem ℚ) (k : Nat) (hk : k < 64) :
    (hrot1_loop dst src).1.read k = src.read (8 * (7 - k % 8) + k / 8) := by
  interval_cases k <;> rfl

theorem hrot1_fst (dst src : Mem ℚ) : (hrot1 dst src).1 = (hrot1_loop dst src).1 := by
  simp only [hrot1]

theorem hrot1_snd (dst src : Mem ℚ) : (hrot1 dst src).2 = genhash (hrot1_loop dst src).1 := by
  simp only [hrot1]

theorem hrot1_read (dst src : Mem ℚ) (k : Nat) (hk : k < 64) :
    (hrot1 dst src).1.read k = src.read (8 * (7 - k % 8) + k / 8) := by
  rw [hrot1_fst, hrot1_loop_read dst src k hk]

theorem hrot1_hash_congr (d1 d2 s1 s2 : Mem ℚ) (h : ∀ k, k < 64 → s1.read k = s2.read k) :
    genhash (hrot1_loop d1 s1).1 = genhash (hrot1_loop d2 s2).1 := by
  apply genhash_congr
  intro k hk
  rw [hrot1_loop_read d1 s1 k hk, hrot1_loop_read d2 s2 k hk]
  exact h _ (by omega)

theorem hrot2_loop_read (dst src : Mem ℚ) (k : Nat) (hk : k < 64) :
    (hrot2_loop dst src).1.read k = src.read (8 * (7 - k / 8) + (7 - k % 8)) := by
  interval_cases k <;> rfl

theorem hrot2_fst (dst src : Mem ℚ) : (hrot2 dst src).1 = (hrot2_loop dst src).1 := by
  simp only [hrot2]

theorem hrot2_snd (dst src : Mem ℚ) : (hrot2 dst src).2 = genhash (hrot2_loop dst src).1 := by
  simp only [hrot2]

theorem hrot2_read (dst src : Mem ℚ) (k : Nat) (hk : k < 64) :
    (hrot2 dst src).1.read k = src.read (8 * (7 - k / 8) + (7 - k % 8)) := by
  rw [hrot2_fst, hrot2_loop_read dst src k hk]

theorem hrot2_hash_congr (d1 d2 s1 s2 : Mem ℚ) (h : ∀ k, k < 64 → s1.read k = s2.read k) :
    genhash (hrot2_loop d1 s1).1 = genhash (hrot2_loop d2 s2).1 := by
  apply genhash_congr
  intro k hk
  rw [hrot2_loop_read d1 s1 k hk, hrot2_loop_read d2 s2 k hk]
  exact h _ (by omega)

theorem hrot3_loop_read (dst src : Mem ℚ) (k : Nat) (hk : k < 64) :
    (hrot3_loop dst src).1.read k = src.read (8 * (k % 8) + (7 - k / 8)) := by
  interval_cases k <;> rfl

theorem hrot3_fst (dst src : Mem ℚ) : (hrot3 dst src).1 = (hrot3_loop dst src).1 := by
  simp only [hrot3]

theorem hrot3_snd (dst src : Mem ℚ) : (hrot3 dst src).2 = genhash (hrot3_loop dst src).1 := by
  simp only [hrot3]

theorem hrot3_read (dst src : Mem ℚ) (k : Nat) (hk : k < 64) :
    (hrot3 dst src).1.read k = src.read (8 * (k % 8) + (7 - k / 8)) := by
  rw [hrot3_fst, hrot3_loop_read dst src k hk]

theorem hrot3_hash_congr (d1 d2 s1 s2 : Mem ℚ) (h : ∀ k, k < 64 → s1.read k = s2.read k) :
    genhash (hrot3_loop d1 s1).1 = genhash (hrot3_loop d2 s2).1 := by
  apply genhash_congr
  intro k hk
  rw [hrot3_loop_read d1 s1 k hk, hrot3_loop_read d2 s2 k hk]
  exact h _ (by omega)

theorem hflip_agree (d1 d2 src : Mem ℚ) (k : Nat) (hk : k < 64) :
    (hflip_loop d1 src).1.read k = (hflip_loop d2 src).1.read k := by
  rw [hflip_loop_read d1 src k hk, hflip_loop_read d2 src k hk]

/-- Claim C2 as stated fails. The grid `hrot1` builds does not satisfy
`out[8 * y + x] = in[8 * x + (7 - y)]`: for the grid `in[i] = i` the entry
`out[0]` is `in[56]`, not `in[7]`. -/
theorem hrot1_not_spec_rot1 :
    ¬ ∀ (dst src : Mem ℚ) (x y : Nat), x < 8 → y < 8 →
        (hrot1 dst src).1.read (8 * y + x) = src.read (8 * x + (7 - y)) := by
  intro h
  have h0 := h ⟨fun _ => 0⟩ ⟨fun i => (i : ℚ)⟩ 0 0 (by decide) (by decide)
  rw [hrot1_read _ _ _ (by decide)] at h0
  norm_num at h0

/-- Claim C2, amended. For every grid `src`, every destination buffer and all
`x, y` in `0..7`, the grid `hrot1` builds before hashing satisfies
`out[8 * y + x] = in[8 * (7 - x) + y]`. -/
theorem hrot1_permutation (dst src : Mem ℚ) (x y : Nat) (hx : x < 8) (hy : y < 8) :
    (hrot1 dst src).1.read (8 * y + x) = src.read (8 * (7 - x) + y) := by
  rw [hrot1_read dst src _ (by omega)]
  have h1 : (8 * y + x) % 8 = x := by omega
  have h2 : (8 * y + x) / 8 = y := by omega
  rw [h1, h2]

theorem hrot1_permutation_witness :
    (hrot1 ⟨fun _ => 0⟩ ⟨fun i => (i : ℚ)⟩).1.read (8 * 2 + 3)
      = (⟨fun i => (i : ℚ)⟩ : Mem ℚ).read (8 * (7 - 3) + 2) :=
  hrot1_permutation ⟨fun _ => 0⟩ ⟨fun i => (i : ℚ)⟩ 3 2 (by decide) (by decide)

/-! ## `handle_item` -/

@[simp] theorem set_hash_hashes (item : item_t) (t v u : Nat) :
    (item.set_hash t v).hashes u = if u = t then v else item.hashes u := by
  simp [item_t.set_hash, Function.update_apply]

/-- Claim C3. With both rotation and flip requested, `handle_item` stores at each
of the eight transform indices the hash of the correspondingly permuted copy of
the original grid `G`: `genhash G` at `TI_BASE`, the hash `hrotk` computes from
`G` at `TI_ROTk`, the hash `hflip` computes from `G` at `TI_FLIP`, and the hash
`hrotk` computes from the flipped `G` at `TI_FLRk`, whatever the destination
buffers held, although `ebe_base` and `ebe_temp` are overwritten between the
calls. -/
theorem handle_item_hashes_all_variants (transform : Nat) (item : item_t) (G temp : Mem ℚ)
    (hr : transform &&& TRANS_ROTATE ≠ 0) (hf : transform &&& TRANS_FLIP ≠ 0) :
    let out := (handle_item_hashes transform ⟨item, G, temp⟩).item
    out.hashes TI_BASE = genhash G ∧
    (∀ d, out.hashes TI_ROT1 = genhash (hrot1 d G).1) ∧
    (∀ d, out.hashes TI_ROT2 = genhash (hrot2 d G).1) ∧
    (∀ d, out.hashes TI_ROT3 = genhash (hrot3 d G).1) ∧
    (∀ d, out.hashes TI_FLIP = genhash (hflip d G).1) ∧
    (∀ d e, out.hashes TI_FLR1 = genhash (hrot1 d (hflip e G).1).1) ∧
    (∀ d e, out.hashes TI_FLR2 = genhash (hrot2 d (hflip e G).1).1) ∧
    (∀ d e, out.hashes TI_FLR3 = genhash (hrot3 d (hflip e G).1).1) := by
  have ht : transform ≠ 0 := by
    intro h0
    subst h0
    simp at hr
  simp only [handle_item_hashes, handle_item_rotate, handle_item_fliprot, ht, hr, hf,
    ne_eq, not_false_eq_true, if_true, set_hash_hashes, TI_BASE, TI_ROT1, TI_ROT2, TI_ROT3,
    TI_FLIP, TI_FLR1, TI_FLR2, TI_FLR3, hflip_fst, hflip_snd, hrot1_fst, hrot1_snd,
    hrot2_fst, hrot2_snd, hrot3_fst, hrot3_snd]
  refine ⟨by simp, ?_, ?_, ?_, ?_, ?_, ?_, ?_⟩
  · intro d
    simp only [Nat.reduceEqDiff, if_false, if_true]
    exact hrot1_hash_congr temp d G G (fun _ _ => rfl)
  · intro d
    simp only [Nat.reduceEqDiff, if_false, if_true]
    exact hrot2_hash_congr _ d G G (fun _ _ => rfl)
  · intro d
    simp only [Nat.reduceEqDiff, if_false, if_true]
    exact hrot3_hash_congr _ d G G (fun _ _ => rfl)
  · intro d
    simp only [Nat.reduceEqDiff, if_false, if_true]
    exact hflip_hash_congr _ d G G (fun _ _ => rfl)
  · intro d e
    simp only [Nat.reduceEqDiff, if_false, if_true]
    exact hrot1_hash_congr _ d _ (hflip_loop e G).1 (fun k hk => hflip_agree _ e G k hk)
  · intro d e
    simp only [Nat.reduceEqDiff, if_false, if_true]
    exact hrot2_hash_congr _ d _ (hflip_loop e G).1 (fun k hk => hflip_agree _ e G k hk)
  · intro d e
    exact hrot3_hash_congr _ d _ (hflip_loop e G).1 (fun k hk => hflip_agree _ e G k hk)

theorem handle_item_hashes_all_variants_witness :
    let out := (handle_item_hashes 3
      ⟨⟨false, "", 0, 0, 0, 0, 0, fun _ => 0, none, none, 0, 0, 0⟩,
        ⟨fun i => (i : ℚ)⟩, ⟨fun _ => 0⟩⟩).item
    out.hashes TI_BASE = genhash ⟨fun i => (i : ℚ)⟩ ∧
    (∀ d, out.hashes TI_ROT1 = genhash (hrot1 d ⟨fun i => (i : ℚ)⟩).1) ∧
    (∀ d, out.hashes TI_ROT2 = genhash (hrot2 d ⟨fun i => (i : ℚ)⟩).1) ∧
    (∀ d, out.hashes TI_ROT3 = genhash (hrot3 d ⟨fun i => (i : ℚ)⟩).1) ∧
    (∀ d, out.hashes TI_FLIP = genhash (hflip d ⟨fun i => (i : ℚ)⟩).1) ∧
    (∀ d e, out.hashes TI_FLR1 = genhash (hrot1 d (hflip e ⟨fun i => (i : ℚ)⟩).1).1) ∧
    (∀ d e, out.hashes TI_FLR2 = genhash (hrot2 d (hflip e ⟨fun i => (i : ℚ)⟩).1).1) ∧
    (∀ d e, out.hashes TI_FLR3 = genhash (hrot3 d (hflip e ⟨fun i => (i : ℚ)⟩).1).1) :=
  handle_item_hashes_all_variants 3 _ _ _ (by decide) (by decide)

/-! ## `scale_down` -/

theorem getD_map_range (f : Nat → Nat) (n i : Nat) :
    ((List.range n).map f).getD i 0 = if i < n then f i else 0 := by
  by_cases h : i < n
  · simp [List.getD_eq_getElem?_getD, List.getElem?_map, List.getElem?_range, h]
  · have h2 : (List.range n)[i]? = none := by
      rw [List.getElem?_eq_none_iff]
      simpa using h
    simp [List.getD_eq_getElem?_getD, List.getElem?_map, h, h2]

/-- A loop whose body adds a term to an accumulator and cannot fail on the
indices below `n` computes a sum. -/
theorem foldlM_add_range (F : ℚ → Nat → Option ℚ) (g : Nat → ℚ) (n : Nat) (a : ℚ)
    (h : ∀ i, i < n → ∀ s, F s i = some (s + g i)) :
    (List.range n).foldlM F a = some (a + ∑ i in Finset.range n, g i) := by
  induction n with
  | zero => simp
  | succ n ih =>
    rw [List.range_succ, List.foldlM_append, ih (fun i hi s => h i (by omega) s)]
    simp [h n (by omega), Finset.sum_range_succ, add_assoc]

/-- The pixel index `scale_down` reads for cell `(y0, x0)` at offset `(dy, dx)`. -/
theorem scale_down_index_lt (w h y0 x0 dy dx : Nat) (hy0 : y0 < 8) (hx0 : x0 < 8)
    (hdy : dy < h / 8) (hdx : dx < w / 8) :
    w * ((h % 8) / 2 + y0 * (h / 8) + dy) + ((w % 8) / 2 + x0 * (w / 8) + dx) < w * h := by
  have hrow : (h % 8) / 2 + y0 * (h / 8) + dy + 1 ≤ h := by
    have h1 : y0 * (h / 8) ≤ 7 * (h / 8) := Nat.mul_le_mul_right _ (by omega)
    omega
  have hcol : (w % 8) / 2 + x0 * (w / 8) + dx < w := by
    have h1 : x0 * (w / 8) ≤ 7 * (w / 8) := Nat.mul_le_mul_right _ (by omega)
    omega
  calc w * ((h % 8) / 2 + y0 * (h / 8) + dy) + ((w % 8) / 2 + x0 * (w / 8) + dx)
      < w * ((h % 8) / 2 + y0 * (h / 8) + dy) + w := by omega
    _ = w * ((h % 8) / 2 + y0 * (h / 8) + dy + 1) := by ring
    _ ≤ w * h := Nat.mul_le_mul_left _ hrow

theorem scale_down_sum_eq (src : List Nat) (w h y0 x0 : Nat) (hlen : src.length = w * h)
    (hy0 : y0 < 8) (hx0 : x0 < 8) :
    scale_down_sum src w (w / 8) (h / 8) ((w % 8) / 2) ((h % 8) / 2) y0 x0
      = some (cell_sum src w h y0 x0) := by
  unfold scale_down_sum cell_sum
  rw [foldlM_add_range _ (fun dy => ∑ dx in Finset.range (w / 8),
    (src.getD (w * ((h % 8) / 2 + y0 * (h / 8) + dy) + ((w % 8) / 2 + x0 * (w / 8) + dx)) 0 : ℚ))]
  · simp
  · intro dy hdy s
    rw [foldlM_add_range _ (fun dx =>
      (src.getD (w * ((h % 8) / 2 + y0 * (h / 8) + dy) + ((w % 8) / 2 + x0 * (w / 8) + dx)) 0 : ℚ))]
    intro dx hdx s
    have hlt := scale_down_index_lt w h y0 x0 dy dx hy0 hx0 hdy hdx
    rw [← hlen] at hlt
    simp [List.getD_eq_getElem?_getD, List.getElem?_eq_getElem hlt]

/-- The row loop of `scale_down` when no cell fails. -/
theorem foldlM_cells_row (cell : Nat → Option ℚ) (val : Nat → ℚ) (c : ℚ) (n : Nat)
    (h : ∀ x, x < n → cell x = some (val x)) (d : Mem ℚ) (i0 : Nat) :
    ∃ m : Mem ℚ, (List.range n).foldlM
        (fun (st : Mem ℚ × Nat) x =>
          (cell x).map (fun sum => (st.1.write st.2 (sum / c), st.2 + 1))) (d, i0)
        = some (m, i0 + n) ∧
      ∀ k, m.read k = if i0 ≤ k ∧ k < i0 + n then val (k - i0) / c else d.read k := by
  induction n with
  | zero =>
    refine ⟨d, by simp, ?_⟩
    intro k
    rw [if_neg (by omega)]
  | succ n ih =>
    obtain ⟨m, hm, hr⟩ := ih (fun x hx => h x (by omega))
    refine ⟨m.write (i0 + n) (val n / c), ?_, ?_⟩
    · rw [List.range_succ, List.foldlM_append, hm]
      simp [h n (by omega), add_assoc]
    · intro k
      rw [Mem.read_write, hr]
      by_cases h1 : k = i0 + n
      · subst h1
        simp
      · by_cases h2 : i0 ≤ k ∧ k < i0 + n
        · have h3 : i0 ≤ k ∧ k < i0 + (n + 1) := ⟨h2.1, by omega⟩
          simp [h1, h2, h3]
        · have h3 : ¬ (i0 ≤ k ∧ k < i0 + (n + 1)) := by omega
          simp [h1, h2, h3]

/-- The two outer loops of `scale_down` when no cell fails. -/
theorem foldlM_cells_grid (cell : Nat → Nat → Option ℚ) (val : Nat → Nat → ℚ) (c : ℚ)
    (n : Nat) (h : ∀ y x, y < n → x < 8 → cell y x = some (val y x)) (d : Mem ℚ) :
    ∃ m : Mem ℚ, (List.range n).foldlM
        (fun st y => (List.range 8).foldlM
          (fun (st : Mem ℚ × Nat) x =>
            (cell y x).map (fun sum => (st.1.write st.2 (sum / c), st.2 + 1))) st) (d, 0)
        = some (m, 8 * n) ∧
      ∀ k, m.read k = if k < 8 * n then val (k / 8) (k % 8) / c else d.read k := by
  induction n with
  | zero =>
    exact ⟨d, by simp, fun k => by simp⟩
  | succ n ih =>
    obtain ⟨m, hm, hr⟩ := ih (fun y x hy hx => h y x (by omega) hx)
    obtain ⟨m2, hm2, hr2⟩ := foldlM_cells_row (cell n) (val n) c 8
      (fun x hx => h n x (by omega) hx) m (8 * n)
    refine ⟨m2, ?_, ?_⟩
    · rw [List.range_succ n, List.foldlM_append, hm]
      simp only [List.foldlM_cons, List.foldlM_nil, Option.bind_eq_bind, Option.some_bind]
      rw [hm2]
      simp [Nat.mul_succ]
    · intro k
      rw [hr2, hr]
      by_cases h1 : 8 * n ≤ k ∧ k < 8 * n + 8
      · have h2 : k < 8 * (n + 1) := by omega
        have h4 : k / 8 = n := by omega
        have h5 : k - 8 * n = k % 8 := by omega
        simp [h1, h2, h4, h5]
      · by_cases h2 : k < 8 * n
        · have h3 : k < 8 * (n + 1) := by omega
          simp [h1, h2, h3]
        · have h3 : ¬ k < 8 * (n + 1) := by omega
          simp [h1, h2, h3]

/-- On a buffer of `w * h` pixels `scale_down` returns, and cell `k` of the
result is the mean `cell_sum / (Dx * Dy)`. -/
theorem scale_down_eq (dst : Mem ℚ) (src : List Nat) (w h : Nat) (hlen : src.length = w * h) :
    ∃ m : Mem ℚ, scale_down dst src w h = some m ∧
      ∀ k, m.read k = if k < 64 then
          cell_sum src w h (k / 8) (k % 8) / ((w / 8 * (h / 8) : Nat) : ℚ)
        else dst.read k := by
  obtain ⟨m, hm, hr⟩ := foldlM_cells_grid
    (fun y x => scale_down_sum src w (w / 8) (h / 8) ((w % 8) / 2) ((h % 8) / 2) y x)
    (fun y x => cell_sum src w h y x) ((w / 8 * (h / 8) : Nat) : ℚ) 8
    (fun y x hy hx => scale_down_sum_eq src w h y x hlen hy hx) dst
  refine ⟨m, ?_, fun k => by simpa using hr k⟩
  unfold scale_down
  simp only []
  rw [hm]
  rfl

/-! ## Mirroring the image -/

theorem mirror_image_length (src : List Nat) (w h : Nat) :
    (mirror_image src w h).length = w * h := by
  simp [mirror_image]

theorem mirror_image_getD (src : List Nat) (w h row col : Nat) (hrow : row < h) (hcol : col < w) :
    (mirror_image src w h).getD (w * row + col) 0 = src.getD (w * row + (w - 1 - col)) 0 := by
  have hlt : w * row + col < w * h := by
    calc w * row + col < w * row + w := by omega
      _ = w * (row + 1) := by ring
      _ ≤ w * h := Nat.mul_le_mul_left _ hrow
  have hdiv : (w * row + col) / w = row := by
    rw [Nat.mul_add_div (by omega), Nat.div_eq_of_lt hcol, Nat.add_zero]
  have hmod : (w * row + col) % w = col := by
    rw [Nat.mul_add_mod, Nat.mod_eq_of_lt hcol]
  unfold mirror_image
  rw [getD_map_range, if_pos hlt, hdiv, hmod]

theorem cell_sum_mirror (src : List Nat) (w h y0 x0 : Nat) (hy0 : y0 < 8) (hx0 : x0 < 8)
    (heven : w % 8 % 2 = 0) :
    cell_sum (mirror_image src w h) w h y0 x0 = cell_sum src w h y0 (7 - x0) := by
  unfold cell_sum
  apply Finset.sum_congr rfl
  intro dy hdy
  rw [Finset.mem_range] at hdy
  rw [← Finset.sum_range_reflect (fun dx => ((src.getD
    (w * ((h % 8) / 2 + y0 * (h / 8) + dy) + ((w % 8) / 2 + (7 - x0) * (w / 8) + dx)) 0 : Nat) : ℚ))]
  apply Finset.sum_congr rfl
  intro dx hdx
  rw [Finset.mem_range] at hdx
  have hrow : (h % 8) / 2 + y0 * (h / 8) + dy < h := by
    have h1 : y0 * (h / 8) ≤ 7 * (h / 8) := Nat.mul_le_mul_right _ (by omega)
    omega
  have hcol : (w % 8) / 2 + x0 * (w / 8) + dx < w := by
    have h1 : x0 * (w / 8) ≤ 7 * (w / 8) := Nat.mul_le_mul_right _ (by omega)
    omega
  rw [mirror_image_getD src w h _ _ hrow hcol]
  have hidx : w - 1 - ((w % 8) / 2 + x0 * (w / 8) + dx)
      = (w % 8) / 2 + (7 - x0) * (w / 8) + (w / 8 - 1 - dx) := by
    interval_cases x0 <;> omega
  simp only [hidx]

/-- The double the loops of `genhash` leave in `dct[0]` on the grid whose first
column is 255 and whose other cells are 0. -/
theorem genhash_coeff_first_column_pos :
    0 < genhash_coeff fl ⟨fun k => if k % 8 = 0 then 255 else 0⟩ 0 0 := by
  decide!

theorem genhash_coeff_zero_grid : ¬ 0 < genhash_coeff fl ⟨fun _ => 0⟩ 0 0 := by
  decide!

/-- Claim C4 as stated fails. For the 9×8 image whose last column is 255 and whose
other pixels are 0, the mean grid of the mirrored image is not the FLIP
permutation of the mean grid of the original (cell 0 is 255 against 0), and the
BASE hash of the mirrored image differs from the FLIP hash of the original. -/
theorem scale_down_mirror_fails_odd_margin :
    ∃ g gm : Mem ℚ,
      scale_down ⟨fun _ => 0⟩ ((List.range 72).map (fun i => if i % 9 = 8 then 255 else 0)) 9 8
        = some g ∧
      scale_down ⟨fun _ => 0⟩
        (mirror_image ((List.range 72).map (fun i => if i % 9 = 8 then 255 else 0)) 9 8) 9 8
        = some gm ∧
      gm.read (8 * 0 + 0) ≠ g.read (8 * 0 + (7 - 0)) ∧
      genhash gm ≠ (hflip ⟨fun _ => 0⟩ g).2 := by
  obtain ⟨g, hg, hgr⟩ := scale_down_eq ⟨fun _ => 0⟩
    ((List.range 72).map (fun i => if i % 9 = 8 then 255 else 0)) 9 8 (by simp)
  obtain ⟨gm, hgm, hgmr⟩ := scale_down_eq ⟨fun _ => 0⟩
    (mirror_image ((List.range 72).map (fun i => if i % 9 = 8 then 255 else 0)) 9 8) 9 8
    (mirror_image_length _ _ _)
  have hcell : ∀ (l : List Nat) (y0 x0 : Nat),
      cell_sum l 9 8 y0 x0 = ((l.getD (9 * (0 + y0 * 1 + 0) + (0 + x0 * 1 + 0)) 0 : Nat) : ℚ) := by
    intro l y0 x0
    simp only [cell_sum, Nat.reduceDiv, Nat.reduceMod, Finset.sum_range_one]
  have hg0 : ∀ k, k < 64 → g.read k = 0 := by
    intro k hk
    have himg : ((List.range 72).map (fun i => if i % 9 = 8 then 255 else 0)).getD
        (9 * (0 + k / 8 * 1 + 0) + (0 + k % 8 * 1 + 0)) 0 = 0 := by
      rw [getD_map_range]
      split
      · rw [if_neg (by omega)]
      · rfl
    rw [hgr k, if_pos hk, hcell, himg]
    simp
  have hgm0 : gm.read 0 = 255 := by
    rw [hgmr 0, if_pos (by decide), hcell,
      mirror_image_getD _ 9 8 _ _ (by decide) (by decide), getD_map_range]
    norm_num
  have hgmall : ∀ k, k < 64 →
      gm.read k = (⟨fun k => if k % 8 = 0 then 255 else 0⟩ : Mem ℚ).read k := by
    intro k hk
    show gm.read k = if k % 8 = 0 then 255 else 0
    rw [hgmr k, if_pos hk, hcell,
      mirror_image_getD _ 9 8 _ _ (by omega) (by omega), getD_map_range,
      if_pos (by omega)]
    by_cases h0 : k % 8 = 0
    · rw [if_pos (by omega), if_pos h0]
      norm_num
    · rw [if_neg (by omega), if_neg h0]
      norm_num
  refine ⟨g, gm, hg, hgm, ?_, ?_⟩
  · rw [hg0 _ (by decide)]
    show gm.read 0 ≠ 0
    rw [hgm0]
    norm_num
  · intro heq
    have hz : ∀ k, k < 64 →
        (hflip_loop ⟨fun _ => 0⟩ g).1.read k = (⟨fun _ => 0⟩ : Mem ℚ).read k := by
      intro k hk
      rw [hflip_loop_read _ _ k hk]
      exact hg0 _ (by omega)
    have hbit : (genhash gm).testBit 0 = ((hflip ⟨fun _ => 0⟩ g).2).testBit 0 := by rw [heq]
    rw [hflip_snd, genhash_congr _ _ hgmall, genhash_congr _ _ hz,
      genhash_testBit, genhash_testBit, decide_eq_decide] at hbit
    exact genhash_coeff_zero_grid (hbit.mp ⟨by decide, genhash_coeff_first_column_pos⟩).2

/-- Claim C4, amended. For every grayscale image of width `w ≥ 8` and height
`h ≥ 8` with `w mod 8` even (so that the unused columns are split evenly between
the two sides), `scale_down` returns on the image and on its horizontal mirror,
the mean grid of the mirror is the FLIP permutation
`out[8 * y + x] = in[8 * y + (7 - x)]` of the mean grid of the original, and the
BASE hash of the mirror equals the FLIP hash `hflip` computes for the original. -/
theorem scale_down_mirror_flip (dst dstm tmp : Mem ℚ) (src : List Nat) (w h : Nat)
    (hlen : src.length = w * h) (_hw : 8 ≤ w) (_hh : 8 ≤ h) (heven : w % 8 % 2 = 0) :
    ∃ g gm : Mem ℚ,
      scale_down dst src w h = some g ∧
      scale_down dstm (mirror_image src w h) w h = some gm ∧
      (∀ x y, x < 8 → y < 8 → gm.read (8 * y + x) = g.read (8 * y + (7 - x))) ∧
      genhash gm = (hflip tmp g).2 := by
  obtain ⟨g, hg, hgr⟩ := scale_down_eq dst src w h hlen
  obtain ⟨gm, hgm, hgmr⟩ := scale_down_eq dstm (mirror_image src w h) w h
    (mirror_image_length _ _ _)
  have hperm : ∀ k, k < 64 → gm.read k = g.read (8 * (k / 8) + (7 - k % 8)) := by
    intro k hk
    have hk2 : 8 * (k / 8) + (7 - k % 8) < 64 := by omega
    rw [hgmr k, hgr _, if_pos hk, if_pos hk2,
      cell_sum_mirror src w h _ _ (by omega) (Nat.mod_lt _ (by decide)) heven]
    have e1 : (8 * (k / 8) + (7 - k % 8)) / 8 = k / 8 := by omega
    have e2 : (8 * (k / 8) + (7 - k % 8)) % 8 = 7 - k % 8 := by omega
    rw [e1, e2]
  refine ⟨g, gm, hg, hgm, ?_, ?_⟩
  · intro x y hx hy
    rw [hperm _ (by omega)]
    have e1 : (8 * y + x) / 8 = y := by omega
    have e2 : (8 * y + x) % 8 = x := by omega
    rw [e1, e2]
  · rw [hflip_snd]
    apply genhash_congr
    intro k hk
    rw [hflip_loop_read _ _ k hk]
    exact hperm k hk

theorem scale_down_mirror_flip_witness :
    ∃ g gm : Mem ℚ,
      scale_down ⟨fun _ => 0⟩ ((List.range 128).map (fun i => i % 256)) 16 8 = some g ∧
      scale_down ⟨fun _ => 0⟩
        (mirror_image ((List.range 128).map (fun i => i % 256)) 16 8) 16 8 = some gm ∧
      (∀ x y, x < 8 → y < 8 → gm.read (8 * y + x) = g.read (8 * y + (7 - x))) ∧
      genhash gm = (hflip ⟨fun _ => 0⟩ g).2 :=
  scale_down_mirror_flip ⟨fun _ => 0⟩ ⟨fun _ => 0⟩ ⟨fun _ => 0⟩
    ((List.range 128).map (fun i => i % 256)) 16 8 (by simp) (by decide) (by decide) (by decide)

/-! ## Hamming distance and the two popcount loops -/

/-- The count of set bits of `c` below position `n + 1` is its lowest bit plus the
count of set bits of `c / 2` below position `n`. -/
theorem count_bits_succ (c n : Nat) :
    ((List.range (n + 1)).filter (fun i => c.testBit i)).length
      = c % 2 + ((List.range n).filter (fun i => (c / 2).testBit i)).length := by
  rw [List.range_succ_eq_map, List.filter_cons, List.filter_map]
  have h0 : c.testBit 0 = decide (c % 2 = 1) := Nat.testBit_zero c
  have hs : ((fun i => c.testBit i) ∘ Nat.succ) = (fun i => (c / 2).testBit i) := by
    funext i
    simp [Nat.testBit_succ]
  rw [hs, h0]
  rcases Nat.mod_two_eq_zero_or_one c with h | h
  · simp [h]
  · simp [h, Nat.add_comm]

theorem land_pred_div_two_of_odd (c : Nat) (h : c % 2 = 1) :
    (c &&& (c - 1)) / 2 = c / 2 ∧ (c &&& (c - 1)) % 2 = 0 := by
  constructor
  · apply Nat.eq_of_testBit_eq
    intro i
    rw [Nat.testBit_div_two, Nat.testBit_and, Nat.testBit_div_two]
    have : (c - 1).testBit (i + 1) = c.testBit (i + 1) := by
      rw [Nat.testBit_succ, Nat.testBit_succ]
      congr 1
      omega
    rw [this, Bool.and_self]
  · have h0 : (c &&& (c - 1)).testBit 0 = false := by
      rw [Nat.testBit_and, Nat.testBit_zero, Nat.testBit_zero]
      have : (c - 1) % 2 = 0 := by omega
      simp [this]
    rw [Nat.testBit_zero] at h0
    rcases Nat.mod_two_eq_zero_or_one (c &&& (c - 1)) with h1 | h1
    · exact h1
    · simp [h1] at h0

theorem land_pred_div_two_of_even (c : Nat) (h : c % 2 = 0) :
    (c &&& (c - 1)) / 2 = (c / 2) &&& (c / 2 - 1) ∧ (c &&& (c - 1)) % 2 = 0 := by
  constructor
  · apply Nat.eq_of_testBit_eq
    intro i
    rw [Nat.testBit_div_two, Nat.testBit_and, Nat.testBit_and]
    have : (c - 1).testBit (i + 1) = (c / 2 - 1).testBit i := by
      rw [Nat.testBit_succ]
      congr 1
      omega
    rw [this, Nat.testBit_succ]
  · have h0 : (c &&& (c - 1)).testBit 0 = false := by
      rw [Nat.testBit_and, Nat.testBit_zero, Nat.testBit_zero]
      simp [h]
    rw [Nat.testBit_zero] at h0
    rcases Nat.mod_two_eq_zero_or_one (c &&& (c - 1)) with h1 | h1
    · exact h1
    · simp [h1] at h0

/-- One step of either loop clears exactly one set bit. -/
theorem count_bits_land_pred (n c : Nat) (hc : c ≠ 0) (hlt : c < 2 ^ n) :
    ((List.range n).filter (fun i => (c &&& (c - 1)).testBit i)).length + 1
      = ((List.range n).filter (fun i => c.testBit i)).length := by
  induction n generalizing c with
  | zero =>
    simp at hlt
    exact absurd hlt hc
  | succ n ih =>
    rw [count_bits_succ, count_bits_succ]
    rcases Nat.mod_two_eq_zero_or_one c with h | h
    · obtain ⟨e1, e2⟩ := land_pred_div_two_of_even c h
      rw [e1, e2, h]
      have hc2 : c / 2 ≠ 0 := by omega
      have hlt2 : c / 2 < 2 ^ n := by
        rw [pow_succ] at hlt
        omega
      have := ih (c / 2) hc2 hlt2
      omega
    · obtain ⟨e1, e2⟩ := land_pred_div_two_of_odd c h
      rw [e1, e2, h]
      omega

theorem land_pred_lt (c n : Nat) (hlt : c < 2 ^ n) : c &&& (c - 1) < 2 ^ n :=
  lt_of_le_of_lt (le_trans Nat.and_le_right (Nat.sub_le c 1)) hlt

theorem dist_loop_eq (n : Nat) (c d : Nat) (hlt : c < 2 ^ n) :
    dist_loop c d = d + ((List.range n).filter (fun i => c.testBit i)).length := by
  induction c using Nat.strong_induction_on generalizing d with
  | _ c ih =>
    rw [dist_loop]
    split
    · rename_i h0
      subst h0
      simp
    · rename_i h0
      have hdec : c &&& (c - 1) < c := by
        have h1 : c &&& (c - 1) ≤ c - 1 := Nat.and_le_right
        omega
      rw [ih _ hdec (d + 1) (land_pred_lt c n hlt), ← count_bits_land_pred n c h0 hlt]
      omega

theorem hasheq_loop_iff (n : Nat) (threshold : Int) (c : Nat) (d : Int) (hlt : c < 2 ^ n) :
    hasheq_loop threshold c d = true ↔
      c = 0 ∨ d + (((List.range n).filter (fun i => c.testBit i)).length : Int) ≤ threshold := by
  induction c using Nat.strong_induction_on generalizing d with
  | _ c ih =>
    rw [hasheq_loop]
    split
    · rename_i h0
      simp [h0]
    · rename_i h0
      have hdec : c &&& (c - 1) < c := by
        have h1 : c &&& (c - 1) ≤ c - 1 := Nat.and_le_right
        omega
      have hcnt := count_bits_land_pred n c h0 hlt
      split
      · rename_i hgt
        simp only [Bool.false_eq_true, false_iff, not_or]
        refine ⟨h0, ?_⟩
        omega
      · rename_i hle
        rw [ih _ hdec (d + 1) (land_pred_lt c n hlt)]
        constructor
        · intro h
          right
          rcases h with h | h
          · rw [h] at hcnt
            simp at hcnt
            omega
          · omega
        · intro h
          right
          rcases h with h | h
          · exact absurd h h0
          · omega

theorem xor_lt_two_pow_64 (a b : Nat) (ha : a < 2 ^ 64) (hb : b < 2 ^ 64) :
    a ^^^ b < 2 ^ 64 := Nat.xor_lt_two_pow ha hb

theorem hamming_eq_count (a b : Nat) :
    hamming a b = ((List.range 64).filter (fun i => (a ^^^ b).testBit i)).length := by
  unfold hamming
  congr 1
  apply List.filter_congr
  intro i _
  rw [Nat.testBit_xor]

/-- The function `dist` returns the Hamming distance. -/
theorem dist_eq_hamming (a b : Nat) (ha : a < 2 ^ 64) (hb : b < 2 ^ 64) :
    dist a b = hamming a b := by
  unfold dist
  rw [dist_loop_eq 64 _ 0 (xor_lt_two_pow_64 a b ha hb), hamming_eq_count, Nat.zero_add]

theorem hamming_eq_zero_of_xor (a b : Nat) (h : a ^^^ b = 0) : hamming a b = 0 := by
  rw [hamming_eq_count, h]
  simp

/-- The function `hasheq` for an arbitrary threshold. -/
theorem hasheq_iff (threshold : Int) (a b : Nat) (ha : a < 2 ^ 64) (hb : b < 2 ^ 64) :
    hasheq threshold a b = true ↔ a ^^^ b = 0 ∨ (hamming a b : Int) ≤ threshold := by
  unfold hasheq
  rw [hasheq_loop_iff 64 threshold _ 0 (xor_lt_two_pow_64 a b ha hb), hamming_eq_count,
    Int.zero_add]

/-- The function `hasheq` for a threshold that is not negative. -/
theorem hasheq_iff_of_nonneg (threshold : Int) (hthr : 0 ≤ threshold) (a b : Nat)
    (ha : a < 2 ^ 64) (hb : b < 2 ^ 64) :
    hasheq threshold a b = true ↔ (hamming a b : Int) ≤ threshold := by
  rw [hasheq_iff threshold a b ha hb]
  constructor
  · intro h
    rcases h with h | h
    · rw [hamming_eq_zero_of_xor a b h]
      exact hthr
    · exact h
  · intro h
    exact Or.inr h

/-- Claim C5. For a threshold that is not negative and 64-bit hashes `a`, `b`:
`dist a b` is the number of bit positions in which `a` and `b` differ, and
`hasheq a b` is true exactly when that number is at most the threshold; the
early exit of `hasheq` agrees with the full count of `dist`. -/
theorem hasheq_iff_dist_le (threshold : Int) (a b : Nat) (hthr : 0 ≤ threshold)
    (ha : a < 2 ^ 64) (hb : b < 2 ^ 64) :
    dist a b = hamming a b ∧ (hasheq threshold a b = true ↔ (dist a b : Int) ≤ threshold) := by
  refine ⟨dist_eq_hamming a b ha hb, ?_⟩
  rw [dist_eq_hamming a b ha hb]
  exact hasheq_iff_of_nonneg threshold hthr a b ha hb

theorem hasheq_iff_dist_le_witness :
    dist 5 6 = hamming 5 6 ∧ (hasheq 2 5 6 = true ↔ (dist 5 6 : Int) ≤ 2) :=
  hasheq_iff_dist_le 2 5 6 (by decide) (by decide) (by decide)

/-- Claim C6 as stated fails. With threshold 1 the hashes 0 and 1 are at Hamming
distance exactly 1, and `hasheq` is true on them. -/
theorem hasheq_true_at_threshold :
    hamming 0 1 = 1 ∧ dist 0 1 = 1 ∧ hasheq 1 0 1 = true := by
  have h1 : hamming 0 1 = 1 := by decide
  refine ⟨h1, ?_, ?_⟩
  · rw [dist_eq_hamming 0 1 (by decide) (by decide), h1]
  · rw [hasheq_iff_of_nonneg 1 (by decide) 0 1 (by decide) (by decide), h1]
    decide

/-- Claim C6, amended. The threshold is an inclusive upper bound on Hamming
distance: for 64-bit hashes whose distance is exactly the threshold `hasheq` is
true, and for a threshold that is not negative `hasheq` is true only when the
distance is at most the threshold. -/
theorem hasheq_threshold_inclusive (threshold : Int) (a b : Nat)
    (ha : a < 2 ^ 64) (hb : b < 2 ^ 64) :
    ((hamming a b : Int) = threshold → hasheq threshold a b = true) ∧
    (0 ≤ threshold → hasheq threshold a b = true → (hamming a b : Int) ≤ threshold) := by
  constructor
  · intro h
    rw [hasheq_iff threshold a b ha hb]
    exact Or.inr (le_of_eq h)
  · intro hthr h
    exact (hasheq_iff_of_nonneg threshold hthr a b ha hb).mp h

theorem hasheq_threshold_inclusive_witness :
    ((hamming 0 1 : Int) = 1 → hasheq 1 0 1 = true) ∧
    ((0 : Int) ≤ 1 → hasheq 1 0 1 = true → (hamming 0 1 : Int) ≤ 1) :=
  hasheq_threshold_inclusive 1 0 1 (by decide) (by decide)

/-! ## `handle_pair` -/

theorem attach_read (heap : Mem item_t) (p tmp eqt a : Nat) (hne : p ≠ tmp) :
    (attach heap p tmp eqt).read a =
      if a = p then
        { heap.read p with eq_next := some tmp, eq_n := (heap.read p).eq_n + 1 }
      else if a = tmp then
        { heap.read tmp with eq_parent := some p, eq_next := (heap.read p).eq_next,
                             eq_trans := eqt - TI_LAST }
      else heap.read a := by
  have hne2 : tmp ≠ p := fun h => hne h.symm
  unfold attach
  by_cases h1 : a = p
  · subst h1
    simp [hne]
  · by_cases h2 : a = tmp
    · subst h2
      simp [h1, hne]
    · simp [h1, h2]

theorem attach_parent (heap : Mem item_t) (p tmp eqt a : Nat) (hne : p ≠ tmp) :
    ((attach heap p tmp eqt).read a).eq_parent =
      if a = tmp then some p else (heap.read a).eq_parent := by
  rw [attach_read heap p tmp eqt a hne]
  by_cases h1 : a = p
  · subst h1
    simp [hne]
  · by_cases h2 : a = tmp
    · subst h2
      simp [h1]
    · simp [h1, h2]

theorem attach_next (heap : Mem item_t) (p tmp eqt a : Nat) (hne : p ≠ tmp) :
    ((attach heap p tmp eqt).read a).eq_next =
      if a = p then some tmp else if a = tmp then (heap.read p).eq_next
      else (heap.read a).eq_next := by
  rw [attach_read heap p tmp eqt a hne]
  by_cases h1 : a = p
  · simp [h1]
  · by_cases h2 : a = tmp
    · subst h2
      simp [h1]
    · simp [h1, h2]

theorem attach_n (heap : Mem item_t) (p tmp eqt a : Nat) (hne : p ≠ tmp) :
    ((attach heap p tmp eqt).read a).eq_n =
      if a = p then (heap.read p).eq_n + 1 else (heap.read a).eq_n := by
  rw [attach_read heap p tmp eqt a hne]
  by_cases h1 : a = p
  · simp [h1]
  · by_cases h2 : a = tmp
    · subst h2
      simp [h1]
    · simp [h1, h2]

theorem attach_trans (heap : Mem item_t) (p tmp eqt a : Nat) (hne : p ≠ tmp) :
    ((attach heap p tmp eqt).read a).eq_trans =
      if a = tmp then eqt - TI_LAST else (heap.read a).eq_trans := by
  rw [attach_read heap p tmp eqt a hne]
  by_cases h1 : a = p
  · subst h1
    simp [hne]
  · by_cases h2 : a = tmp
    · subst h2
      simp [h1]
    · simp [h1, h2]

theorem attach_hashes (heap : Mem item_t) (p tmp eqt a : Nat) (hne : p ≠ tmp) :
    ((attach heap p tmp eqt).read a).hashes = (heap.read a).hashes := by
  rw [attach_read heap p tmp eqt a hne]
  by_cases h1 : a = p
  · simp [h1]
  · by_cases h2 : a = tmp
    · subst h2
      simp [h1]
    · simp [h1, h2]

theorem find_root_of_root (heap : Mem item_t) (fuel p : Nat)
    (h : (heap.read p).eq_parent = none) : find_root heap (fuel + 1) p = some p := by
  simp [find_root, h]

theorem find_root_of_child (heap : Mem item_t) (fuel c p : Nat)
    (hc : (heap.read c).eq_parent = some p) (hp : (heap.read p).eq_parent = none) :
    find_root heap (fuel + 2) c = some p := by
  simp [find_root, hc, hp]

theorem cluster_root_of_root (heap : Mem item_t) (a : Nat)
    (h : (heap.read a).eq_parent = none) : cluster_root heap a = a := by
  simp [cluster_root, h]

theorem cluster_root_of_child (heap : Mem item_t) (a p : Nat)
    (h : (heap.read a).eq_parent = some p) : cluster_root heap a = p := by
  simp [cluster_root, h]

/-- The loop that looks for the root returns the cluster root when parents are roots. -/
theorem find_root_eq (heap : Mem item_t) (fuel a : Nat) (hfuel : 2 ≤ fuel)
    (hpr : ∀ p, (heap.read a).eq_parent = some p → (heap.read p).eq_parent = none) :
    find_root heap fuel a = some (cluster_root heap a) := by
  obtain ⟨f, rfl⟩ : ∃ f, fuel = f + 2 := ⟨fuel - 2, by omega⟩
  cases h : (heap.read a).eq_parent with
  | none => rw [cluster_root_of_root heap a h, find_root_of_root heap (f + 1) a h]
  | some p => rw [cluster_root_of_child heap a p h, find_root_of_child heap f a p h (hpr p h)]

theorem cmp_items_spec (threshold : Int) (a b : item_t) (h : cmp_items threshold a b ≠ 0) :
    cmp_items threshold a b - TI_LAST < 8 ∧
    hasheq threshold (a.hashes TI_BASE) (b.hashes (cmp_items threshold a b - TI_LAST)) = true := by
  unfold cmp_items at h ⊢
  simp only [TI_BASE, TI_ROT1, TI_ROT2, TI_ROT3, TI_FLIP, TI_FLR1, TI_FLR2, TI_FLR3, TI_LAST] at h ⊢
  split_ifs at h ⊢ <;> simp_all

theorem cmp_items_ne_zero_of_hasheq (threshold : Int) (a b : item_t) (t : Nat) (ht : t < 8)
    (h : hasheq threshold (a.hashes TI_BASE) (b.hashes t) = true) :
    cmp_items threshold a b ≠ 0 := by
  unfold cmp_items
  simp only [TI_BASE, TI_ROT1, TI_ROT2, TI_ROT3, TI_FLIP, TI_FLR1, TI_FLR2, TI_FLR3, TI_LAST] at h ⊢
  interval_cases t <;> split_ifs <;> simp_all

theorem cmp_items_congr (threshold : Int) (a b a2 b2 : item_t)
    (ha : a2.hashes = a.hashes) (hb : b2.hashes = b.hashes) :
    cmp_items threshold a2 b2 = cmp_items threshold a b := by
  unfold cmp_items
  rw [ha, hb]

theorem handle_pair_skip (fuel : Nat) (threshold : Int) (heap : Mem item_t) (ref tmp : Nat)
    (h : (heap.read tmp).eq_parent ≠ none) :
    handle_pair fuel threshold heap ref tmp = some heap := by
  unfold handle_pair
  cases hp : (heap.read tmp).eq_parent with
  | none => exact absurd hp h
  | some q => simp

theorem handle_pair_nomatch (fuel : Nat) (threshold : Int) (heap : Mem item_t) (ref tmp : Nat)
    (h : cmp_items threshold (heap.read ref) (heap.read tmp) = 0) :
    handle_pair fuel threshold heap ref tmp = some heap := by
  unfold handle_pair
  simp [h]

theorem handle_pair_match (fuel : Nat) (threshold : Int) (heap : Mem item_t) (ref tmp p : Nat)
    (hp : (heap.read tmp).eq_parent = none)
    (h : cmp_items threshold (heap.read ref) (heap.read tmp) ≠ 0)
    (hroot : find_root heap fuel ref = some p) :
    handle_pair fuel threshold heap ref tmp
      = some (attach heap p tmp (cmp_items threshold (heap.read ref) (heap.read tmp))) := by
  unfold handle_pair
  simp [hp, h, hroot]

theorem frozen_refl (heap : Mem item_t) : frozen heap heap :=
  ⟨fun _ => rfl, fun _ _ h => h⟩

theorem frozen_trans (h1 h2 h3 : Mem item_t) (a : frozen h1 h2) (b : frozen h2 h3) :
    frozen h1 h3 :=
  ⟨fun x => (b.1 x).trans (a.1 x), fun x p hx => b.2 x p (a.2 x p hx)⟩

theorem chain_congr (heap heap2 : Mem item_t) (l : List Nat) (start : Option Nat)
    (h : ∀ c ∈ l, (heap2.read c).eq_next = (heap.read c).eq_next) :
    chain heap2 start l ↔ chain heap start l := by
  induction l generalizing start with
  | nil => simp [chain]
  | cons c l ih =>
    simp only [chain]
    rw [h c (List.mem_cons_self _ _), ih _ (fun x hx => h x (List.mem_cons_of_mem _ hx))]

theorem peers_walk_of_chain (heap : Mem item_t) (l : List Nat) (start : Option Nat)
    (h : chain heap start l) (fuel : Nat) (hfuel : l.length ≤ fuel) :
    peers_walk heap fuel start = some l := by
  induction l generalizing start fuel with
  | nil =>
    simp only [chain] at h
    subst h
    cases fuel <;> simp [peers_walk]
  | cons c l ih =>
    simp only [chain] at h
    obtain ⟨hs, hc⟩ := h
    subst hs
    obtain ⟨f, rfl⟩ : ∃ f, fuel = f + 1 := ⟨fuel - 1, by simp at hfuel; omega⟩
    simp only [peers_walk]
    rw [ih _ hc f (by simp at hfuel; omega)]
    rfl

/-! ## Cluster well-formedness is preserved -/

theorem cluster_root_mem (threshold : Int) (heap : Mem item_t) (all : List Nat)
    (hwf : clusters_wf threshold heap all) (a : Nat) (ha : a ∈ all) :
    cluster_root heap a ∈ all ∧ (heap.read (cluster_root heap a)).eq_parent = none := by
  cases h : (heap.read a).eq_parent with
  | none =>
    rw [cluster_root_of_root heap a h]
    exact ⟨ha, h⟩
  | some p =>
    rw [cluster_root_of_child heap a p h]
    exact hwf.parent_root a ha p h

theorem cluster_root_congr (heap heap2 : Mem item_t) (a : Nat)
    (h : (heap2.read a).eq_parent = (heap.read a).eq_parent) :
    cluster_root heap2 a = cluster_root heap a := by
  simp [cluster_root, h]

theorem attach_wf (threshold : Int) (heap : Mem item_t) (all : List Nat) (ref tmp p : Nat)
    (hwf : clusters_wf threshold heap all) (href : ref ∈ all) (htmp : tmp ∈ all)
    (hp : p = cluster_root heap ref) (hpt : p ≠ tmp)
    (hnone : (heap.read tmp).eq_parent = none)
    (hpeerless : ∀ c ∈ all, (heap.read c).eq_parent ≠ some tmp)
    (hm : cmp_items threshold (heap.read ref) (heap.read tmp) ≠ 0) :
    clusters_wf threshold
      (attach heap p tmp (cmp_items threshold (heap.read ref) (heap.read tmp))) all := by
  obtain ⟨hpall, hproot⟩ := cluster_root_mem threshold heap all hwf ref href
  rw [← hp] at hpall hproot
  have hrt : ref ≠ tmp := by
    intro h
    subst h
    rw [cluster_root_of_root heap ref hnone] at hp
    exact hpt hp
  constructor
  · intro c hc q hq
    rw [attach_parent heap p tmp _ c hpt] at hq
    by_cases h1 : c = tmp
    · rw [if_pos h1] at hq
      have hq2 : p = q := Option.some.inj hq
      subst hq2
      refine ⟨hpall, ?_⟩
      rw [attach_parent heap p tmp _ p hpt, if_neg hpt]
      exact hproot
    · rw [if_neg h1] at hq
      obtain ⟨hqall, hqroot⟩ := hwf.parent_root c hc q hq
      refine ⟨hqall, ?_⟩
      have hqt : q ≠ tmp := by
        intro h
        subst h
        exact hpeerless c hc hq
      rw [attach_parent heap p tmp _ q hpt, if_neg hqt]
      exact hqroot
  · intro r hr hrn
    rw [attach_parent heap p tmp _ r hpt] at hrn
    have hrt2 : r ≠ tmp := by
      intro h
      rw [if_pos h] at hrn
      exact Option.noConfusion hrn
    rw [if_neg hrt2] at hrn
    obtain ⟨l, hch, hnd, hlen, hmem⟩ := hwf.peers r hr hrn
    have hl_ne : ∀ c ∈ l, c ≠ tmp ∧ c ≠ p := by
      intro c hc
      have hcp := ((hmem c).mp hc).2
      constructor
      · intro h
        subst h
        rw [hnone] at hcp
        exact Option.noConfusion hcp
      · intro h
        subst h
        rw [hproot] at hcp
        exact Option.noConfusion hcp
    have hl_next : ∀ c ∈ l,
        ((attach heap p tmp (cmp_items threshold (heap.read ref) (heap.read tmp))).read c).eq_next
          = (heap.read c).eq_next := by
      intro c hc
      rw [attach_next heap p tmp _ c hpt, if_neg (hl_ne c hc).2, if_neg (hl_ne c hc).1]
    by_cases hrp : r = p
    · subst hrp
      refine ⟨tmp :: l, ?_, ?_, ?_, ?_⟩
      · simp only [chain]
        refine ⟨?_, ?_⟩
        · rw [attach_next heap r tmp _ r hpt, if_pos rfl]
        · rw [attach_next heap r tmp _ tmp hpt, if_neg (fun h => hpt h.symm), if_pos rfl]
          exact (chain_congr heap _ l _ hl_next).mpr hch
      · rw [List.nodup_cons]
        refine ⟨?_, hnd⟩
        intro h
        exact (hl_ne tmp h).1 rfl
      · rw [attach_n heap r tmp _ r hpt, if_pos rfl, List.length_cons, hlen]
      · intro c
        rw [List.mem_cons, attach_parent heap r tmp _ c hpt]
        by_cases hct : c = tmp
        · subst hct
          simp [htmp]
        · rw [if_neg hct, hmem c]
          simp [hct]
    · refine ⟨l, ?_, hnd, ?_, ?_⟩
      · rw [attach_next heap p tmp _ r hpt, if_neg hrp, if_neg hrt2]
        exact (chain_congr heap _ l _ hl_next).mpr hch
      · rw [attach_n heap p tmp _ r hpt, if_neg hrp, hlen]
      · intro c
        rw [attach_parent heap p tmp _ c hpt]
        by_cases hct : c = tmp
        · subst hct
          rw [if_pos rfl]
          constructor
          · intro h
            exact absurd rfl (hl_ne c h).1
          · intro h
            exact absurd (Option.some.inj h.2).symm hrp
        · rw [if_neg hct, hmem c]
  · intro c hc q hq
    rw [attach_parent heap p tmp _ c hpt] at hq
    obtain ⟨hlt, hhash⟩ := cmp_items_spec threshold (heap.read ref) (heap.read tmp) hm
    by_cases h1 : c = tmp
    · subst h1
      rw [if_pos rfl] at hq
      have hq2 : p = q := Option.some.inj hq
      subst hq2
      rw [attach_trans heap p c _ c hpt, if_pos rfl, attach_hashes heap p c _ c hpt]
      refine ⟨hlt, ref, href, ?_, ?_⟩
      · rw [cluster_root_congr heap _ ref (by rw [attach_parent heap p c _ ref hpt, if_neg hrt]),
          ← hp]
      · rw [attach_hashes heap p c _ ref hpt]
        exact hhash
    · rw [if_neg h1] at hq
      obtain ⟨hlt2, m, hmall, hmroot, hmhash⟩ := hwf.matched c hc q hq
      rw [attach_trans heap p tmp _ c hpt, if_neg h1, attach_hashes heap p tmp _ c hpt]
      refine ⟨hlt2, m, hmall, ?_, ?_⟩
      · have hmt : m ≠ tmp := by
          intro h
          subst h
          rw [cluster_root_of_root heap m hnone] at hmroot
          subst hmroot
          exact hpeerless c hc hq
        rw [cluster_root_congr heap _ m (by rw [attach_parent heap p tmp _ m hpt, if_neg hmt])]
        exact hmroot
      · rw [attach_hashes heap p tmp _ m hpt]
        exact hmhash

/-- One call of `handle_pair` on a well-formed heap, for a `tmp` that has no
children: it returns, keeps the heap well formed, and a parent it sets is the
cluster root of `ref`. -/
theorem handle_pair_wf (fuel : Nat) (threshold : Int) (heap : Mem item_t) (all : List Nat)
    (ref tmp : Nat) (hfuel : 2 ≤ fuel)
    (hwf : clusters_wf threshold heap all) (href : ref ∈ all) (htmp : tmp ∈ all)
    (hne : ref ≠ tmp)
    (hpeerless : ∀ c ∈ all, (heap.read c).eq_parent ≠ some tmp) :
    ∃ heap2, handle_pair fuel threshold heap ref tmp = some heap2 ∧
      clusters_wf threshold heap2 all ∧ frozen heap heap2 ∧
      (∀ c p, (heap2.read c).eq_parent = some p →
        (heap.read c).eq_parent = some p ∨ (c = tmp ∧ p = cluster_root heap ref ∧
          cmp_items threshold (heap.read ref) (heap.read tmp) ≠ 0)) ∧
      ((heap2.read tmp).eq_parent ≠ none ∨
        cmp_items threshold (heap.read ref) (heap.read tmp) = 0) := by
  by_cases hpar : (heap.read tmp).eq_parent = none
  · by_cases hm : cmp_items threshold (heap.read ref) (heap.read tmp) = 0
    · exact ⟨heap, handle_pair_nomatch fuel threshold heap ref tmp hm, hwf, frozen_refl heap,
        fun c p h => Or.inl h, Or.inr hm⟩
    · have hroot := find_root_eq heap fuel ref hfuel
        (fun p hp => (hwf.parent_root ref href p hp).2)
      have hpt : cluster_root heap ref ≠ tmp := by
        cases hr : (heap.read ref).eq_parent with
        | none =>
          rw [cluster_root_of_root heap ref hr]
          exact hne
        | some q =>
          rw [cluster_root_of_child heap ref q hr]
          intro h
          subst h
          exact hpeerless ref href hr
      refine ⟨_, handle_pair_match fuel threshold heap ref tmp _ hpar hm hroot,
        attach_wf threshold heap all ref tmp _ hwf href htmp rfl hpt hpar hpeerless hm,
        ⟨fun a => attach_hashes heap _ tmp _ a hpt, ?_⟩, ?_, ?_⟩
      · intro a p hap
        rw [attach_parent heap _ tmp _ a hpt]
        by_cases hat : a = tmp
        · subst hat
          rw [hpar] at hap
          exact Option.noConfusion hap
        · rw [if_neg hat]
          exact hap
      · intro c p hcp
        rw [attach_parent heap _ tmp _ c hpt] at hcp
        by_cases hct : c = tmp
        · rw [if_pos hct] at hcp
          exact Or.inr ⟨hct, (Option.some.inj hcp).symm, hm⟩
        · rw [if_neg hct] at hcp
          exact Or.inl hcp
      · left
        rw [attach_parent heap _ tmp _ tmp hpt, if_pos rfl]
        exact Option.noConfusion
  · refine ⟨heap, handle_pair_skip fuel threshold heap ref tmp hpar, hwf, frozen_refl heap,
      fun c p h => Or.inl h, Or.inl hpar⟩

/-! ## The loops of `intracmp` -/

theorem matches_item_frozen (threshold : Int) (heap0 heap : Mem item_t) (a b : Nat)
    (hfr : frozen heap0 heap) :
    cmp_items threshold (heap.read a) (heap.read b)
      = cmp_items threshold (heap0.read a) (heap0.read b) :=
  cmp_items_congr threshold _ _ _ _ (hfr.1 a) (hfr.1 b)

theorem handle_pair_inv (fuel : Nat) (threshold : Int) (heap0 heap : Mem item_t)
    (all pend : List Nat) (ref tmp : Nat) (hfuel : 2 ≤ fuel)
    (hinv : intra_inv threshold heap0 all pend heap)
    (href : ref ∈ all) (hrp : ref ∉ pend) (htmp : tmp ∈ all) (htp : tmp ∈ pend) :
    ∃ heap2, handle_pair fuel threshold heap ref tmp = some heap2 ∧
      intra_inv threshold heap0 all pend heap2 ∧ frozen heap heap2 ∧
      ((heap2.read tmp).eq_parent ≠ none ∨ ¬ matches_item threshold heap0 ref tmp) := by
  have hne : ref ≠ tmp := fun h => hrp (h ▸ htp)
  have hpeerless : ∀ c ∈ all, (heap.read c).eq_parent ≠ some tmp :=
    fun c hc h => hinv.np c hc tmp h htp
  obtain ⟨heap2, hrun, hwf2, hfr2, hnew, hdone⟩ :=
    handle_pair_wf fuel threshold heap all ref tmp hfuel hinv.wf href htmp hne hpeerless
  refine ⟨heap2, hrun, ⟨hwf2, ?_, frozen_trans _ _ _ hinv.fr hfr2, ?_⟩, hfr2, ?_⟩
  · intro c hc p hp
    rcases hnew c p hp with h | ⟨_, hpr, _⟩
    · exact hinv.np c hc p h
    · rw [hpr]
      cases hr : (heap.read ref).eq_parent with
      | none =>
        rw [cluster_root_of_root heap ref hr]
        exact hrp
      | some q =>
        rw [cluster_root_of_child heap ref q hr]
        exact hinv.np ref href q hr
  · intro htr c hc p hp
    rcases hnew c p hp with h | ⟨hct, hpr, hm⟩
    · exact hinv.pm htr c hc p h
    · subst hct
      rw [matches_item_frozen threshold heap0 heap ref c hinv.fr] at hm
      cases hr : (heap.read ref).eq_parent with
      | none =>
        rw [cluster_root_of_root heap ref hr] at hpr
        subst hpr
        exact hm
      | some q =>
        rw [cluster_root_of_child heap ref q hr] at hpr
        subst hpr
        exact htr p (hinv.wf.parent_root ref href p hr).1 ref href c hc
          (hinv.pm htr ref href p hr) hm
  · rcases hdone with h | h
    · exact Or.inl h
    · right
      intro hm
      apply hm
      rw [← matches_item_frozen threshold heap0 heap ref tmp hinv.fr]
      exact h

theorem inner_loop_inv (fuel : Nat) (threshold : Int) (heap0 : Mem item_t)
    (all pend : List Nat) (ref : Nat) (hfuel : 2 ≤ fuel) (href : ref ∈ all) (hrp : ref ∉ pend)
    (l : List Nat) :
    ∀ heap : Mem item_t, (∀ x ∈ l, x ∈ all ∧ x ∈ pend) →
      intra_inv threshold heap0 all pend heap →
      ∃ heap2, l.foldlM (fun heap tmp => handle_pair fuel threshold heap ref tmp) heap
          = some heap2 ∧
        intra_inv threshold heap0 all pend heap2 ∧ frozen heap heap2 ∧
        ∀ x ∈ l, (heap2.read x).eq_parent ≠ none ∨ ¬ matches_item threshold heap0 ref x := by
  induction l with
  | nil =>
    intro heap _ hinv
    exact ⟨heap, rfl, hinv, frozen_refl heap, fun x hx => absurd hx (List.not_mem_nil x)⟩
  | cons t l ih =>
    intro heap hl hinv
    obtain ⟨hta, htp⟩ := hl t (List.mem_cons_self _ _)
    obtain ⟨heap1, hrun1, hinv1, hfr1, hdone1⟩ :=
      handle_pair_inv fuel threshold heap0 heap all pend ref t hfuel hinv href hrp hta htp
    obtain ⟨heap2, hrun2, hinv2, hfr2, hdone2⟩ :=
      ih heap1 (fun x hx => hl x (List.mem_cons_of_mem _ hx)) hinv1
    refine ⟨heap2, ?_, hinv2, frozen_trans _ _ _ hfr1 hfr2, ?_⟩
    · rw [List.foldlM_cons, hrun1]
      exact hrun2
    · intro x hx
      rcases List.mem_cons.mp hx with h | h
      · subst h
        rcases hdone1 with hd | hd
        · left
          cases hx1 : (heap1.read x).eq_parent with
          | none => exact absurd hx1 hd
          | some q =>
            rw [hfr2.2 x q hx1]
            exact Option.noConfusion
        · exact Or.inr hd
      · exact hdone2 x h

theorem intra_inv_weaken (threshold : Int) (heap0 heap : Mem item_t) (all pend pend2 : List Nat)
    (hsub : ∀ x ∈ pend2, x ∈ pend) (hinv : intra_inv threshold heap0 all pend heap) :
    intra_inv threshold heap0 all pend2 heap :=
  ⟨hinv.wf, fun c hc p hp hin => hinv.np c hc p hp (hsub p hin), hinv.fr, hinv.pm⟩

theorem intracmp_inv (fuel : Nat) (threshold : Int) (heap0 : Mem item_t) (all : List Nat)
    (hfuel : 2 ≤ fuel) (l : List Nat) :
    ∀ heap : Mem item_t, l.Nodup → (∀ x ∈ l, x ∈ all) →
      intra_inv threshold heap0 all l heap →
      ∃ heap2, intracmp fuel threshold heap l = some heap2 ∧
        intra_inv threshold heap0 all [] heap2 ∧ frozen heap heap2 ∧
        l.Pairwise (fun a b =>
          (heap2.read b).eq_parent ≠ none ∨ ¬ matches_item threshold heap0 a b) := by
  induction l with
  | nil =>
    intro heap _ _ hinv
    exact ⟨heap, rfl, hinv, frozen_refl heap, List.Pairwise.nil⟩
  | cons ref rest ih =>
    intro heap hnd hall hinv
    obtain ⟨hnotin, hnd2⟩ := List.nodup_cons.mp hnd
    have hinv_rest : intra_inv threshold heap0 all rest heap :=
      intra_inv_weaken threshold heap0 heap all (ref :: rest) rest
        (fun x hx => List.mem_cons_of_mem _ hx) hinv
    obtain ⟨heap1, hrun1, hinv1, hfr1, hdone1⟩ :=
      inner_loop_inv fuel threshold heap0 all rest ref hfuel (hall ref (List.mem_cons_self _ _))
        hnotin rest heap (fun x hx => ⟨hall x (List.mem_cons_of_mem _ hx), hx⟩) hinv_rest
    obtain ⟨heap2, hrun2, hinv2, hfr2, hpw⟩ :=
      ih heap1 hnd2 (fun x hx => hall x (List.mem_cons_of_mem _ hx)) hinv1
    refine ⟨heap2, ?_, hinv2, frozen_trans _ _ _ hfr1 hfr2, ?_⟩
    · simp only [intracmp]
      rw [hrun1]
      exact hrun2
    · rw [List.pairwise_cons]
      refine ⟨?_, hpw⟩
      intro b hb
      rcases hdone1 b hb with hd | hd
      · left
        cases hx1 : (heap1.read b).eq_parent with
        | none => exact absurd hx1 hd
        | some q =>
          rw [hfr2.2 b q hx1]
          exact Option.noConfusion
      · exact Or.inr hd

theorem intra_inv_init (threshold : Int) (heap : Mem item_t) (all : List Nat)
    (hfresh : ∀ a ∈ all, fresh (heap.read a)) :
    intra_inv threshold heap all all heap := by
  have hnp : ∀ c ∈ all, ∀ p, (heap.read c).eq_parent ≠ some p := by
    intro c hc p h
    rw [(hfresh c hc).1] at h
    exact Option.noConfusion h
  refine ⟨⟨?_, ?_, ?_⟩, ?_, frozen_refl heap, ?_⟩
  · intro c hc p hp
    exact absurd hp (hnp c hc p)
  · intro r hr _
    refine ⟨[], ?_, List.nodup_nil, ?_, ?_⟩
    · simp only [chain]
      exact (hfresh r hr).2.1
    · rw [(hfresh r hr).2.2]
      rfl
    · intro c
      constructor
      · intro h
        exact absurd h (List.not_mem_nil c)
      · intro h
        exact absurd h.2 (hnp c h.1 r)
  · intro c hc p hp
    exact absurd hp (hnp c hc p)
  · intro c hc p hp
    exact absurd hp (hnp c hc p)
  · intro _ c hc p hp
    exact absurd hp (hnp c hc p)

/-- The pass `intracmp` over fresh items returns, with well-formed clusters. -/
theorem intracmp_run (fuel : Nat) (threshold : Int) (heap : Mem item_t) (items : List Nat)
    (hfuel : 2 ≤ fuel) (hnd : items.Nodup) (hfresh : ∀ a ∈ items, fresh (heap.read a)) :
    ∃ heap2, intracmp fuel threshold heap items = some heap2 ∧
      intra_inv threshold heap items [] heap2 ∧
      items.Pairwise (fun a b =>
        (heap2.read b).eq_parent ≠ none ∨ ¬ matches_item threshold heap a b) := by
  obtain ⟨heap2, hrun, hinv, _, hpw⟩ :=
    intracmp_inv fuel threshold heap items hfuel items heap hnd (fun x hx => hx)
      (intra_inv_init threshold heap items hfresh)
  exact ⟨heap2, hrun, hinv, hpw⟩

/-- Claim C7. After `intracmp` over a list of distinct fresh items, for every item
`r` of the list that has no parent, following `eq_next` from `r` reaches `NULL`
(the walk returns whenever it is given at least as many steps as it visits
items), visits no item twice, visits exactly `r.eq_n` items, and the items it
visits are exactly the items of the list whose `eq_parent` is `r`. -/
theorem intracmp_clusters_well_formed (fuel : Nat) (threshold : Int) (heap : Mem item_t)
    (items : List Nat) (hfuel : 2 ≤ fuel) (hnd : items.Nodup)
    (hfresh : ∀ a ∈ items, fresh (heap.read a)) :
    ∃ heap2, intracmp fuel threshold heap items = some heap2 ∧
      ∀ r ∈ items, (heap2.read r).eq_parent = none →
        ∃ l, (∀ n, l.length ≤ n → peers_walk heap2 n (heap2.read r).eq_next = some l) ∧
          l.Nodup ∧ l.length = (heap2.read r).eq_n ∧
          ∀ c, c ∈ l ↔ (c ∈ items ∧ (heap2.read c).eq_parent = some r) := by
  obtain ⟨heap2, hrun, hinv, _⟩ := intracmp_run fuel threshold heap items hfuel hnd hfresh
  refine ⟨heap2, hrun, ?_⟩
  intro r hr hroot
  obtain ⟨l, hch, hnd2, hlen, hmem⟩ := hinv.wf.peers r hr hroot
  exact ⟨l, fun n hn => peers_walk_of_chain heap2 l _ hch n hn, hnd2, hlen, hmem⟩

theorem intracmp_clusters_well_formed_witness :
    ∃ heap2, intracmp 2 1 heap_chain3 [0, 1, 2] = some heap2 ∧
      ∀ r ∈ [0, 1, 2], (heap2.read r).eq_parent = none →
        ∃ l, (∀ n, l.length ≤ n → peers_walk heap2 n (heap2.read r).eq_next = some l) ∧
          l.Nodup ∧ l.length = (heap2.read r).eq_n ∧
          ∀ c, c ∈ l ↔ (c ∈ [0, 1, 2] ∧ (heap2.read c).eq_parent = some r) :=
  intracmp_clusters_well_formed 2 1 heap_chain3 [0, 1, 2] (by decide) (by decide) (by decide)

/-! ## The item a child was compared with -/

/-- One call `handle_pair(ref, tmp)` of the pass, `ref` standing before `tmp` in
the list: it returns and keeps the loop invariant and `matched_before`. -/
theorem handle_pair_matched_before (fuel : Nat) (threshold : Int) (heap0 heap : Mem item_t)
    (all pend : List Nat) (ref tmp : Nat) (hfuel : 2 ≤ fuel)
    (hinv : intra_inv threshold heap0 all pend heap)
    (hmb : matched_before threshold heap all)
    (href : ref ∈ all) (hrp : ref ∉ pend) (htmp : tmp ∈ all) (htp : tmp ∈ pend)
    (hbef : ∃ pre post, all = pre ++ ref :: post ∧ tmp ∈ post) :
    ∃ heap2, handle_pair fuel threshold heap ref tmp = some heap2 ∧
      intra_inv threshold heap0 all pend heap2 ∧ matched_before threshold heap2 all := by
  obtain ⟨heap2, hrun, hinv2, _, _⟩ :=
    handle_pair_inv fuel threshold heap0 heap all pend ref tmp hfuel hinv href hrp htmp htp
  refine ⟨heap2, hrun, hinv2, ?_⟩
  by_cases hpar : (heap.read tmp).eq_parent = none
  · by_cases hm : cmp_items threshold (heap.read ref) (heap.read tmp) = 0
    · rw [handle_pair_nomatch fuel threshold heap ref tmp hm] at hrun
      rw [← Option.some.inj hrun]
      exact hmb
    · have hroot := find_root_eq heap fuel ref hfuel
        (fun p hp => (hinv.wf.parent_root ref href p hp).2)
      have hne : ref ≠ tmp := fun h => hrp (h ▸ htp)
      have hpeerless : ∀ c ∈ all, (heap.read c).eq_parent ≠ some tmp :=
        fun c hc h => hinv.np c hc tmp h htp
      have hpt : cluster_root heap ref ≠ tmp := by
        cases hr : (heap.read ref).eq_parent with
        | none =>
          rw [cluster_root_of_root heap ref hr]
          exact hne
        | some q =>
          rw [cluster_root_of_child heap ref q hr]
          intro h
          subst h
          exact hpeerless ref href hr
      rw [handle_pair_match fuel threshold heap ref tmp _ hpar hm hroot] at hrun
      rw [← Option.some.inj hrun]
      intro c hc q hq
      rw [attach_parent heap _ tmp _ c hpt] at hq
      by_cases hct : c = tmp
      · rw [if_pos hct] at hq
        obtain ⟨pre, post, hall, hpost⟩ := hbef
        refine ⟨ref, pre, post, hall, hct ▸ hpost, ?_, ?_⟩
        · have e : ((attach heap (cluster_root heap ref) tmp
              (cmp_items threshold (heap.read ref) (heap.read tmp))).read ref).eq_parent
              = (heap.read ref).eq_parent := by
            rw [attach_parent heap _ tmp _ ref hpt, if_neg hne]
          rw [cluster_root_congr heap _ ref e]
          exact Option.some.inj hq
        · rw [attach_hashes heap _ tmp _ ref hpt, attach_hashes heap _ tmp _ c hpt,
            attach_trans heap _ tmp _ c hpt, if_pos hct, hct]
          exact (cmp_items_spec threshold _ _ hm).2
      · rw [if_neg hct] at hq
        obtain ⟨m, pre, post, hall, hpost, hcr, hh⟩ := hmb c hc q hq
        have hmt : m ≠ tmp := by
          intro e
          subst e
          rw [cluster_root_of_root heap m hpar] at hcr
          subst hcr
          exact hpeerless c hc hq
        refine ⟨m, pre, post, hall, hpost, ?_, ?_⟩
        · have e : ((attach heap (cluster_root heap ref) tmp
              (cmp_items threshold (heap.read ref) (heap.read tmp))).read m).eq_parent
              = (heap.read m).eq_parent := by
            rw [attach_parent heap _ tmp _ m hpt, if_neg hmt]
          rw [cluster_root_congr heap _ m e]
          exact hcr
        · rw [attach_hashes heap _ tmp _ m hpt, attach_hashes heap _ tmp _ c hpt,
            attach_trans heap _ tmp _ c hpt, if_neg hct]
          exact hh
  · rw [handle_pair_skip fuel threshold heap ref tmp hpar] at hrun
    rw [← Option.some.inj hrun]
    exact hmb

theorem inner_loop_matched_before (fuel : Nat) (threshold : Int) (heap0 : Mem item_t)
    (all pend : List Nat) (ref : Nat) (hfuel : 2 ≤ fuel) (href : ref ∈ all) (hrp : ref ∉ pend)
    (l : List Nat) :
    ∀ heap : Mem item_t,
      (∀ x ∈ l, x ∈ all ∧ x ∈ pend ∧ ∃ pre post, all = pre ++ ref :: post ∧ x ∈ post) →
      intra_inv threshold heap0 all pend heap → matched_before threshold heap all →
      ∃ heap2, l.foldlM (fun heap tmp => handle_pair fuel threshold heap ref tmp) heap
          = some heap2 ∧
        intra_inv threshold heap0 all pend heap2 ∧ matched_before threshold heap2 all := by
  induction l with
  | nil =>
    intro heap _ hinv hmb
    exact ⟨heap, rfl, hinv, hmb⟩
  | cons t l ih =>
    intro heap hl hinv hmb
    obtain ⟨hta, htp, htb⟩ := hl t (List.mem_cons_self _ _)
    obtain ⟨heap1, hrun1, hinv1, hmb1⟩ :=
      handle_pair_matched_before fuel threshold heap0 heap all pend ref t hfuel hinv hmb href
        hrp hta htp htb
    obtain ⟨heap2, hrun2, hinv2, hmb2⟩ :=
      ih heap1 (fun x hx => hl x (List.mem_cons_of_mem _ hx)) hinv1 hmb1
    refine ⟨heap2, ?_, hinv2, hmb2⟩
    rw [List.foldlM_cons, hrun1]
    exact hrun2

theorem intracmp_matched_before (fuel : Nat) (threshold : Int) (heap0 : Mem item_t)
    (all : List Nat) (hfuel : 2 ≤ fuel) (l : List Nat) :
    ∀ (heap : Mem item_t) (done : List Nat), all = done ++ l → l.Nodup →
      intra_inv threshold heap0 all l heap → matched_before threshold heap all →
      ∃ heap2, intracmp fuel threshold heap l = some heap2 ∧
        intra_inv threshold heap0 all [] heap2 ∧ matched_before threshold heap2 all := by
  induction l with
  | nil =>
    intro heap _ _ _ hinv hmb
    exact ⟨heap, rfl, hinv, hmb⟩
  | cons ref rest ih =>
    intro heap done hall hnd hinv hmb
    obtain ⟨hnotin, hnd2⟩ := List.nodup_cons.mp hnd
    have hmem : ∀ x ∈ ref :: rest, x ∈ all := by
      intro x hx
      rw [hall]
      exact List.mem_append_right _ hx
    have hinv_rest : intra_inv threshold heap0 all rest heap :=
      intra_inv_weaken threshold heap0 heap all (ref :: rest) rest
        (fun x hx => List.mem_cons_of_mem _ hx) hinv
    obtain ⟨heap1, hrun1, hinv1, hmb1⟩ :=
      inner_loop_matched_before fuel threshold heap0 all rest ref hfuel
        (hmem ref (List.mem_cons_self _ _)) hnotin rest heap
        (fun x hx => ⟨hmem x (List.mem_cons_of_mem _ hx), hx, done, rest, hall, hx⟩)
        hinv_rest hmb
    obtain ⟨heap2, hrun2, hinv2, hmb2⟩ :=
      ih heap1 (done ++ [ref]) (by rw [hall, List.append_assoc]; rfl) hnd2 hinv1 hmb1
    refine ⟨heap2, ?_, hinv2, hmb2⟩
    simp only [intracmp]
    rw [hrun1]
    exact hrun2

/-- The pass `intracmp` over fresh items returns, with well-formed clusters in
which every child matched an earlier item of its cluster. -/
theorem intracmp_run_matched (fuel : Nat) (threshold : Int) (heap : Mem item_t)
    (items : List Nat) (hfuel : 2 ≤ fuel) (hnd : items.Nodup)
    (hfresh : ∀ a ∈ items, fresh (heap.read a)) :
    ∃ heap2, intracmp fuel threshold heap items = some heap2 ∧
      intra_inv threshold heap items [] heap2 ∧ matched_before threshold heap2 items := by
  have hmb0 : matched_before threshold heap items := by
    intro c hc p hp
    rw [(hfresh c hc).1] at hp
    exact Option.noConfusion hp
  exact intracmp_matched_before fuel threshold heap items hfuel items heap [] rfl hnd
    (intra_inv_init threshold heap items hfresh) hmb0

/-- Claim C8 as stated fails. With threshold 1 and the items 0, 1, 2 of
`heap_chain3` (hashes 0, 1, 3), `intracmp` attaches item 2 to the root 0 with
`eq_trans = TI_BASE` because it matches the peer 1, but the Hamming distance
between the BASE hash of the root and that hash of item 2 is 2, as is the value
`postproc` computes for `dist`. -/
theorem intracmp_peer_beyond_threshold :
    (intracmp 2 1 heap_chain3 [0, 1, 2]).map (fun h =>
      ((h.read 2).eq_parent, (h.read 2).eq_trans,
        hamming ((h.read 0).hashes TI_BASE) ((h.read 2).hashes (h.read 2).eq_trans),
        postproc_dist h 0 2))
      = some (some 0, 0, 2, 2) := by
  decide

/-- Claim C8, amended. After `intracmp` over distinct fresh items with 64-bit
hashes and a threshold that is not negative, every item `c` with a parent `r`
has `eq_trans` in `0..7`, and there is another item `m`, standing before `c` in
the list and belonging to the cluster of `r` (the root `r` or a peer of `r`): the
item `c` was compared with when it was attached, for which
`hamming (m.hashes[BASE], c.hashes[c.eq_trans]) ≤ threshold`. -/
theorem intracmp_peer_matches_cluster_member (fuel : Nat) (threshold : Int)
    (heap : Mem item_t) (items : List Nat) (hfuel : 2 ≤ fuel) (hthr : 0 ≤ threshold)
    (hnd : items.Nodup) (hfresh : ∀ a ∈ items, fresh (heap.read a))
    (hbits : ∀ a ∈ items, ∀ t, (heap.read a).hashes t < 2 ^ 64) :
    ∃ heap2, intracmp fuel threshold heap items = some heap2 ∧
      ∀ c ∈ items, ∀ r, (heap2.read c).eq_parent = some r →
        (heap2.read c).eq_trans < 8 ∧
        ∃ m, m ≠ c ∧ (∃ pre post, items = pre ++ m :: post ∧ c ∈ post) ∧
          (m = r ∨ (heap2.read m).eq_parent = some r) ∧
          (hamming ((heap2.read m).hashes TI_BASE)
            ((heap2.read c).hashes (heap2.read c).eq_trans) : Int) ≤ threshold := by
  obtain ⟨heap2, hrun, hinv, hmb⟩ :=
    intracmp_run_matched fuel threshold heap items hfuel hnd hfresh
  refine ⟨heap2, hrun, ?_⟩
  intro c hc r hr
  obtain ⟨hlt, _⟩ := hinv.wf.matched c hc r hr
  obtain ⟨m, pre, post, hall, hpost, hroot, hhash⟩ := hmb c hc r hr
  have hm : m ∈ items := by
    rw [hall]
    exact List.mem_append_right _ (List.mem_cons_self _ _)
  have hmc : m ≠ c := by
    intro e
    subst e
    rw [hall] at hnd
    exact (List.nodup_cons.mp (List.nodup_append.mp hnd).2.1).1 hpost
  refine ⟨hlt, m, hmc, ⟨pre, post, hall, hpost⟩, ?_, ?_⟩
  · cases hp : (heap2.read m).eq_parent with
    | none =>
      rw [cluster_root_of_root heap2 m hp] at hroot
      exact Or.inl hroot
    | some q =>
      rw [cluster_root_of_child heap2 m q hp] at hroot
      rw [hroot]
      exact Or.inr rfl
  · have h1 : (heap2.read m).hashes TI_BASE < 2 ^ 64 := by
      rw [hinv.fr.1 m]
      exact hbits m hm _
    have h2 : (heap2.read c).hashes (heap2.read c).eq_trans < 2 ^ 64 := by
      rw [hinv.fr.1 c]
      exact hbits c hc _
    exact (hasheq_iff_of_nonneg threshold hthr _ _ h1 h2).mp hhash

theorem intracmp_peer_matches_cluster_member_witness :
    ∃ heap2, intracmp 2 1 heap_chain3 [0, 1, 2] = some heap2 ∧
      ∀ c ∈ [0, 1, 2], ∀ r, (heap2.read c).eq_parent = some r →
        (heap2.read c).eq_trans < 8 ∧
        ∃ m, m ≠ c ∧ (∃ pre post, [0, 1, 2] = pre ++ m :: post ∧ c ∈ post) ∧
          (m = r ∨ (heap2.read m).eq_parent = some r) ∧
          (hamming ((heap2.read m).hashes TI_BASE)
            ((heap2.read c).hashes (heap2.read c).eq_trans) : Int) ≤ 1 :=
  intracmp_peer_matches_cluster_member 2 1 heap_chain3 [0, 1, 2] (by decide) (by decide)
    (by decide) (by decide)
    (by
      intro a _ t
      show (if a = 0 then 0 else if a = 1 then 1 else 3) < 2 ^ 64
      split
      · decide
      · split <;> decide)

/-! ## Reordering the input of `intracmp` -/

theorem hasheq_self (threshold : Int) (v : Nat) : hasheq threshold v v = true := by
  unfold hasheq
  rw [Nat.xor_self, hasheq_loop]
  simp

theorem matches_item_refl (threshold : Int) (heap : Mem item_t) (a : Nat) :
    matches_item threshold heap a a :=
  cmp_items_ne_zero_of_hasheq threshold _ _ TI_BASE (by decide) (hasheq_self threshold _)

/-- When matching is symmetric and transitive on the items, the clusters
`intracmp` builds are the classes of the match relation. -/
theorem intracmp_classes (fuel : Nat) (threshold : Int) (heap : Mem item_t)
    (items : List Nat) (hfuel : 2 ≤ fuel) (hnd : items.Nodup)
    (hfresh : ∀ a ∈ items, fresh (heap.read a))
    (hsymm : match_symm threshold heap items) (htrans : match_trans threshold heap items) :
    ∃ heap2, intracmp fuel threshold heap items = some heap2 ∧
      ∀ a ∈ items, ∀ b ∈ items,
        (cluster_root heap2 a = cluster_root heap2 b ↔ matches_item threshold heap a b) := by
  obtain ⟨heap2, hrun, hinv, hpw⟩ := intracmp_run fuel threshold heap items hfuel hnd hfresh
  refine ⟨heap2, hrun, ?_⟩
  -- every item matches the root of its cluster
  have hroot : ∀ a ∈ items, cluster_root heap2 a ∈ items ∧
      (heap2.read (cluster_root heap2 a)).eq_parent = none ∧
      matches_item threshold heap (cluster_root heap2 a) a := by
    intro a ha
    obtain ⟨h1, h2⟩ := cluster_root_mem threshold heap2 items hinv.wf a ha
    refine ⟨h1, h2, ?_⟩
    cases hp : (heap2.read a).eq_parent with
    | none =>
      rw [cluster_root_of_root heap2 a hp]
      exact matches_item_refl threshold heap a
    | some p =>
      rw [cluster_root_of_child heap2 a p hp]
      exact hinv.pm htrans a ha p hp
  -- two distinct roots do not match
  have hsep : ∀ r ∈ items, ∀ s ∈ items, (heap2.read r).eq_parent = none →
      (heap2.read s).eq_parent = none → r ≠ s → ¬ matches_item threshold heap r s := by
    intro r hr s hs hrn hsn hne
    have hpw2 : items.Pairwise (fun a b =>
        ((heap2.read b).eq_parent ≠ none ∨ ¬ matches_item threshold heap a b) ∨
        ((heap2.read a).eq_parent ≠ none ∨ ¬ matches_item threshold heap b a)) :=
      hpw.imp (fun h => Or.inl h)
    have hall := List.Pairwise.forall (fun x y h => Or.symm h) hpw2 hr hs hne
    rcases hall with h | h
    · rcases h with h | h
      · exact absurd hsn h
      · exact h
    · rcases h with h | h
      · exact absurd hrn h
      · intro hm
        exact h (hsymm r hr s hs hm)
  intro a ha b hb
  obtain ⟨hra, hran, hma⟩ := hroot a ha
  obtain ⟨hrb, hrbn, hmb⟩ := hroot b hb
  constructor
  · intro heq
    rw [heq] at hma hra
    exact htrans a ha _ hra b hb (hsymm _ hra a ha hma) hmb
  · intro hab
    by_contra hne
    apply hsep _ hra _ hrb hran hrbn hne
    have h1 : matches_item threshold heap (cluster_root heap2 a) b :=
      htrans _ hra a ha b hb hma hab
    exact htrans _ hra b hb _ hrb h1 (hsymm _ hrb b hb hmb)

/-- Claim C9 as stated fails. With threshold 1 and the items of `heap_chain3`,
`intracmp` on `[0, 1, 2]` puts items 0 and 2 in one cluster, while on the
permutation `[0, 2, 1]` it leaves item 2 outside the cluster of item 0. -/
theorem intracmp_order_dependent :
    List.Perm [0, 1, 2] [0, 2, 1] ∧
    (intracmp 2 1 heap_chain3 [0, 1, 2]).map
      (fun h => decide (cluster_root h 0 = cluster_root h 2)) = some true ∧
    (intracmp 2 1 heap_chain3 [0, 2, 1]).map
      (fun h => decide (cluster_root h 0 = cluster_root h 2)) = some false := by
  refine ⟨?_, ?_, ?_⟩
  · exact List.Perm.cons 0 (List.Perm.swap 2 1 [])
  · decide
  · decide

/-- Claim C9, amended. For distinct fresh items on which the match relation
(`cmp_items a b ≠ 0`) is symmetric and transitive, every threshold and every
permutation of the list, `intracmp` on the permuted list returns and puts two
items in the same cluster exactly when `intracmp` on the original list does. -/
theorem intracmp_reorder_invariant (fuel : Nat) (threshold : Int) (heap : Mem item_t)
    (items perm : List Nat) (hfuel : 2 ≤ fuel) (hperm : items.Perm perm) (hnd : items.Nodup)
    (hfresh : ∀ a ∈ items, fresh (heap.read a))
    (hsymm : match_symm threshold heap items) (htrans : match_trans threshold heap items) :
    ∃ h1 h2, intracmp fuel threshold heap items = some h1 ∧
      intracmp fuel threshold heap perm = some h2 ∧
      ∀ a ∈ items, ∀ b ∈ items,
        (cluster_root h1 a = cluster_root h1 b ↔ cluster_root h2 a = cluster_root h2 b) := by
  obtain ⟨h1, hrun1, hc1⟩ :=
    intracmp_classes fuel threshold heap items hfuel hnd hfresh hsymm htrans
  have hmem : ∀ x, x ∈ perm ↔ x ∈ items := fun x => hperm.symm.mem_iff
  obtain ⟨h2, hrun2, hc2⟩ :=
    intracmp_classes fuel threshold heap perm hfuel (hperm.nodup_iff.mp hnd)
      (fun a ha => hfresh a ((hmem a).mp ha))
      (fun a ha b hb => hsymm a ((hmem a).mp ha) b ((hmem b).mp hb))
      (fun a ha b hb c hc =>
        htrans a ((hmem a).mp ha) b ((hmem b).mp hb) c ((hmem c).mp hc))
  refine ⟨h1, h2, hrun1, hrun2, ?_⟩
  intro a ha b hb
  rw [hc1 a ha b hb, hc2 a ((hmem a).mpr ha) b ((hmem b).mpr hb)]

theorem intracmp_reorder_invariant_witness :
    ∃ h1 h2, intracmp 2 1 heap_chain3 [0, 1] = some h1 ∧
      intracmp 2 1 heap_chain3 [1, 0] = some h2 ∧
      ∀ a ∈ [0, 1], ∀ b ∈ [0, 1],
        (cluster_root h1 a = cluster_root h1 b ↔ cluster_root h2 a = cluster_root h2 b) :=
  intracmp_reorder_invariant 2 1 heap_chain3 [0, 1] [1, 0] (by decide)
    (List.Perm.swap 1 0 []) (by decide) (by decide) (by unfold match_symm; decide)
    (by unfold match_trans; decide)

/-! ## The loops of `refcmp` -/

theorem handle_pair_ref (fuel : Nat) (threshold : Int) (heap0 heap : Mem item_t)
    (refs items : List Nat) (expect : Nat → Option Nat) (r c : Nat) (hfuel : 1 ≤ fuel)
    (hdisj : ∀ x ∈ refs, x ∉ items)
    (hinv : ref_inv heap0 refs items heap expect) (hr : r ∈ refs) (hc : c ∈ items) :
    ∃ heap2, handle_pair fuel threshold heap r c = some heap2 ∧
      ref_inv heap0 refs items heap2
        (fun x => if x = c then
            (expect c).or (if matches_item threshold heap0 r c then some r else none)
          else expect x) := by
  have hrc : r ≠ c := fun h => hdisj r hr (h ▸ hc)
  have hcmp : cmp_items threshold (heap.read r) (heap.read c)
      = cmp_items threshold (heap0.read r) (heap0.read c) :=
    matches_item_frozen threshold heap0 heap r c hinv.fr
  cases hpc : expect c with
  | some q =>
    have hpar : (heap.read c).eq_parent ≠ none := by
      rw [hinv.cand c hc, hpc]
      exact Option.noConfusion
    refine ⟨heap, handle_pair_skip fuel threshold heap r c hpar, hinv.fr, hinv.refs_root, ?_⟩
    intro x hx
    by_cases hxc : x = c
    · subst hxc
      rw [if_pos rfl, hinv.cand x hx, hpc]
      rfl
    · rw [if_neg hxc]
      exact hinv.cand x hx
  | none =>
    have hpar : (heap.read c).eq_parent = none := by rw [hinv.cand c hc, hpc]
    by_cases hm : cmp_items threshold (heap.read r) (heap.read c) = 0
    · refine ⟨heap, handle_pair_nomatch fuel threshold heap r c hm, hinv.fr,
        hinv.refs_root, ?_⟩
      intro x hx
      by_cases hxc : x = c
      · subst hxc
        have hnm : ¬ matches_item threshold heap0 r x := by
          unfold matches_item
          rw [← hcmp, hm]
          exact fun h => h rfl
        rw [if_pos rfl, if_neg hnm, hinv.cand x hx, hpc]
        rfl
      · rw [if_neg hxc]
        exact hinv.cand x hx
    · obtain ⟨f, rfl⟩ : ∃ f, fuel = f + 1 := ⟨fuel - 1, by omega⟩
      have hroot := find_root_of_root heap f r (hinv.refs_root r hr)
      refine ⟨_, handle_pair_match (f + 1) threshold heap r c r hpar hm hroot, ?_, ?_, ?_⟩
      · exact frozen_trans _ _ _ hinv.fr
          ⟨fun a => attach_hashes heap r c _ a hrc, by
            intro a p hap
            rw [attach_parent heap r c _ a hrc]
            by_cases hac : a = c
            · subst hac
              rw [hpar] at hap
              exact Option.noConfusion hap
            · rw [if_neg hac]
              exact hap⟩
      · intro x hx
        have hxc : x ≠ c := fun h => hdisj x hx (h ▸ hc)
        rw [attach_parent heap r c _ x hrc, if_neg hxc]
        exact hinv.refs_root x hx
      · intro x hx
        rw [attach_parent heap r c _ x hrc]
        by_cases hxc : x = c
        · subst hxc
          have hmm : matches_item threshold heap0 r x := by
            unfold matches_item
            rw [← hcmp]
            exact hm
          rw [if_pos rfl, if_pos rfl, if_pos hmm]
          rfl
        · rw [if_neg hxc, if_neg hxc]
          exact hinv.cand x hx

theorem ref_inv_congr (heap0 heap : Mem item_t) (refs items : List Nat)
    (f g : Nat → Option Nat) (h : ∀ c ∈ items, f c = g c)
    (hinv : ref_inv heap0 refs items heap f) : ref_inv heap0 refs items heap g :=
  ⟨hinv.fr, hinv.refs_root, fun c hc => (hinv.cand c hc).trans (h c hc)⟩

theorem ref_inner_loop (fuel : Nat) (threshold : Int) (heap0 : Mem item_t)
    (refs items : List Nat) (r : Nat) (hfuel : 1 ≤ fuel)
    (hdisj : ∀ x ∈ refs, x ∉ items) (hr : r ∈ refs) (l : List Nat) :
    ∀ (heap : Mem item_t) (expect : Nat → Option Nat), l.Nodup → (∀ x ∈ l, x ∈ items) →
      ref_inv heap0 refs items heap expect →
      ∃ heap2, l.foldlM (fun heap tmp => handle_pair fuel threshold heap r tmp) heap
          = some heap2 ∧
        ref_inv heap0 refs items heap2
          (fun x => if x ∈ l then
              (expect x).or (if matches_item threshold heap0 r x then some r else none)
            else expect x) := by
  induction l with
  | nil =>
    intro heap expect _ _ hinv
    exact ⟨heap, rfl, ref_inv_congr heap0 heap refs items _ _ (fun c _ => by simp) hinv⟩
  | cons t l ih =>
    intro heap expect hnd hl hinv
    obtain ⟨htl, hnd2⟩ := List.nodup_cons.mp hnd
    obtain ⟨heap1, hrun1, hinv1⟩ :=
      handle_pair_ref fuel threshold heap0 heap refs items expect r t hfuel hdisj hinv hr
        (hl t (List.mem_cons_self _ _))
    obtain ⟨heap2, hrun2, hinv2⟩ :=
      ih heap1 _ hnd2 (fun x hx => hl x (List.mem_cons_of_mem _ hx)) hinv1
    refine ⟨heap2, ?_, ref_inv_congr heap0 heap2 refs items _ _ ?_ hinv2⟩
    · rw [List.foldlM_cons, hrun1]
      exact hrun2
    · intro c _
      by_cases hct : c = t
      · subst hct
        simp [htl]
      · by_cases hcl : c ∈ l
        · simp [hct, hcl]
        · simp [hct, hcl]

theorem first_match_snoc (threshold : Int) (heap : Mem item_t) (seen : List Nat) (r c : Nat) :
    first_match threshold heap (seen ++ [r]) c
      = (first_match threshold heap seen c).or
          (if matches_item threshold heap r c then some r else none) := by
  unfold first_match
  rw [List.find?_append]
  congr 1
  by_cases h : matches_item threshold heap r c
  · simp [h]
  · simp [h]

theorem ref_outer_loop (fuel : Nat) (threshold : Int) (heap0 : Mem item_t)
    (refs items : List Nat) (hfuel : 1 ≤ fuel) (hdisj : ∀ x ∈ refs, x ∉ items)
    (hnd : items.Nodup) (l : List Nat) :
    ∀ (heap : Mem item_t) (seen : List Nat), (∀ x ∈ l, x ∈ refs) →
      ref_inv heap0 refs items heap (first_match threshold heap0 seen) →
      ∃ heap2, l.foldlM
          (fun heap ref =>
            items.foldlM (fun heap tmp => handle_pair fuel threshold heap ref tmp) heap) heap
          = some heap2 ∧
        ref_inv heap0 refs items heap2 (first_match threshold heap0 (seen ++ l)) := by
  induction l with
  | nil =>
    intro heap seen _ hinv
    exact ⟨heap, rfl, by simpa using hinv⟩
  | cons r l ih =>
    intro heap seen hl hinv
    obtain ⟨heap1, hrun1, hinv1⟩ :=
      ref_inner_loop fuel threshold heap0 refs items r hfuel hdisj
        (hl r (List.mem_cons_self _ _)) items heap _ hnd (fun x hx => hx) hinv
    have hinv1b : ref_inv heap0 refs items heap1 (first_match threshold heap0 (seen ++ [r])) :=
      ref_inv_congr heap0 heap1 refs items _ _
        (fun c hc => by rw [if_pos hc, first_match_snoc]) hinv1
    obtain ⟨heap2, hrun2, hinv2⟩ :=
      ih heap1 (seen ++ [r]) (fun x hx => hl x (List.mem_cons_of_mem _ hx)) hinv1b
    refine ⟨heap2, ?_, by simpa using hinv2⟩
    rw [List.foldlM_cons, hrun1]
    exact hrun2

/-- The pass `refcmp` returns; afterwards no reference has a parent and the
parent of a candidate is the first reference that matches it. -/
theorem refcmp_run (fuel : Nat) (threshold : Int) (heap : Mem item_t) (items refs : List Nat)
    (hfuel : 1 ≤ fuel) (hdisj : ∀ x ∈ refs, x ∉ items) (hnd : items.Nodup)
    (hrefs : ∀ r ∈ refs, (heap.read r).eq_parent = none)
    (hitems : ∀ c ∈ items, (heap.read c).eq_parent = none) :
    ∃ heap2, refcmp fuel threshold heap items refs = some heap2 ∧
      ref_inv heap refs items heap2 (first_match threshold heap refs) := by
  have hinit : ref_inv heap refs items heap (first_match threshold heap []) :=
    ⟨frozen_refl heap, hrefs, fun c hc => by simp [first_match, hitems c hc]⟩
  obtain ⟨heap2, hrun, hinv⟩ :=
    ref_outer_loop fuel threshold heap refs items hfuel hdisj hnd refs heap []
      (fun x hx => hx) hinit
  exact ⟨heap2, hrun, by simpa using hinv⟩

theorem matches_item_iff_within (threshold : Int) (hthr : 0 ≤ threshold) (heap : Mem item_t)
    (r c : Nat) (hr : (heap.read r).hashes TI_BASE < 2 ^ 64)
    (hc : ∀ t, (heap.read c).hashes t < 2 ^ 64) :
    decide (matches_item threshold heap r c)
      = (List.range 8).any (fun t =>
          decide ((hamming ((heap.read r).hashes TI_BASE) ((heap.read c).hashes t) : Int)
            ≤ threshold)) := by
  rw [Bool.eq_iff_iff, decide_eq_true_iff, List.any_eq_true]
  constructor
  · intro h
    obtain ⟨hlt, hh⟩ := cmp_items_spec threshold _ _ h
    refine ⟨_, List.mem_range.mpr hlt, ?_⟩
    rw [decide_eq_true_iff]
    exact (hasheq_iff_of_nonneg threshold hthr _ _ hr (hc _)).mp hh
  · rintro ⟨t, ht, hh⟩
    rw [decide_eq_true_iff] at hh
    exact cmp_items_ne_zero_of_hasheq threshold _ _ t (List.mem_range.mp ht)
      ((hasheq_iff_of_nonneg threshold hthr _ _ hr (hc _)).mpr hh)

theorem find?_congr_mem {α : Type} (l : List α) (p q : α → Bool) (h : ∀ x ∈ l, p x = q x) :
    l.find? p = l.find? q := by
  induction l with
  | nil => rfl
  | cons a l ih =>
    rw [List.find?_cons, List.find?_cons, h a (List.mem_cons_self _ _),
      ih (fun x hx => h x (List.mem_cons_of_mem _ hx))]

/-- Claim C10 as stated fails. With threshold -1, the reference 0 and the
candidate 1 of `heap_twins` (equal hashes), `refcmp` gives the candidate the
parent 0, although no reference is within Hamming distance -1 of it. -/
theorem refcmp_negative_threshold :
    (refcmp 2 (-1) heap_twins [1] [0]).map (fun h => (h.read 1).eq_parent) = some (some 0) ∧
    first_within (-1) heap_twins [0] 1 = none := by
  constructor
  · decide
  · decide

/-- Claim C10, amended. For a threshold that is not negative, in reference mode
over a reference list and a disjoint list of distinct candidates, all items
having 64-bit hashes and no parent at the start: `refcmp` returns; afterwards
no reference has a parent, no candidate is the parent of any item, and each
candidate `c` has as `eq_parent` the first reference `r`, in list order, with
`hamming (r.hashes[BASE], c.hashes[t]) ≤ threshold` for some transform `t`, or
`none` when there is no such reference. -/
theorem refcmp_first_reference (fuel : Nat) (threshold : Int) (heap : Mem item_t)
    (items refs : List Nat) (hfuel : 1 ≤ fuel) (hthr : 0 ≤ threshold)
    (hdisj : ∀ x ∈ refs, x ∉ items) (hnd : items.Nodup)
    (hrefs : ∀ r ∈ refs, (heap.read r).eq_parent = none)
    (hitems : ∀ c ∈ items, (heap.read c).eq_parent = none)
    (hbits : ∀ a ∈ refs ++ items, ∀ t, (heap.read a).hashes t < 2 ^ 64) :
    ∃ heap2, refcmp fuel threshold heap items refs = some heap2 ∧
      (∀ r ∈ refs, (heap2.read r).eq_parent = none) ∧
      (∀ a ∈ refs ++ items, ∀ c ∈ items, (heap2.read a).eq_parent ≠ some c) ∧
      (∀ c ∈ items, (heap2.read c).eq_parent = first_within threshold heap refs c) := by
  obtain ⟨heap2, hrun, hinv⟩ :=
    refcmp_run fuel threshold heap items refs hfuel hdisj hnd hrefs hitems
  have hcand : ∀ c ∈ items, (heap2.read c).eq_parent = first_within threshold heap refs c := by
    intro c hc
    rw [hinv.cand c hc]
    unfold first_match first_within
    apply find?_congr_mem
    intro r hr
    exact matches_item_iff_within threshold hthr heap r c
      (hbits r (List.mem_append_left _ hr) _) (hbits c (List.mem_append_right _ hc))
  refine ⟨heap2, hrun, hinv.refs_root, ?_, hcand⟩
  intro a ha c hc hpar
  rcases List.mem_append.mp ha with h | h
  · rw [hinv.refs_root a h] at hpar
    exact Option.noConfusion hpar
  · rw [hinv.cand a h] at hpar
    exact hdisj c (List.mem_of_find?_eq_some hpar) hc

theorem refcmp_first_reference_witness :
    ∃ heap2, refcmp 1 1 heap_chain3 [2] [0, 1] = some heap2 ∧
      (∀ r ∈ [0, 1], (heap2.read r).eq_parent = none) ∧
      (∀ a ∈ [0, 1] ++ [2], ∀ c ∈ [2], (heap2.read a).eq_parent ≠ some c) ∧
      (∀ c ∈ [2], (heap2.read c).eq_parent = first_within 1 heap_chain3 [0, 1] c) :=
  refcmp_first_reference 1 1 heap_chain3 [2] [0, 1] (by decide) (by decide) (by decide)
    (by decide) (by decide) (by decide)
    (by
      intro a _ t
      show (if a = 0 then 0 else if a = 1 then 1 else 3) < 2 ^ 64
      split
      · decide
      · split <;> decide)

/-! ## The order of the transforms in `cmp_items` -/

theorem cmp_items_eq_find (threshold : Int) (a b : item_t) :
    cmp_items threshold a b =
      match cmp_order.find? (fun t => hasheq threshold (a.hashes TI_BASE) (b.hashes t)) with
      | none => 0
      | some t => TI_LAST + t := by
  unfold cmp_items cmp_order
  simp only [List.find?_cons, List.find?_nil]
  split_ifs <;> simp_all

theorem attach_trans_tmp (heap : Mem item_t) (p tmp eqt : Nat) :
    ((attach heap p tmp eqt).read tmp).eq_trans = eqt - TI_LAST := by
  unfold attach
  by_cases h : tmp = p
  · subst h
    simp
  · simp [h]

theorem attach_parent_tmp (heap : Mem item_t) (p tmp eqt : Nat) :
    ((attach heap p tmp eqt).read tmp).eq_parent = some p := by
  unfold attach
  by_cases h : tmp = p
  · subst h
    simp
  · simp [h]

/-- Claim C19. `cmp_items a b` is 0 exactly when no transform `t` in `0..7`
satisfies `hasheq (a.hashes[BASE], b.hashes[t])`; otherwise it is `TI_LAST + t`
for the first `t`, in the order BASE, FLIP, ROT1, ROT2, ROT3, FLR1, FLR2, FLR3,
that satisfies it.  And `handle_pair(ref, tmp)`, called with at least two steps
for the root loop on a `tmp` without parent and a `ref` whose parent, if it has
one, is a root, returns and has stored exactly that `t` in `tmp.eq_trans`, with
`tmp` attached to the root of `ref`. -/
theorem cmp_items_first_match (threshold : Int) (a b : item_t) :
    (cmp_items threshold a b = 0 ↔
      ∀ t, t < 8 → hasheq threshold (a.hashes TI_BASE) (b.hashes t) = false) ∧
    (∀ t, cmp_order.find? (fun t => hasheq threshold (a.hashes TI_BASE) (b.hashes t)) = some t →
      cmp_items threshold a b = TI_LAST + t) ∧
    (∀ (fuel : Nat) (heap : Mem item_t) (ref tmp t : Nat), 2 ≤ fuel →
      heap.read ref = a → heap.read tmp = b → (heap.read tmp).eq_parent = none →
      (∀ q, (heap.read ref).eq_parent = some q → (heap.read q).eq_parent = none) →
      cmp_order.find? (fun t => hasheq threshold (a.hashes TI_BASE) (b.hashes t)) = some t →
      ∃ heap2, handle_pair fuel threshold heap ref tmp = some heap2 ∧
        (heap2.read tmp).eq_trans = t ∧
        (heap2.read tmp).eq_parent = some (cluster_root heap ref)) := by
  refine ⟨?_, ?_, ?_⟩
  · constructor
    · intro h t ht
      cases hh : hasheq threshold (a.hashes TI_BASE) (b.hashes t) with
      | false => rfl
      | true => exact absurd h (cmp_items_ne_zero_of_hasheq threshold a b t ht hh)
    · intro h
      by_contra hne
      obtain ⟨hlt, hh⟩ := cmp_items_spec threshold a b hne
      rw [h _ hlt] at hh
      exact Bool.noConfusion hh
  · intro t ht
    rw [cmp_items_eq_find, ht]
  · intro fuel heap ref tmp t hfuel ha hb hpar hpr ht
    have hcmp : cmp_items threshold (heap.read ref) (heap.read tmp) = TI_LAST + t := by
      rw [ha, hb, cmp_items_eq_find, ht]
    have hne : cmp_items threshold (heap.read ref) (heap.read tmp) ≠ 0 := by
      rw [hcmp]
      simp [TI_LAST]
    have hroot := find_root_eq heap fuel ref hfuel hpr
    refine ⟨_, handle_pair_match fuel threshold heap ref tmp _ hpar hne hroot, ?_, ?_⟩
    · rw [attach_trans_tmp, hcmp]
      simp
    · exact attach_parent_tmp heap _ tmp _

theorem cmp_items_first_match_witness :
    ∃ heap2, handle_pair 2 1 heap_chain3 1 2 = some heap2 ∧
      (heap2.read 2).eq_trans = TI_BASE ∧
      (heap2.read 2).eq_parent = some (cluster_root heap_chain3 1) :=
  (cmp_items_first_match 1 (heap_chain3.read 1) (heap_chain3.read 2)).2.2 2 heap_chain3 1 2
    TI_BASE (by decide) rfl rfl (by decide) (by decide) (by decide)

/-! ## The cell means of `scale_down` -/

theorem c_str_tname (t : Nat) (ht : t < 8) : c_str (tname t) = tname t := by
  interval_cases t <;> decide

theorem tname_eq_hash_keys : (List.range 8).map tname = hash_keys := by decide

theorem hash_keys_nodup : hash_keys.Nodup := by decide

theorem isDigit_iff (c : Char) : c.isDigit = true ↔ 48 ≤ c.toNat ∧ c.toNat ≤ 57 := by
  unfold Char.isDigit
  simp only [Bool.and_eq_true, decide_eq_true_eq, ge_iff_le]
  rw [UInt32.le_def, UInt32.le_def]
  rfl

theorem digit_char (d : Nat) (hd : d < 10) :
    (Char.ofNat (48 + d)).isDigit = true ∧ (Char.ofNat (48 + d)).toNat - 48 = d := by
  interval_cases d <;> decide

theorem print_lu_aux_append (v : Nat) (acc : List Char) :
    print_lu_aux v acc = print_lu_aux v [] ++ acc := by
  induction v using Nat.strong_induction_on generalizing acc with
  | _ v ih =>
    rw [print_lu_aux, print_lu_aux.eq_1 v []]
    split
    · rfl
    · rw [ih (v / 10) (by omega) (Char.ofNat (48 + v % 10) :: acc),
        ih (v / 10) (by omega) [Char.ofNat (48 + v % 10)]]
      simp

/-- The digits written for `v` are decimal digits, at least one, and read back
as `v`. -/
theorem print_lu_aux_spec (v : Nat) :
    print_lu_aux v [] ≠ [] ∧ (∀ c ∈ print_lu_aux v [], c.isDigit = true) ∧
    (print_lu_aux v []).foldl (fun a c => 10 * a + (c.toNat - 48)) 0 = v := by
  induction v using Nat.strong_induction_on with
  | _ v ih =>
    rw [print_lu_aux]
    split
    · rename_i h
      obtain ⟨h1, h2⟩ := digit_char v h
      refine ⟨by simp, ?_, ?_⟩
      · intro c hc
        rw [List.mem_singleton] at hc
        rw [hc]
        exact h1
      · simp only [List.foldl_cons, List.foldl_nil]
        omega
    · rename_i h
      obtain ⟨h1, h2⟩ := digit_char (v % 10) (Nat.mod_lt _ (by decide))
      obtain ⟨i1, i2, i3⟩ := ih (v / 10) (by omega)
      rw [print_lu_aux_append]
      refine ⟨by simp, ?_, ?_⟩
      · intro c hc
        rcases List.mem_append.mp hc with hc | hc
        · exact i2 c hc
        · rw [List.mem_singleton] at hc
          rw [hc]
          exact h1
      · rw [List.foldl_append, i3]
        simp only [List.foldl_cons, List.foldl_nil]
        omega

theorem takeWhile_eq_self_of_all {α : Type} (p : α → Bool) (l : List α)
    (h : ∀ c ∈ l, p c = true) : l.takeWhile p = l := by
  induction l with
  | nil => rfl
  | cons a l ih =>
    rw [List.takeWhile_cons, h a (List.mem_cons_self _ _)]
    simp only [if_true]
    rw [ih (fun c hc => h c (List.mem_cons_of_mem _ hc))]

theorem digit_not_space (c : Char) (h : c.isDigit = true) :
    c_isspace c = false ∧ c ≠ '-' ∧ c ≠ '+' := by
  rw [isDigit_iff] at h
  refine ⟨?_, ?_, ?_⟩
  · unfold c_isspace
    simp only [Bool.or_eq_false_iff, decide_eq_false_iff_not, Bool.and_eq_false_imp,
      decide_eq_true_eq, not_le]
    omega
  · intro e
    subst e
    exact absurd h (by decide)
  · intro e
    subst e
    exact absurd h (by decide)

/-- On a text that starts with a digit `strtoul` reads the leading digits. -/
theorem strtoul10_of_digit_head (c : Char) (r : List Char) (hc : c.isDigit = true) :
    strtoul10 (c :: r) =
      (let n := ((c :: r).takeWhile Char.isDigit).foldl (fun a c => 10 * a + (c.toNat - 48)) 0
       (if n ≥ 2 ^ 64 then 2 ^ 64 - 1 else n), ((c :: r).takeWhile Char.isDigit).length) := by
  obtain ⟨h1, h2, h3⟩ := digit_not_space c hc
  have hne : (c :: r).takeWhile Char.isDigit ≠ [] := by
    rw [List.takeWhile_cons, hc]
    simp
  unfold strtoul10
  simp only [List.dropWhile_cons, h1, Bool.false_eq_true, if_false, List.head?_cons,
    Option.some.injEq, h2, h3, or_self, hne, List.length_cons, Nat.sub_self, Nat.zero_add]

/-- The text `%lu` writes for a 64-bit value is read back by `strtoul` in full
and with the same value. -/
theorem strtoul10_print_lu (v : Nat) (hv : v < 2 ^ 64) :
    strtoul10 (print_lu v).data = (v, (print_lu v).data.length) := by
  obtain ⟨h1, h2, h3⟩ := print_lu_aux_spec v
  show strtoul10 (print_lu_aux v []) = (v, (print_lu_aux v []).length)
  cases hl : print_lu_aux v [] with
  | nil => exact absurd hl h1
  | cons c r =>
    rw [hl] at h2 h3
    rw [strtoul10_of_digit_head c r (h2 c (List.mem_cons_self _ _)),
      takeWhile_eq_self_of_all Char.isDigit (c :: r) h2]
    simp only [h3]
    rw [if_neg (by omega)]

theorem jnum_of_hash_key (st : parser_state) (item : item_t) (rest : List item_t)
    (t : Nat) (ht : t < 8) (tok : String) (val : Nat)
    (hk : st.last_key = some (tname t)) (hg : st.g_head = item :: rest)
    (hs : strtoul10 tok.data = (val, tok.data.length)) :
    jnum st tok = (1, { st with g_head := item.set_hash t val :: rest }) := by
  unfold jnum
  simp only [hs, ne_eq, not_true_eq_false, if_false, hk, hg]
  interval_cases t <;> simp [tname, TI_BASE, TI_ROT1, TI_ROT2, TI_ROT3, TI_FLIP, TI_FLR1,
    TI_FLR2, TI_FLR3]

/-- Claim C13. For every written item `src`, every transform index `t` in `0..7`
and every parser state with an item under construction: the callback `jkey` on
the key `fputjson` writes for `hashes[t]` (`tname t`) followed by `jnum` on the
unsigned decimal text it writes for the value returns 1, stores exactly the
original 64-bit value in `hashes[t]` of the item under construction and
changes no other hash slot; the names `tname` yields for `0..7` are `base, rot1,
rot2, rot3, flip, flr1, flr2, flr3`, pairwise distinct, and they are the keys
`fputjson` writes with these texts for an item that is not a cluster peer. -/
theorem hash_record_roundtrip (src item : item_t) (rest : List item_t) (st : parser_state)
    (t : Nat) (ht : t < 8) (hg : st.g_head = item :: rest) (hv : src.hashes t < 2 ^ 64) :
    (∃ item2, jnum (jkey st (tname t)).2 (print_lu (src.hashes t))
        = (1, ⟨some (tname t), item2 :: rest⟩) ∧
      item2.hashes t = src.hashes t ∧ ∀ u, u ≠ t → item2.hashes u = item.hashes u) ∧
    (List.range 8).map tname = hash_keys ∧ hash_keys.Nodup ∧
    (src.eq_dist = -1 →
      (tname t, json_text.num (print_lu (src.hashes t))) ∈ fputjson_fields src) := by
  refine ⟨⟨item.set_hash t (src.hashes t), ?_, ?_, ?_⟩, tname_eq_hash_keys, hash_keys_nodup, ?_⟩
  · have hk : (jkey st (tname t)).2.last_key = some (tname t) := by
      simp [jkey, mkstr, c_str_tname t ht]
    have hg2 : (jkey st (tname t)).2.g_head = item :: rest := by
      simp [jkey, hg]
    rw [jnum_of_hash_key _ item rest t ht _ _ hk hg2 (strtoul10_print_lu _ hv)]
    simp [jkey, mkstr, c_str_tname t ht]
  · simp
  · intro u hu
    simp [hu]
  · intro hd
    unfold fputjson_fields
    apply List.mem_append_right
    rw [if_neg (by simp [hd]), List.mem_map]
    exact ⟨t, List.mem_range.mpr ht, rfl⟩

theorem hash_record_roundtrip_witness :
    (∃ item2, jnum (jkey ⟨none, [new_item]⟩ (tname 4)).2 (print_lu ((plain_item 77).hashes 4))
        = (1, ⟨some (tname 4), item2 :: []⟩) ∧
      item2.hashes 4 = (plain_item 77).hashes 4 ∧
      ∀ u, u ≠ 4 → item2.hashes u = new_item.hashes u) ∧
    (List.range 8).map tname = hash_keys ∧ hash_keys.Nodup ∧
    ((plain_item 77).eq_dist = -1 →
      (tname 4, json_text.num (print_lu ((plain_item 77).hashes 4)))
        ∈ fputjson_fields (plain_item 77)) :=
  hash_record_roundtrip (plain_item 77) new_item [] ⟨none, [new_item]⟩ 4 (by decide) rfl
    (by decide)

theorem json_number_body (tok : List Char) (h : json_number tok = true) :
    ∃ c r, json_body tok = c :: r ∧ c.isDigit = true := by
  unfold json_number at h
  unfold json_body
  generalize (if tok.head? = some '-' then tok.tail else tok) = s at h
  cases s with
  | nil => simp at h
  | cons c r =>
    by_cases hc : c.isDigit = true
    · exact ⟨c, r, rfl, hc⟩
    · exfalso
      have h0 : c ≠ '0' := by
        intro e
        subst e
        exact hc (by decide)
      simp [h0, hc] at h

theorem takeWhile_length_eq_iff {α : Type} (p : α → Bool) (l : List α) :
    (l.takeWhile p).length = l.length ↔ ∀ c ∈ l, p c = true := by
  constructor
  · intro h
    have := (List.takeWhile_prefix p (l := l)).eq_of_length h
    exact List.takeWhile_eq_self_iff.mp this
  · intro h
    rw [takeWhile_eq_self_of_all p l h]

/-- What `strtoul` does on a JSON number token: it reads the minus sign and the
digits of the integer part. -/
theorem strtoul10_of_json_number (tok : List Char) (h : json_number tok = true) :
    strtoul10 tok =
      ((let n := decimal_value ((json_body tok).takeWhile Char.isDigit)
        if n ≥ 2 ^ 64 then 2 ^ 64 - 1
        else if tok.head? = some '-' then (2 ^ 64 - n) % 2 ^ 64 else n),
       (tok.length - (json_body tok).length) + ((json_body tok).takeWhile Char.isDigit).length) ∧
    tok.length - (json_body tok).length + (json_body tok).length = tok.length := by
  obtain ⟨c, r, hb, hc⟩ := json_number_body tok h
  obtain ⟨h1, h2, h3⟩ := digit_not_space c hc
  have hne : (c :: r).takeWhile Char.isDigit ≠ [] := by
    rw [List.takeWhile_cons, hc]
    simp
  by_cases hm : tok.head? = some '-'
  · have htok : tok = '-' :: c :: r := by
      unfold json_body at hb
      rw [if_pos hm] at hb
      cases tok with
      | nil => simp at hm
      | cons a l =>
        simp only [List.head?_cons, Option.some.injEq] at hm
        simp only [List.tail_cons] at hb
        rw [hm, hb]
    rw [hb]
    subst htok
    refine ⟨?_, by simp only [List.length_cons]; omega⟩
    have hsp : c_isspace '-' = false := by decide
    unfold strtoul10 decimal_value
    simp only [List.dropWhile_cons, hsp, Bool.false_eq_true, if_false, List.head?_cons,
      true_or, if_true, List.tail_cons, hne, List.length_cons]
  · have htok : tok = c :: r := by
      unfold json_body at hb
      rw [if_neg hm] at hb
      exact hb
    rw [hb]
    subst htok
    refine ⟨?_, by simp⟩
    rw [strtoul10_of_digit_head c r hc]
    simp only [decimal_value, List.head?_cons, Option.some.injEq, h2, if_false, List.length_cons,
      Nat.sub_self, Nat.zero_add]

/-- Claim C11 fails on the code: under the key `dist`, which is not a known
field name, `jnum` returns 0 on the token `3`, and under the key `xform` the
callback `jstr` returns 0; a callback that returns 0 cancels the parse. -/
theorem jnum_unknown_key_cancels :
    "dist" ∉ known_keys ∧ "xform" ∉ known_keys ∧
    (jnum (jkey ⟨none, [new_item]⟩ "dist").2 "3").1 = 0 ∧
    (jstr (jkey ⟨none, [new_item]⟩ "xform").2 "rot1").1 = 0 := by
  decide

/-- Claim C11, amended. The callbacks compare the key as a C string, that is,
up to its first NUL byte (`mkstr` then `strcmp`).  For every key whose text up
to the first NUL byte is not one of the known field names (`path, size, w, h,
mtime, etime, base, rot1, rot2, rot3, flip, flr1, flr2, flr3`), a number value
(`jnum`) or string value (`jstr`) delivered under that key returns 0, which
cancels the parse, and leaves the parser state with the item under construction
unchanged. -/
theorem unknown_key_rejected (st : parser_state) (key tok : String)
    (hkey : mkstr key ∉ known_keys) :
    jnum (jkey st key).2 tok = (0, (jkey st key).2) ∧
    jstr (jkey st key).2 tok = (0, (jkey st key).2) := by
  simp only [known_keys, List.mem_cons, List.mem_singleton, not_or, List.not_mem_nil,
    not_false_eq_true, and_true] at hkey
  obtain ⟨k1, k2, k3, k4, k5, k6, k7, k8, k9, k10, k11, k12, k13, k14⟩ := hkey
  constructor
  · unfold jnum
    by_cases hr : (strtoul10 tok.data).2 ≠ tok.data.length
    · dsimp only
      rw [if_pos hr]
    · cases hg : st.g_head with
      | nil => simp [jkey, hg]
      | cons item rest =>
        simp [jkey, hg, k2, k3, k4, k5, k6, k7, k8, k9, k10, k11, k12, k13, k14]
  · unfold jstr
    cases hg : st.g_head with
    | nil => simp [jkey, hg]
    | cons item rest => simp [jkey, hg, k1]

theorem unknown_key_rejected_witness :
    mkstr "hash" ∉ known_keys ∧
    jnum (jkey ⟨none, [new_item]⟩ "hash").2 "12" = (0, (jkey ⟨none, [new_item]⟩ "hash").2) ∧
    jstr (jkey ⟨none, [new_item]⟩ "hash").2 "12" = (0, (jkey ⟨none, [new_item]⟩ "hash").2) :=
  ⟨by decide, unknown_key_rejected ⟨none, [new_item]⟩ "hash" "12" (by decide)⟩

/-- A key is compared up to its first NUL byte: under the key `path`, NUL, `zz`
the callback `jstr` stores the path, although the key as a whole is not a known
field name. -/
theorem jstr_key_read_as_c_string :
    "path\x00zz" ∉ known_keys ∧ mkstr "path\x00zz" = "path" ∧
    (jstr (jkey ⟨none, [new_item]⟩ "path\x00zz").2 "a.jpg").1 = 1 := by
  decide

/-- Claim C12 fails on the code: under the key `base`, with an item under
construction, `jnum` accepts the JSON number tokens `-5` (storing
`2 ^ 64 - 5`) and `18446744073709551616`, which is `2 ^ 64` (storing
`2 ^ 64 - 1`). -/
theorem jnum_accepts_negative_and_huge :
    json_number "-5".data = true ∧
    (jnum ⟨some "base", [new_item]⟩ "-5").1 = 1 ∧
    ((jnum ⟨some "base", [new_item]⟩ "-5").2.g_head.map (fun i => i.hashes TI_BASE))
      = [2 ^ 64 - 5] ∧
    json_number "18446744073709551616".data = true ∧
    (jnum ⟨some "base", [new_item]⟩ "18446744073709551616").1 = 1 ∧
    ((jnum ⟨some "base", [new_item]⟩ "18446744073709551616").2.g_head.map
      (fun i => i.hashes TI_BASE)) = [2 ^ 64 - 1] := by
  decide

/-- Claim C12, amended. For every JSON number token delivered under one of the
eight hash keys (`tname t` for `t` in `0..7`) while an item is under
construction, `jnum` accepts the token (returns 1) if and only if the token has
no fraction and no exponent, that is, after an optional minus sign it consists
of decimal digits only, whatever its magnitude.  An accepted token of magnitude
`n` stores `wrapped_value`: `2 ^ 64 - 1` if `n ≥ 2 ^ 64`, else `2 ^ 64 - n` modulo
`2 ^ 64` after a minus sign, else `n`; every other number token returns 0 and
leaves the state unchanged. -/
theorem jnum_hash_accepts_iff (st : parser_state) (item : item_t) (rest : List item_t)
    (t : Nat) (tok : String) (ht : t < 8) (hk : st.last_key = some (tname t))
    (hg : st.g_head = item :: rest) (htok : json_number tok.data = true) :
    ((jnum st tok).1 = 1 ↔ ∀ c ∈ json_body tok.data, c.isDigit = true) ∧
    ((∀ c ∈ json_body tok.data, c.isDigit = true) →
      jnum st tok = (1, { st with g_head := item.set_hash t (wrapped_value tok.data) :: rest })) ∧
    ((¬ ∀ c ∈ json_body tok.data, c.isDigit = true) → jnum st tok = (0, st)) := by
  obtain ⟨hs, hlen⟩ := strtoul10_of_json_number tok.data htok
  have hyes : (∀ c ∈ json_body tok.data, c.isDigit = true) →
      jnum st tok = (1, { st with g_head := item.set_hash t (wrapped_value tok.data) :: rest }) := by
    intro hall
    rw [takeWhile_eq_self_of_all Char.isDigit _ hall, hlen] at hs
    exact jnum_of_hash_key st item rest t ht tok (wrapped_value tok.data) hk hg hs
  have hno : (¬ ∀ c ∈ json_body tok.data, c.isDigit = true) → jnum st tok = (0, st) := by
    intro hall
    have hl : ((json_body tok.data).takeWhile Char.isDigit).length ≠ (json_body tok.data).length :=
      fun e => hall ((takeWhile_length_eq_iff _ _).mp e)
    unfold jnum
    simp only [hs]
    rw [if_pos (by omega)]
  refine ⟨⟨?_, ?_⟩, hyes, hno⟩
  · intro h1
    by_contra hall
    rw [hno hall] at h1
    exact Nat.zero_ne_one h1
  · intro hall
    rw [hyes hall]

theorem jnum_hash_accepts_iff_witness :
    ((jnum ⟨some "rot2", [new_item]⟩ "-12").1 = 1 ↔
      ∀ c ∈ json_body "-12".data, c.isDigit = true) ∧
    ((∀ c ∈ json_body "-12".data, c.isDigit = true) →
      jnum ⟨some "rot2", [new_item]⟩ "-12" = (1, { (⟨some "rot2", [new_item]⟩ : parser_state) with
        g_head := new_item.set_hash 2 (wrapped_value "-12".data) :: [] })) ∧
    ((¬ ∀ c ∈ json_body "-12".data, c.isDigit = true) →
      jnum ⟨some "rot2", [new_item]⟩ "-12" = (0, ⟨some "rot2", [new_item]⟩)) :=
  jnum_hash_accepts_iff ⟨some "rot2", [new_item]⟩ new_item [] 2 "-12" (by decide) rfl rfl
    (by decide)

/-! ## The crop rectangle of `handle` -/

theorem sub_tmod_dvd (a b : Int) : b ∣ a - Int.tmod a b := by
  rw [Int.tmod_def]
  exact ⟨a.tdiv b, by ring⟩

/-- Claim C15. For all image sizes, all edge depths and all MCU sizes
`xmod, ymod > 0`, the crop `handle` computes is MCU-aligned:
`cx = ml + (xmod - ml mod xmod)` and `cw` are multiples of `xmod`, and
`cy = mt + (ymod - mt mod ymod)` and `ch` are multiples of `ymod`. -/
theorem crop_geometry_aligned (w h xmod ymod : Int) (b : borders)
    (hx : 0 < xmod) (hy : 0 < ymod) :
    (crop_geometry w h xmod ymod b).cx = b.ml + (xmod - Int.tmod b.ml xmod) ∧
    (crop_geometry w h xmod ymod b).cy = b.mt + (ymod - Int.tmod b.mt ymod) ∧
    xmod ∣ (crop_geometry w h xmod ymod b).cx ∧
    xmod ∣ (crop_geometry w h xmod ymod b).cw ∧
    ymod ∣ (crop_geometry w h xmod ymod b).cy ∧
    ymod ∣ (crop_geometry w h xmod ymod b).ch := by
  have _ := hx
  have _ := hy
  refine ⟨rfl, rfl, ?_, ?_, ?_, ?_⟩
  · show xmod ∣ b.ml + (xmod - Int.tmod b.ml xmod)
    have h1 := sub_tmod_dvd b.ml xmod
    have e : b.ml + (xmod - Int.tmod b.ml xmod) = xmod + (b.ml - Int.tmod b.ml xmod) := by ring
    rw [e]
    exact Dvd.dvd.add (dvd_refl xmod) h1
  · exact sub_tmod_dvd _ xmod
  · show ymod ∣ b.mt + (ymod - Int.tmod b.mt ymod)
    have h1 := sub_tmod_dvd b.mt ymod
    have e : b.mt + (ymod - Int.tmod b.mt ymod) = ymod + (b.mt - Int.tmod b.mt ymod) := by ring
    rw [e]
    exact Dvd.dvd.add (dvd_refl ymod) h1
  · exact sub_tmod_dvd _ ymod

theorem crop_geometry_aligned_witness :
    (crop_geometry 480 320 16 8 ⟨5, 4, 7, 4⟩).cx = 7 + (16 - Int.tmod 7 16) ∧
    (crop_geometry 480 320 16 8 ⟨5, 4, 7, 4⟩).cy = 5 + (8 - Int.tmod 5 8) ∧
    (16 : Int) ∣ (crop_geometry 480 320 16 8 ⟨5, 4, 7, 4⟩).cx ∧
    (16 : Int) ∣ (crop_geometry 480 320 16 8 ⟨5, 4, 7, 4⟩).cw ∧
    (8 : Int) ∣ (crop_geometry 480 320 16 8 ⟨5, 4, 7, 4⟩).cy ∧
    (8 : Int) ∣ (crop_geometry 480 320 16 8 ⟨5, 4, 7, 4⟩).ch :=
  crop_geometry_aligned 480 320 16 8 ⟨5, 4, 7, 4⟩ (by decide) (by decide)

/-! ## The backup of `crop` -/

/-- When `fwrite` fails after a successful backup and `fopen`, and the second
`rename` succeeds, `crop` returns 1 with the original content back at `path`. -/
theorem crop_write_failure_restored (oldext : String) (env : crop_env) (fs : file_system)
    (path : String) (dstbuf : List Nat) (hne : path ++ oldext ≠ path)
    (hb : env.rename_backup_ok = true) (hi : env.init_ok = true)
    (ht : env.transform = some dstbuf) (ho : env.fopen_ok = true)
    (hfail : env.fwrite_ok = false) (hr : env.rename_restore_ok = true) :
    ∃ fs2, crop false oldext env fs path = crop_result.returned 1 fs2 ∧
      fs2.file path = fs.file path := by
  have hne2 : path ≠ path ++ oldext := fun h => hne h.symm
  unfold crop
  simp [hb, hi, ht, ho, hfail, hr, file_system.rename, file_system.store, hne, hne2]

/-- When `fopen` fails after a successful backup, and the second `rename`
succeeds, the original content is back at `path`, but `crop` does not return:
it goes on to `fclose(NULL)`. -/
theorem crop_open_failure_crashes (oldext : String) (env : crop_env) (fs : file_system)
    (path : String) (dstbuf : List Nat) (hne : path ++ oldext ≠ path)
    (hb : env.rename_backup_ok = true) (hi : env.init_ok = true)
    (ht : env.transform = some dstbuf) (ho : env.fopen_ok = false)
    (hr : env.rename_restore_ok = true) :
    ∃ fs2, crop false oldext env fs path = crop_result.crashed fs2 ∧
      fs2.file path = fs.file path := by
  have hne2 : path ≠ path ++ oldext := fun h => hne h.symm
  unfold crop
  simp [hb, hi, ht, ho, hr, file_system.rename, hne, hne2]

/-- Claim C17 fails on the code: with clobber off, the backup `rename`
succeeding and `tj3Transform` failing, `crop` returns 1 while the original
content `[1, 2, 3]` of `a.jpg` is at `a.jpg.0ld` and there is no file at
`a.jpg`: the early return skips the `rename` back that the `fopen` and `fwrite`
failure paths perform. -/
theorem crop_transform_failure_not_restored :
    ∃ fs2, crop false ".0ld" ⟨true, true, none, true, true, [], true, true⟩
        ⟨fun p => if p = "a.jpg" then some [1, 2, 3] else none⟩ "a.jpg"
      = crop_result.returned 1 fs2 ∧
      fs2.file "a.jpg" = none ∧ fs2.file "a.jpg.0ld" = some [1, 2, 3] :=
  ⟨_, rfl, by decide, by decide⟩

/-! ## The scan of `findborder` -/

theorem c_abs_cases (x : Int) : (x < 0 ∧ c_abs x = -x) ∨ (0 ≤ x ∧ c_abs x = x) := by
  unfold c_abs
  split
  · left
    exact ⟨by assumption, rfl⟩
  · right
    exact ⟨by omega, rfl⟩

theorem scan_fold_succ (v : Nat → Int) (is : Int) (m : Nat) :
    (List.range (m + 1)).foldl (fun st (k : Nat) => scan_step st (is + (k : Int)) (v k)) ⟨1000, 0, 0, -1⟩
      = scan_step ((List.range m).foldl
          (fun st (k : Nat) => scan_step st (is + (k : Int)) (v k)) ⟨1000, 0, 0, -1⟩)
          (is + (m : Int)) (v m) := by
  rw [List.range_succ m, List.foldl_append]
  rfl

theorem scan_inv_step (v : Nat → Int) (is : Int) (his : 0 ≤ is)
    (hv : ∀ k, 0 ≤ v k ∧ v k ≤ 255) (m : Nat) (st : scan_state) (h : scan_inv v is m st) :
    scan_inv v is (m + 1) (scan_step st (is + (m : Int)) (v m)) := by
  obtain ⟨ha, hmin, hmax, hprev, hdi0, hdi, hslip, hex⟩ := h
  have hvm := hv m
  rcases Nat.eq_zero_or_pos m with h0 | hpos
  · -- the first sample
    subst h0
    obtain ⟨a1, a2, a3, a4⟩ := ha rfl
    have e1 : (scan_step st (is + ((0 : Nat) : Int)) (v 0)).min = v 0 := by
      simp only [scan_step, a1]
      rw [if_pos (by omega)]
    have e2 : (scan_step st (is + ((0 : Nat) : Int)) (v 0)).max = v 0 := by
      simp only [scan_step, a2]
      split <;> omega
    have e3 : (scan_step st (is + ((0 : Nat) : Int)) (v 0)).di
        = if is ≠ 0 then v 0 + 1 else 0 := by
      have hc : c_abs (-1 - v 0) = v 0 + 1 := by
        rcases c_abs_cases (-1 - v 0) with ⟨_, e⟩ | ⟨_, e⟩ <;> omega
      simp only [scan_step, a3, a4, hc, Nat.cast_zero, add_zero]
      by_cases hz : is = 0
      · simp [hz]
      · simp only [ne_eq, hz, not_false_eq_true, if_true]
        rw [if_pos (by omega)]
    have e4 : (scan_step st (is + ((0 : Nat) : Int)) (v 0)).prev = v 0 := rfl
    refine ⟨by omega, ?_, ?_, ?_, ?_, ?_, ?_, ?_⟩
    · intro _
      refine ⟨?_, 0, by omega, e1⟩
      intro k hk
      have : k = 0 := by omega
      subst this
      omega
    · intro _
      refine ⟨?_, 0, by omega, e2⟩
      intro k hk
      have : k = 0 := by omega
      subst this
      omega
    · intro _
      exact e4
    · rw [e3]
      split <;> omega
    · intro k hk
      omega
    · intro hz _
      rw [e3, if_pos hz]
    · rw [e3]
      by_cases hz : is = 0
      · left
        simp [hz]
      · right
        right
        exact ⟨hz, by omega, by rw [if_pos hz]⟩
  · -- a later sample
    obtain ⟨hmin1, kmin, hkmin, hmin2⟩ := hmin hpos
    obtain ⟨hmax1, kmax, hkmax, hmax2⟩ := hmax hpos
    have hp := hprev hpos
    have hi : is + (m : Int) ≠ 0 := by omega
    have e3 : (scan_step st (is + (m : Int)) (v m)).di
        = if c_abs (v (m - 1) - v m) > st.di then c_abs (v (m - 1) - v m) else st.di := by
      simp only [scan_step, hp, ne_eq, hi, not_false_eq_true, if_true]
    have hm1 : m - 1 + 1 = m := by omega
    refine ⟨by omega, ?_, ?_, ?_, ?_, ?_, ?_, ?_⟩
    · intro _
      simp only [scan_step]
      constructor
      · intro k hk
        rcases Nat.lt_succ_iff_lt_or_eq.mp hk with hk | hk
        · have := hmin1 k hk
          split <;> omega
        · subst hk
          split <;> omega
      · by_cases hlt : v m < st.min
        · exact ⟨m, by omega, by rw [if_pos hlt]⟩
        · exact ⟨kmin, by omega, by rw [if_neg hlt]; exact hmin2⟩
    · intro _
      simp only [scan_step]
      constructor
      · intro k hk
        rcases Nat.lt_succ_iff_lt_or_eq.mp hk with hk | hk
        · have := hmax1 k hk
          split <;> omega
        · subst hk
          split <;> omega
      · by_cases hlt : v m > st.max
        · exact ⟨m, by omega, by rw [if_pos hlt]⟩
        · exact ⟨kmax, by omega, by rw [if_neg hlt]; exact hmax2⟩
    · intro _
      rfl
    · rw [e3]
      split <;> omega
    · intro k hk
      rw [e3]
      rcases Nat.lt_succ_iff_lt_or_eq.mp hk with hk | hk
      · have := hdi k (by omega)
        split <;> omega
      · have hk2 : k = m - 1 := by omega
        subst hk2
        rw [hm1]
        split <;> omega
    · intro hz _
      have := hslip hz hpos
      rw [e3]
      split <;> omega
    · rw [e3]
      by_cases hgt : c_abs (v (m - 1) - v m) > st.di
      · right
        left
        refine ⟨m - 1, by omega, ?_⟩
        rw [if_pos hgt, hm1]
      · rw [if_neg hgt]
        rcases hex with hex | ⟨k, hk, hex⟩ | ⟨hz, _, hex⟩
        · left
          exact hex
        · right
          left
          exact ⟨k, by omega, hex⟩
        · right
          right
          exact ⟨hz, by omega, hex⟩

theorem scan_fold_inv (v : Nat → Int) (is : Int) (his : 0 ≤ is)
    (hv : ∀ k, 0 ≤ v k ∧ v k ≤ 255) (m : Nat) :
    scan_inv v is m ((List.range m).foldl
      (fun st (k : Nat) => scan_step st (is + (k : Int)) (v k)) ⟨1000, 0, 0, -1⟩) := by
  induction m with
  | zero =>
    refine ⟨fun _ => ⟨rfl, rfl, rfl, rfl⟩, fun h => absurd h (by omega),
      fun h => absurd h (by omega), fun h => absurd h (by omega), le_refl _,
      fun k hk => absurd hk (by omega), fun _ h => absurd h (by omega), Or.inl rfl⟩
  | succ m ih =>
    rw [scan_fold_succ]
    exact scan_inv_step v is his hv m _ ih

theorem scan_line_inv (data : Int → Nat) (is ie o iM oM : Int) (his : 0 ≤ is)
    (hd : ∀ k, data k ≤ 255) :
    scan_inv (fun k => sample data o iM oM (is + (k : Int))) is (ie - is).toNat
      (scan_line data is ie o iM oM) := by
  have h := scan_fold_inv (fun k => sample data o iM oM (is + (k : Int))) is his
    (fun k => ⟨Int.natCast_nonneg _, by
      have := hd (o * oM + (is + (k : Int)) * iM)
      show ((data (o * oM + (is + (k : Int)) * iM) : Nat) : Int) ≤ 255
      omega⟩) (ie - is).toNat
  unfold scan_line
  exact h

/-- The test that ends the scan fails on a line exactly when the line is border
in the sense of `line_border`. -/
theorem scan_breaks_false_iff (cfg : trim_cfg) (data : Int → Nat) (is ie o iM oM : Int)
    (his : 0 ≤ is) (hg : 0 ≤ cfg.gradient) (hd : ∀ k, data k ≤ 255) :
    scan_breaks cfg (scan_line data is ie o iM oM) = false ↔
      line_border cfg data is ie o iM oM := by
  obtain ⟨ha, hmin, hmax, _, hdi0, hdi, hslip, hex⟩ := scan_line_inv data is ie o iM oM his hd
  simp only [] at hmin hmax hdi hslip hex
  have hgrad : (scan_line data is ie o iM oM).di ≤ cfg.gradient ↔
      (gradient_ok data o iM oM is ie cfg.gradient ∧
        (is ≠ 0 → is < ie → sample data o iM oM is + 1 ≤ cfg.gradient)) := by
    constructor
    · intro hle
      constructor
      · intro i h1 h2
        have hk := hdi (i - is - 1).toNat (by omega)
        have e1 : is + (((i - is - 1).toNat : Nat) : Int) = i - 1 := by omega
        have e2 : is + (((i - is - 1).toNat + 1 : Nat) : Int) = i := by omega
        rw [e1, e2] at hk
        omega
      · intro hz hlt
        have := hslip hz (by omega)
        simp only [Nat.cast_zero, add_zero] at this
        omega
    · intro ⟨h1, h2⟩
      rcases hex with hex | ⟨k, hk, hex⟩ | ⟨hz, hm, hex⟩
      · omega
      · have := h1 (is + ((k + 1 : Nat) : Int)) (by omega) (by omega)
        have e1 : is + ((k + 1 : Nat) : Int) - 1 = is + (k : Int) := by omega
        rw [e1] at this
        omega
      · have := h2 hz (by omega)
        simp only [Nat.cast_zero, add_zero] at hex
        omega
  have hrange : (0 < (ie - is).toNat →
      (c_abs ((scan_line data is ie o iM oM).min - (scan_line data is ie o iM oM).max)
        ≤ cfg.threshold ↔ range_ok data o iM oM is ie cfg.threshold)) := by
    intro hpos
    obtain ⟨hmin1, kmin, hkmin, hmin2⟩ := hmin hpos
    obtain ⟨hmax1, kmax, hkmax, hmax2⟩ := hmax hpos
    have h0a := hmin1 0 hpos
    have h0b := hmax1 0 hpos
    have hc : c_abs ((scan_line data is ie o iM oM).min - (scan_line data is ie o iM oM).max)
        = (scan_line data is ie o iM oM).max - (scan_line data is ie o iM oM).min := by
      rcases c_abs_cases ((scan_line data is ie o iM oM).min - (scan_line data is ie o iM oM).max)
        with ⟨_, e⟩ | ⟨_, e⟩ <;> omega
    rw [hc]
    constructor
    · intro hle i j hi1 hi2 hj1 hj2
      have a := hmax1 (i - is).toNat (by omega)
      have b := hmin1 (j - is).toNat (by omega)
      have e1 : is + (((i - is).toNat : Nat) : Int) = i := by omega
      have e2 : is + (((j - is).toNat : Nat) : Int) = j := by omega
      rw [e1] at a
      rw [e2] at b
      omega
    · intro hr
      have := hr (is + (kmax : Int)) (is + (kmin : Int)) (by omega) (by omega) (by omega)
        (by omega)
      omega
  have hempty : (ie - is).toNat = 0 → (scan_line data is ie o iM oM).di = 0 ∧
      range_ok data o iM oM is ie cfg.threshold := by
    intro h0
    refine ⟨(ha h0).2.2.1, ?_⟩
    intro i j hi1 hi2 _ _
    omega
  unfold scan_breaks line_border
  rw [← hgrad]
  rcases Nat.eq_zero_or_pos (ie - is).toNat with h0 | hpos
  · obtain ⟨e1, e2⟩ := hempty h0
    simp only [e1, e2, or_true, iff_true, Bool.and_eq_false_imp, decide_eq_true_eq,
      decide_eq_false_iff_not]
    omega
  · rw [← hrange hpos]
    simp only [Bool.and_eq_false_imp, decide_eq_true_eq, decide_eq_false_iff_not, gt_iff_lt,
      not_lt]
    constructor
    · intro h
      by_cases hle : (scan_line data is ie o iM oM).di ≤ cfg.gradient
      · exact Or.inl hle
      · exact Or.inr (h (by omega))
    · intro h hlt
      rcases h with h | h
      · omega
      · exact h

/-- The outer loop of `findborder` on `n` lines, `oe = o + n * od`, with fuel for
all of them: it returns the entry count plus the number `k` of leading lines on
which the test does not fire, and `k` is `n` or the test fires on line `k`. -/
theorem findborder_loop_run (cfg : trim_cfg) (data : Int → Nat) (is ie oe od iM oM : Int)
    (hod : od ≠ 0) (n : Nat) :
    ∀ (fuel : Nat) (o ret : Int), n ≤ fuel → oe = o + (n : Int) * od →
      ∃ k, k ≤ n ∧ findborder_loop cfg data is ie oe od iM oM fuel o ret = some (ret + (k : Int)) ∧
        (∀ j, j < k → scan_breaks cfg (scan_line data is ie (o + (j : Int) * od) iM oM) = false) ∧
        (k = n ∨ scan_breaks cfg (scan_line data is ie (o + (k : Int) * od) iM oM) = true) := by
  induction n with
  | zero =>
    intro fuel o ret _ hoe
    have ho : o = oe := by simp [hoe]
    refine ⟨0, le_refl _, ?_, fun j hj => absurd hj (by omega), Or.inl rfl⟩
    cases fuel with
    | zero => simp [findborder_loop, ho]
    | succ f => simp [findborder_loop, ho]
  | succ n ih =>
    intro fuel o ret hfuel hoe
    obtain ⟨f, rfl⟩ : ∃ f, fuel = f + 1 := ⟨fuel - 1, by omega⟩
    have ho : o ≠ oe := by
      intro e
      rw [e] at hoe
      have h2 : ((n + 1 : Nat) : Int) * od = 0 := by linarith
      rcases mul_eq_zero.mp h2 with h3 | h3
      · omega
      · exact hod h3
    by_cases hb : scan_breaks cfg (scan_line data is ie o iM oM) = true
    · refine ⟨0, by omega, ?_, fun j hj => absurd hj (by omega), Or.inr ?_⟩
      · simp [findborder_loop, ho, hb]
      · simpa using hb
    · have hb2 : scan_breaks cfg (scan_line data is ie o iM oM) = false := by
        simpa using hb
      obtain ⟨k, hk, hrun, hall, hstop⟩ := ih f (o + od) (ret + 1) (by omega)
        (by rw [hoe]; push_cast; ring)
      refine ⟨k + 1, by omega, ?_, ?_, ?_⟩
      · rw [findborder_loop, if_neg ho, hb2]
        simp only [Bool.false_eq_true, if_false]
        rw [hrun]
        push_cast
        congr 1
        ring
      · intro j hj
        rcases Nat.eq_zero_or_pos j with h0 | hpos
        · subst h0
          simpa using hb2
        · have := hall (j - 1) (by omega)
          have e : o + od + ((j - 1 : Nat) : Int) * od = o + (j : Int) * od := by
            have : ((j - 1 : Nat) : Int) = (j : Int) - 1 := by omega
            rw [this]
            ring
          rw [e] at this
          exact this
      · rcases hstop with hstop | hstop
        · left
          omega
        · right
          have e : o + od + (k : Int) * od = o + ((k + 1 : Nat) : Int) * od := by
            push_cast
            ring
          rw [e] at hstop
          exact hstop

/-- The result of `findborder` when the first `k` lines are border and line `k`
is not, or `k` is the number of lines up to `oe`. -/
theorem findborder_eq (fuel : Nat) (cfg : trim_cfg) (data : Int → Nat)
    (is ie os oe od iM oM : Int) (n k : Nat)
    (his : 0 ≤ is) (hg : 0 ≤ cfg.gradient) (hd : ∀ p, data p ≤ 255)
    (hod : od ≠ 0) (hoe : oe = os + (n : Int) * od) (hfuel : n ≤ fuel) (hk : k ≤ n)
    (hall : ∀ j, j < k → line_border cfg data is ie (os + (j : Int) * od) iM oM)
    (hstop : k = n ∨ ¬ line_border cfg data is ie (os + (k : Int) * od) iM oM) :
    findborder fuel cfg data is ie os oe od iM oM = some (cfg.margin + (k : Int)) := by
  obtain ⟨k2, hk2, hrun, hall2, hstop2⟩ :=
    findborder_loop_run cfg data is ie oe od iM oM hod n fuel os cfg.margin hfuel hoe
  have hkk : k2 = k := by
    rcases Nat.lt_trichotomy k2 k with hlt | heq | hgt
    · exfalso
      have h1 := (scan_breaks_false_iff cfg data is ie _ iM oM his hg hd).mpr (hall k2 hlt)
      rcases hstop2 with h2 | h2
      · omega
      · rw [h1] at h2
        exact Bool.false_ne_true h2
    · exact heq
    · exfalso
      have h1 := hall2 k hgt
      rcases hstop with h2 | h2
      · omega
      · exact h2 ((scan_breaks_false_iff cfg data is ie _ iM oM his hg hd).mp h1)
  unfold findborder
  rw [hrun, hkk]

/-- Claim C14 fails on the code: on the 4×3 image `ramp_image` with the default
settings the top scan returns `margin + 1 = 5`, although the first row
(`0, 10, 20, 30`) fails the luminosity test (`30 - 0 > 26`) and so is not border
in the sense of the claim, which gives `margin + 0 = 4`. -/
theorem findborder_passes_line_failing_one_test :
    findborder 10 ⟨26, 10, 4⟩ ramp_image 0 4 0 2 1 1 4 = some 5 ∧
    ¬ line_border_both ⟨26, 10, 4⟩ ramp_image 0 4 0 1 4 := by
  refine ⟨by decide, ?_⟩
  intro h
  have := h.2 3 0 (by decide) (by decide) (by decide) (by decide)
  revert this
  decide

/-- Claim C14, amended. For every image of 8-bit samples, every scan range
`[is, ie)` with `is ≥ 0`, every `gradient ≥ 0` and every edge scan over `n` lines
(`oe = os + n * od`, `od ≠ 0`, fuel for `n` lines), `findborder` returns `margin`
plus a number `k ≤ n` of consecutive lines, counted from the edge inward, each of
which passes at least one test: its adjacent-sample deltas are `≤ gradient` OR
its `max - min` is `≤ threshold`.  The scan ends after `n` lines or at line `k`,
which fails the `max - min` test and, in a scan that starts at sample 0 (the
top and bottom edges), also the gradient test: there the first line that fails
both tests ends the scan. -/
theorem findborder_counts_border_lines (fuel : Nat) (cfg : trim_cfg) (data : Int → Nat)
    (is ie os oe od iM oM : Int) (n : Nat)
    (his : 0 ≤ is) (hg : 0 ≤ cfg.gradient) (hd : ∀ p, data p ≤ 255)
    (hod : od ≠ 0) (hoe : oe = os + (n : Int) * od) (hfuel : n ≤ fuel) :
    ∃ k : Nat, k ≤ n ∧
      findborder fuel cfg data is ie os oe od iM oM = some (cfg.margin + (k : Int)) ∧
      (∀ j : Nat, j < k → line_border_either cfg data is ie (os + (j : Int) * od) iM oM) ∧
      (k = n ∨
        (¬ range_ok data (os + (k : Int) * od) iM oM is ie cfg.threshold ∧
          (is = 0 → ¬ gradient_ok data (os + (k : Int) * od) iM oM is ie cfg.gradient))) := by
  obtain ⟨k, hk, hrun, hall, hstop⟩ :=
    findborder_loop_run cfg data is ie oe od iM oM hod n fuel os cfg.margin hfuel hoe
  refine ⟨k, hk, hrun, ?_, ?_⟩
  · intro j hj
    rcases (scan_breaks_false_iff cfg data is ie _ iM oM his hg hd).mp (hall j hj) with h | h
    · exact Or.inl h.1
    · exact Or.inr h
  · rcases hstop with h | h
    · exact Or.inl h
    · right
      have hnb : ¬ line_border cfg data is ie (os + (k : Int) * od) iM oM := by
        intro hb
        rw [(scan_breaks_false_iff cfg data is ie _ iM oM his hg hd).mpr hb] at h
        exact Bool.false_ne_true h
      constructor
      · exact fun hr => hnb (Or.inr hr)
      · intro h0 hgr
        exact hnb (Or.inl ⟨hgr, fun hne => absurd h0 hne⟩)

theorem ramp_image_le (p : Int) : ramp_image p ≤ 255 := by
  unfold ramp_image
  split
  · omega
  · split <;> omega

theorem findborder_counts_border_lines_witness :
    ∃ k : Nat, k ≤ 2 ∧ findborder 10 ⟨26, 10, 4⟩ ramp_image 0 4 0 2 1 1 4
        = some ((⟨26, 10, 4⟩ : trim_cfg).margin + (k : Int)) ∧
      (∀ j : Nat, j < k →
        line_border_either ⟨26, 10, 4⟩ ramp_image 0 4 (0 + (j : Int) * 1) 1 4) ∧
      (k = 2 ∨
        (¬ range_ok ramp_image (0 + (k : Int) * 1) 1 4 0 4 (⟨26, 10, 4⟩ : trim_cfg).threshold ∧
          ((0 : Int) = 0 →
            ¬ gradient_ok ramp_image (0 + (k : Int) * 1) 1 4 0 4
              (⟨26, 10, 4⟩ : trim_cfg).gradient))) :=
  findborder_counts_border_lines 10 ⟨26, 10, 4⟩ ramp_image 0 4 0 2 1 1 4 2 (by decide)
    (by decide) ramp_image_le (by decide) (by decide) (by decide)

/-- Claim C20 fails on the code: on a uniform line of value 100 scanned over
the range `[4, 12)` the inner loop of `findborder` ends with `di = 101` (the
first sample is compared with `prev = -1`, because `if (i)` only skips index 0),
while the maximum adjacent-sample delta inside the range is 0. -/
theorem scan_line_delta_counts_first_sample :
    (scan_line (fun _ => 100) 4 12 0 16 1).di = 101 ∧
    max_adjacent_delta (fun _ => 100) 0 16 1 4 12 = 0 := by
  decide

/-! ## The scenario of the white border -/

/-- A line with two adjacent samples that differ by more than both bounds fails
the gradient test and the luminosity test. -/
theorem line_fails_both (data : Int → Nat) (o iM oM is ie g t i : Int)
    (h1 : is ≤ i) (h2 : i + 1 < ie)
    (hg : g < c_abs (sample data o iM oM i - sample data o iM oM (i + 1)))
    (ht : t < c_abs (sample data o iM oM i - sample data o iM oM (i + 1))) :
    ¬ gradient_ok data o iM oM is ie g ∧ ¬ range_ok data o iM oM is ie t := by
  constructor
  · intro h
    have := h (i + 1) (by omega) h2
    rw [show i + 1 - 1 = i from by omega] at this
    omega
  · intro h
    have a := h i (i + 1) h1 (by omega) (by omega) h2
    have b := h (i + 1) i (by omega) h2 h1 (by omega)
    rcases c_abs_cases (sample data o iM oM i - sample data o iM oM (i + 1))
      with ⟨_, e⟩ | ⟨_, e⟩ <;> omega

/-- A line whose samples in the range are all equal passes the luminosity
test. -/
theorem line_border_of_uniform (cfg : trim_cfg) (data : Int → Nat) (is ie o iM oM : Int)
    (c : Int) (ht : 0 ≤ cfg.threshold)
    (h : ∀ i, is ≤ i → i < ie → sample data o iM oM i = c) :
    line_border cfg data is ie o iM oM := by
  right
  intro i j hi1 hi2 hj1 hj2
  rw [h i hi1 hi2, h j hj1 hj2]
  omega

theorem not_line_border (cfg : trim_cfg) (data : Int → Nat) (is ie o iM oM : Int)
    (h : ¬ gradient_ok data o iM oM is ie cfg.gradient ∧
      ¬ range_ok data o iM oM is ie cfg.threshold) :
    ¬ line_border cfg data is ie o iM oM := by
  intro hb
  rcases hb with hb | hb
  · exact h.1 hb.1
  · exact h.2 hb

/-- The four depths and the crop for a 480×320 image with a white border of 12
pixels whose lines next to the border fail both tests. -/
theorem white_border_crop (fuel : Nat) (data : Int → Nat) (hfuel : 480 ≤ fuel)
    (hd : ∀ p, data p ≤ 255)
    (hwhite : ∀ y x : Int, 0 ≤ y → y < 320 → 0 ≤ x → x < 480 →
      (y < 12 ∨ 308 ≤ y ∨ x < 12 ∨ 468 ≤ x) → data (y * 480 + x) = 255)
    (hrow12 : ¬ gradient_ok data 12 1 480 0 480 10 ∧ ¬ range_ok data 12 1 480 0 480 26)
    (hrow307 : ¬ gradient_ok data 307 1 480 0 480 10 ∧ ¬ range_ok data 307 1 480 0 480 26)
    (hcol12 : ¬ gradient_ok data 12 480 1 16 304 10 ∧ ¬ range_ok data 12 480 1 16 304 26)
    (hcol467 : ¬ gradient_ok data 467 480 1 16 304 10 ∧ ¬ range_ok data 467 480 1 16 304 26) :
    handle_borders fuel ⟨26, 10, 4⟩ data 480 320 = some ⟨16, 16, 16, 16⟩ ∧
    handle_crop fuel ⟨26, 10, 4⟩ data 480 320 16 16 = some (some ⟨32, 32, 432, 272, true⟩) := by
  have hg : (0 : Int) ≤ (⟨26, 10, 4⟩ : trim_cfg).gradient := by decide
  have ht : (0 : Int) ≤ (⟨26, 10, 4⟩ : trim_cfg).threshold := by decide
  have top : findborder fuel ⟨26, 10, 4⟩ data 0 480 0 319 1 1 480 = some 16 := by
    have e : (0 : Int) + ((12 : Nat) : Int) * 1 = 12 := by norm_num
    have := findborder_eq fuel ⟨26, 10, 4⟩ data 0 480 0 319 1 1 480 319 12 (le_refl _)
      hg hd (by norm_num) (by norm_num) (by omega) (by norm_num)
      (by
        intro j hj
        apply line_border_of_uniform _ _ _ _ _ _ _ 255 ht
        intro i hi1 hi2
        unfold sample
        rw [show (0 + (j : Int) * 1) * 480 + i * 1 = (j : Int) * 480 + i from by ring,
          hwhite j i (by omega) (by omega) hi1 hi2 (Or.inl (by omega))]
        rfl)
      (Or.inr (by rw [e]; exact not_line_border _ _ _ _ _ _ _ hrow12))
    rw [this]
    rfl
  have bottom : findborder fuel ⟨26, 10, 4⟩ data 0 480 319 (-1) (-1) 1 480 = some 16 := by
    have e : (319 : Int) + ((12 : Nat) : Int) * (-1) = 307 := by norm_num
    have := findborder_eq fuel ⟨26, 10, 4⟩ data 0 480 319 (-1) (-1) 1 480 320 12 (le_refl _)
      hg hd (by norm_num) (by norm_num) (by omega) (by norm_num)
      (by
        intro j hj
        apply line_border_of_uniform _ _ _ _ _ _ _ 255 ht
        intro i hi1 hi2
        unfold sample
        rw [show (319 + (j : Int) * (-1)) * 480 + i * 1 = (319 - (j : Int)) * 480 + i from by ring,
          hwhite (319 - (j : Int)) i (by omega) (by omega) hi1 hi2 (Or.inr (Or.inl (by omega)))]
        rfl)
      (Or.inr (by rw [e]; exact not_line_border _ _ _ _ _ _ _ hrow307))
    rw [this]
    rfl
  have left : findborder fuel ⟨26, 10, 4⟩ data 16 304 0 479 1 480 1 = some 16 := by
    have e : (0 : Int) + ((12 : Nat) : Int) * 1 = 12 := by norm_num
    have := findborder_eq fuel ⟨26, 10, 4⟩ data 16 304 0 479 1 480 1 479 12 (by norm_num)
      hg hd (by norm_num) (by norm_num) (by omega) (by norm_num)
      (by
        intro j hj
        apply line_border_of_uniform _ _ _ _ _ _ _ 255 ht
        intro i hi1 hi2
        unfold sample
        rw [show (0 + (j : Int) * 1) * 1 + i * 480 = i * 480 + (j : Int) from by ring,
          hwhite i j (by omega) (by omega) (by omega) (by omega)
            (Or.inr (Or.inr (Or.inl (by omega))))]
        rfl)
      (Or.inr (by rw [e]; exact not_line_border _ _ _ _ _ _ _ hcol12))
    rw [this]
    rfl
  have right : findborder fuel ⟨26, 10, 4⟩ data 16 304 479 (-1) (-1) 480 1 = some 16 := by
    have e : (479 : Int) + ((12 : Nat) : Int) * (-1) = 467 := by norm_num
    have := findborder_eq fuel ⟨26, 10, 4⟩ data 16 304 479 (-1) (-1) 480 1 480 12 (by norm_num)
      hg hd (by norm_num) (by norm_num) (by omega) (by norm_num)
      (by
        intro j hj
        apply line_border_of_uniform _ _ _ _ _ _ _ 255 ht
        intro i hi1 hi2
        unfold sample
        rw [show (479 + (j : Int) * (-1)) * 1 + i * 480 = i * 480 + (479 - (j : Int)) from by ring,
          hwhite i (479 - (j : Int)) (by omega) (by omega) (by omega) (by omega)
            (Or.inr (Or.inr (Or.inr (by omega))))]
        rfl)
      (Or.inr (by rw [e]; exact not_line_border _ _ _ _ _ _ _ hcol467))
    rw [this]
    rfl
  have hb : handle_borders fuel ⟨26, 10, 4⟩ data 480 320 = some ⟨16, 16, 16, 16⟩ := by
    unfold handle_borders
    rw [show (320 : Int) - 1 = 319 from by norm_num, show (480 : Int) - 1 = 479 from by norm_num,
      top, bottom]
    simp only [Option.some_bind]
    rw [show (320 : Int) - 16 = 304 from by norm_num, left, right]
    rfl
  refine ⟨hb, ?_⟩
  unfold handle_crop
  rw [hb]
  decide

theorem s5_image_at (y x : Int) (hx0 : 0 ≤ x) (hx1 : x < 480) :
    s5_image (y * 480 + x) =
      if y < 12 ∨ 308 ≤ y ∨ x < 12 ∨ 468 ≤ x then 255
      else if (y + x) % 2 = 0 then 0 else 100 := by
  have e1 : (y * 480 + x) / 480 = y := by omega
  have e2 : (y * 480 + x) % 480 = x := by omega
  unfold s5_image
  simp only [e1, e2]

theorem s5_image_le (p : Int) : s5_image p ≤ 255 := by
  unfold s5_image
  split
  · omega
  · split <;> omega

theorem s5_image_white (y x : Int) (_ : 0 ≤ y) (_ : y < 320) (hx0 : 0 ≤ x) (hx1 : x < 480)
    (h : y < 12 ∨ 308 ≤ y ∨ x < 12 ∨ 468 ≤ x) : s5_image (y * 480 + x) = 255 := by
  rw [s5_image_at y x hx0 hx1, if_pos h]

/-- Inside the border two neighbours of the checkerboard differ by 100. -/
theorem s5_image_neighbours (y x y2 x2 : Int) (hy : 12 ≤ y ∧ y2 < 308) (hx : 12 ≤ x ∧ x2 < 468)
    (hn : (y2 = y ∧ x2 = x + 1) ∨ (y2 = y + 1 ∧ x2 = x)) :
    c_abs ((s5_image (y * 480 + x) : Int) - (s5_image (y2 * 480 + x2) : Int)) = 100 := by
  have n1 : ¬ (y < 12 ∨ 308 ≤ y ∨ x < 12 ∨ 468 ≤ x) := by omega
  have n2 : ¬ (y2 < 12 ∨ 308 ≤ y2 ∨ x2 < 12 ∨ 468 ≤ x2) := by omega
  have a := s5_image_at y x (by omega) (by omega)
  have b := s5_image_at y2 x2 (by omega) (by omega)
  rw [if_neg n1] at a
  rw [if_neg n2] at b
  by_cases hp : (y + x) % 2 = 0
  · have hp2 : ¬ (y2 + x2) % 2 = 0 := by omega
    rw [a, b, if_pos hp, if_neg hp2]
    decide
  · have hp2 : (y2 + x2) % 2 = 0 := by omega
    rw [a, b, if_neg hp, if_pos hp2]
    decide

theorem s5_row_fails (y is ie : Int) (hy : 12 ≤ y ∧ y < 308) (h1 : is ≤ 12) (h2 : 14 ≤ ie) :
    ¬ gradient_ok s5_image y 1 480 is ie 10 ∧ ¬ range_ok s5_image y 1 480 is ie 26 := by
  have h := s5_image_neighbours y 12 y 13 ⟨hy.1, hy.2⟩ ⟨by omega, by omega⟩
    (Or.inl ⟨rfl, by omega⟩)
  apply line_fails_both s5_image y 1 480 is ie 10 26 12 h1 (by omega)
  · unfold sample
    rw [show y * 480 + 12 * 1 = y * 480 + 12 from by ring,
      show y * 480 + (12 + 1) * 1 = y * 480 + 13 from by ring, h]
    decide
  · unfold sample
    rw [show y * 480 + 12 * 1 = y * 480 + 12 from by ring,
      show y * 480 + (12 + 1) * 1 = y * 480 + 13 from by ring, h]
    decide

theorem s5_col_fails (x is ie : Int) (hx : 12 ≤ x ∧ x < 468) (h1 : is ≤ 16)
    (h2 : 18 ≤ ie) :
    ¬ gradient_ok s5_image x 480 1 is ie 10 ∧ ¬ range_ok s5_image x 480 1 is ie 26 := by
  have h := s5_image_neighbours 16 x 17 x ⟨by omega, by omega⟩ ⟨hx.1, hx.2⟩
    (Or.inr ⟨by omega, rfl⟩)
  apply line_fails_both s5_image x 480 1 is ie 10 26 16 h1 (by omega)
  · unfold sample
    rw [show x * 1 + 16 * 480 = 16 * 480 + x from by ring,
      show x * 1 + (16 + 1) * 480 = 17 * 480 + x from by ring, h]
    decide
  · unfold sample
    rw [show x * 1 + 16 * 480 = 16 * 480 + x from by ring,
      show x * 1 + (16 + 1) * 480 = 17 * 480 + x from by ring, h]
    decide

/-- Claim C16 fails on the code: the 480×320 image `s5_image` has a uniform white
border of 12 pixels on every side, and every row and column inside the border
fails both border tests; with `xmod = ymod = 16` and the default settings the
trimmer computes the crop size `(432, 272)` at the origin `(32, 32)`, neither
`(464, 304)` nor `(448, 304)`. -/
theorem trim_white_border_is_432_by_272 :
    (∀ y x : Int, 0 ≤ y → y < 320 → 0 ≤ x → x < 480 →
      (y < 12 ∨ 308 ≤ y ∨ x < 12 ∨ 468 ≤ x) → s5_image (y * 480 + x) = 255) ∧
    (∀ y : Int, 12 ≤ y → y < 308 →
      ¬ gradient_ok s5_image y 1 480 0 480 10 ∧ ¬ range_ok s5_image y 1 480 0 480 26) ∧
    (∀ x : Int, 12 ≤ x → x < 468 →
      ¬ gradient_ok s5_image x 480 1 0 320 10 ∧ ¬ range_ok s5_image x 480 1 0 320 26) ∧
    handle_crop 480 ⟨26, 10, 4⟩ s5_image 480 320 16 16
      = some (some ⟨32, 32, 432, 272, true⟩) :=
  ⟨s5_image_white,
   fun y h1 h2 => s5_row_fails y 0 480 ⟨h1, h2⟩ (by norm_num) (by norm_num),
   fun x h1 h2 => s5_col_fails x 0 320 ⟨h1, h2⟩ (by norm_num) (by norm_num),
   (white_border_crop 480 s5_image (le_refl _) s5_image_le s5_image_white
     (s5_row_fails 12 0 480 (by norm_num) (by norm_num) (by norm_num))
     (s5_row_fails 307 0 480 (by norm_num) (by norm_num) (by norm_num))
     (s5_col_fails 12 16 304 (by norm_num) (by norm_num) (by norm_num))
     (s5_col_fails 467 16 304 (by norm_num) (by norm_num) (by norm_num))).2⟩

/-- Claim C16, amended. Scenario S5: for a 480×320 grayscale image of 8-bit
samples with `xmod = ymod = 16` and the default settings (margin 4, threshold
26, gradient 10), whose outer 12 pixels on every side are uniform white and
whose first lines inside the border fail both border tests over the range the
trimmer scans (rows 12 and 307 over the full width, columns 12 and 467 over
the rows 16 to 303), the four `findborder` depths are 16 and the crop the trimmer
computes is `(cw, ch) = (432, 272)` at the origin `(32, 32)`, with `do_crop`
true. -/
theorem trim_white_border_crop (fuel : Nat) (data : Int → Nat) (hfuel : 480 ≤ fuel)
    (hd : ∀ p, data p ≤ 255)
    (hwhite : ∀ y x : Int, 0 ≤ y → y < 320 → 0 ≤ x → x < 480 →
      (y < 12 ∨ 308 ≤ y ∨ x < 12 ∨ 468 ≤ x) → data (y * 480 + x) = 255)
    (hrow12 : ¬ gradient_ok data 12 1 480 0 480 10 ∧ ¬ range_ok data 12 1 480 0 480 26)
    (hrow307 : ¬ gradient_ok data 307 1 480 0 480 10 ∧ ¬ range_ok data 307 1 480 0 480 26)
    (hcol12 : ¬ gradient_ok data 12 480 1 16 304 10 ∧ ¬ range_ok data 12 480 1 16 304 26)
    (hcol467 : ¬ gradient_ok data 467 480 1 16 304 10 ∧ ¬ range_ok data 467 480 1 16 304 26) :
    handle_borders fuel ⟨26, 10, 4⟩ data 480 320 = some ⟨16, 16, 16, 16⟩ ∧
    handle_crop fuel ⟨26, 10, 4⟩ data 480 320 16 16 = some (some ⟨32, 32, 432, 272, true⟩) :=
  white_border_crop fuel data hfuel hd hwhite hrow12 hrow307 hcol12 hcol467

theorem trim_white_border_crop_witness :
    handle_borders 1000 ⟨26, 10, 4⟩ s5_image 480 320 = some ⟨16, 16, 16, 16⟩ ∧
    handle_crop 1000 ⟨26, 10, 4⟩ s5_image 480 320 16 16
      = some (some ⟨32, 32, 432, 272, true⟩) :=
  trim_white_border_crop 1000 s5_image (by norm_num) s5_image_le s5_image_white
    (s5_row_fails 12 0 480 (by norm_num) (by norm_num) (by norm_num))
    (s5_row_fails 307 0 480 (by norm_num) (by norm_num) (by norm_num))
    (s5_col_fails 12 16 304 (by norm_num) (by norm_num) (by norm_num))
    (s5_col_fails 467 16 304 (by norm_num) (by norm_num) (by norm_num))

/-! ## The intra-group pass, store by store -/

theorem attach_trace_last (heap : Mem item_t) (p tmp eqt : Nat) :
    (attach_trace heap p tmp eqt).getLastD heap = attach heap p tmp eqt := rfl

theorem handle_pair_eq_trace (fuel : Nat) (threshold : Int) (heap : Mem item_t) (ref tmp : Nat) :
    handle_pair fuel threshold heap ref tmp
      = (handle_pair_trace fuel threshold heap ref tmp).map (fun t => t.getLastD heap) := by
  unfold handle_pair handle_pair_trace
  split
  · rfl
  · dsimp only
    split
    · cases find_root heap fuel ref with
      | none => rfl
      | some p => rfl
    · rfl

theorem getLastD_append_getLastD {α : Type} (l1 l2 : List α) (a : α) :
    (l1 ++ l2).getLastD a = l2.getLastD (l1.getLastD a) := by
  induction l1 generalizing a with
  | nil => rfl
  | cons b l1 ih => rw [List.cons_append, List.getLastD_cons, List.getLastD_cons, ih]

theorem calls_trace_append (fuel : Nat) (threshold : Int) (a b : List (Nat × Nat)) :
    ∀ heap : Mem item_t, calls_trace fuel threshold heap (a ++ b)
      = (calls_trace fuel threshold heap a).bind fun t =>
          (calls_trace fuel threshold (t.getLastD heap) b).map (fun rest => t ++ rest) := by
  induction a with
  | nil =>
    intro heap
    simp [calls_trace]
  | cons c a ih =>
    intro heap
    simp only [List.cons_append, calls_trace, List.append_eq]
    cases handle_pair_trace fuel threshold heap c.1 c.2 with
    | none => rfl
    | some t =>
      simp only [Option.some_bind]
      rw [ih]
      cases calls_trace fuel threshold (t.getLastD heap) a with
      | none => rfl
      | some ta =>
        simp only [Option.some_bind, Option.map_some', getLastD_append_getLastD]
        cases calls_trace fuel threshold (ta.getLastD (t.getLastD heap)) b with
        | none => rfl
        | some tb =>
          simp only [Option.map_some', List.append_assoc]

/-- Running the calls one after the other ends in the last heap of the trace. -/
theorem foldlM_calls_eq_trace (fuel : Nat) (threshold : Int) (calls : List (Nat × Nat)) :
    ∀ heap : Mem item_t,
      calls.foldlM (fun h c => handle_pair fuel threshold h c.1 c.2) heap
        = (calls_trace fuel threshold heap calls).map (fun t => t.getLastD heap) := by
  induction calls with
  | nil =>
    intro heap
    rfl
  | cons c cs ih =>
    intro heap
    rw [List.foldlM_cons, handle_pair_eq_trace]
    simp only [calls_trace]
    cases handle_pair_trace fuel threshold heap c.1 c.2 with
    | none => rfl
    | some t =>
      simp only [Option.map_some', Option.some_bind]
      show List.foldlM _ (t.getLastD heap) cs = _
      rw [ih]
      cases calls_trace fuel threshold (t.getLastD heap) cs with
      | none => rfl
      | some r =>
        show some (r.getLastD (t.getLastD heap)) = some ((t ++ r).getLastD heap)
        rw [getLastD_append_getLastD]

theorem foldlM_map_pair (fuel : Nat) (threshold : Int) (ref : Nat) (rest : List Nat) :
    ∀ heap : Mem item_t,
      (rest.map (fun tmp => (ref, tmp))).foldlM
          (fun h c => handle_pair fuel threshold h c.1 c.2) heap
        = rest.foldlM (fun h tmp => handle_pair fuel threshold h ref tmp) heap := by
  induction rest with
  | nil =>
    intro heap
    rfl
  | cons t rest ih =>
    intro heap
    rw [List.map_cons, List.foldlM_cons, List.foldlM_cons]
    cases handle_pair fuel threshold heap ref t with
    | none => rfl
    | some h1 => exact ih h1

/-- The loops of `intracmp` make the calls of `intracmp_calls`. -/
theorem intracmp_eq_foldlM_calls (fuel : Nat) (threshold : Int) (items : List Nat) :
    ∀ heap : Mem item_t, intracmp fuel threshold heap items
      = (intracmp_calls items).foldlM (fun h c => handle_pair fuel threshold h c.1 c.2) heap := by
  induction items with
  | nil =>
    intro heap
    rfl
  | cons ref rest ih =>
    intro heap
    simp only [intracmp, intracmp_calls]
    rw [List.foldlM_append, foldlM_map_pair]
    cases rest.foldlM (fun h tmp => handle_pair fuel threshold h ref tmp) heap with
    | none => rfl
    | some h1 => exact ih h1

theorem intracmp_eq_trace (fuel : Nat) (threshold : Int) (heap : Mem item_t) (items : List Nat) :
    intracmp fuel threshold heap items
      = (intracmp_trace fuel threshold heap items).map (fun t => t.getLastD heap) := by
  rw [intracmp_eq_foldlM_calls, foldlM_calls_eq_trace]
  rfl

theorem n_mono_refl (heap : Mem item_t) : n_mono heap heap := fun _ => le_refl _

theorem n_mono_trans (h1 h2 h3 : Mem item_t) (a : n_mono h1 h2) (b : n_mono h2 h3) :
    n_mono h1 h3 := fun x => le_trans (a x) (b x)

theorem n_mono_write (m : Mem item_t) (i : Nat) (v : item_t) (h : (m.read i).eq_n ≤ v.eq_n) :
    n_mono m (m.write i v) := by
  intro a
  rw [Mem.read_write]
  by_cases ha : a = i
  · rw [if_pos ha, ha]
    exact h
  · rw [if_neg ha]

/-- No store of `handle_pair` lowers a count. -/
theorem attach_trace_chain (heap : Mem item_t) (p tmp eqt : Nat) :
    List.Chain n_mono heap (attach_trace heap p tmp eqt) := by
  unfold attach_trace
  exact List.Chain.cons (n_mono_write _ _ _ (le_refl _))
    (List.Chain.cons (n_mono_write _ _ _ (le_refl _))
      (List.Chain.cons (n_mono_write _ _ _ (le_refl _))
        (List.Chain.cons (n_mono_write _ _ _ (le_refl _))
          (List.Chain.cons (n_mono_write _ _ _ (Nat.le_succ _)) List.Chain.nil))))

theorem handle_pair_trace_chain (fuel : Nat) (threshold : Int) (heap : Mem item_t)
    (ref tmp : Nat) (t : List (Mem item_t))
    (h : handle_pair_trace fuel threshold heap ref tmp = some t) :
    List.Chain n_mono heap t := by
  unfold handle_pair_trace at h
  split at h
  · rw [← Option.some.inj h]
    exact List.Chain.nil
  · dsimp only at h
    split at h
    · cases hr : find_root heap fuel ref with
      | none =>
        rw [hr] at h
        exact Option.noConfusion h
      | some p =>
        rw [hr] at h
        rw [← Option.some.inj h]
        exact attach_trace_chain heap p tmp _
    · rw [← Option.some.inj h]
      exact List.Chain.nil

theorem chain_append_getLastD {α : Type} (R : α → α → Prop) (l1 l2 : List α) :
    ∀ a : α, List.Chain R a l1 → List.Chain R (l1.getLastD a) l2 → List.Chain R a (l1 ++ l2) := by
  induction l1 with
  | nil =>
    intro a _ h2
    exact h2
  | cons b l1 ih =>
    intro a h1 h2
    rw [List.getLastD_cons] at h2
    rw [List.chain_cons] at h1
    exact List.Chain.cons h1.1 (ih b h1.2 h2)

/-- Counts never decrease along the trace of a sequence of calls. -/
theorem calls_trace_chain (fuel : Nat) (threshold : Int) (calls : List (Nat × Nat)) :
    ∀ (heap : Mem item_t) (tr : List (Mem item_t)),
      calls_trace fuel threshold heap calls = some tr → List.Chain n_mono heap tr := by
  induction calls with
  | nil =>
    intro heap tr h
    simp only [calls_trace] at h
    rw [← Option.some.inj h]
    exact List.Chain.nil
  | cons c cs ih =>
    intro heap tr h
    simp only [calls_trace] at h
    cases ht : handle_pair_trace fuel threshold heap c.1 c.2 with
    | none =>
      rw [ht] at h
      exact Option.noConfusion h
    | some t =>
      rw [ht] at h
      simp only [Option.some_bind] at h
      cases hr : calls_trace fuel threshold (t.getLastD heap) cs with
      | none =>
        rw [hr] at h
        exact Option.noConfusion h
      | some r =>
        rw [hr] at h
        rw [← Option.some.inj h]
        exact chain_append_getLastD n_mono t r heap
          (handle_pair_trace_chain fuel threshold heap c.1 c.2 t ht) (ih _ r hr)

/-- The parents and counts in the heap after each store that attaches `tmp` to
`p`. -/
theorem attach_trace_read (heap : Mem item_t) (p tmp eqt : Nat) (hne : p ≠ tmp)
    (h : Mem item_t) (hmem : h ∈ attach_trace heap p tmp eqt) :
    (∀ a, (h.read a).eq_parent = if a = tmp then some p else (heap.read a).eq_parent) ∧
    (∀ a, a ≠ p → (h.read a).eq_n = (heap.read a).eq_n) := by
  have hne2 : tmp ≠ p := fun e => hne e.symm
  unfold attach_trace at hmem
  simp only [List.mem_cons, List.mem_singleton, List.not_mem_nil, or_false] at hmem
  rcases hmem with e | e | e | e | e <;> subst e <;> constructor <;> intro a
  all_goals
    try intro hap
    by_cases h1 : a = tmp
    · subst h1
      simp [hne, hne2]
    · by_cases h2 : a = p
      · subst h2
        first
          | exact absurd rfl hap
          | simp [h1, hne, hne2]
      · simp [h1, h2]

/-- Depth one is kept by every store that attaches a parentless, peerless `tmp`
to a root `p`. -/
theorem attach_trace_depth_one (heap : Mem item_t) (all : List Nat) (p tmp eqt : Nat)
    (hne : p ≠ tmp) (hd : depth_one heap all)
    (hproot : (heap.read p).eq_parent = none)
    (hpeerless : ∀ c ∈ all, (heap.read c).eq_parent ≠ some tmp)
    (hn0 : (heap.read tmp).eq_n = 0)
    (h : Mem item_t) (hmem : h ∈ attach_trace heap p tmp eqt) :
    depth_one h all := by
  obtain ⟨hpar, hn⟩ := attach_trace_read heap p tmp eqt hne h hmem
  have hne2 : tmp ≠ p := fun e => hne e.symm
  intro c hc q hq
  rw [hpar c] at hq
  by_cases hct : c = tmp
  · rw [if_pos hct] at hq
    have hqp : q = p := (Option.some.inj hq).symm
    subst hqp
    subst hct
    rw [hpar q, if_neg hne, hn c hne2]
    exact ⟨hproot, hn0⟩
  · rw [if_neg hct] at hq
    obtain ⟨d1, d2⟩ := hd c hc q hq
    have hqt : q ≠ tmp := by
      intro e
      subst e
      exact hpeerless c hc hq
    have hcp : c ≠ p := by
      intro e
      subst e
      rw [hproot] at hq
      exact Option.noConfusion hq
    rw [hpar q, if_neg hqt, hn c hcp]
    exact ⟨d1, d2⟩

/-- One call of `handle_pair` inside the pass: it returns, keeps the loop
invariant, and depth one holds after each of its stores. -/
theorem handle_pair_trace_inv (fuel : Nat) (threshold : Int) (heap0 heap : Mem item_t)
    (all pend : List Nat) (ref tmp : Nat) (hfuel : 2 ≤ fuel)
    (hinv : intra_inv threshold heap0 all pend heap) (hd : depth_one heap all)
    (href : ref ∈ all) (hrp : ref ∉ pend) (htmp : tmp ∈ all) (htp : tmp ∈ pend) :
    ∃ tr, handle_pair_trace fuel threshold heap ref tmp = some tr ∧
      intra_inv threshold heap0 all pend (tr.getLastD heap) ∧
      (∀ h ∈ tr, depth_one h all) ∧ depth_one (tr.getLastD heap) all := by
  obtain ⟨heap2, hrun, hinv2, _, _⟩ :=
    handle_pair_inv fuel threshold heap0 heap all pend ref tmp hfuel hinv href hrp htmp htp
  rw [handle_pair_eq_trace] at hrun
  cases htr : handle_pair_trace fuel threshold heap ref tmp with
  | none =>
    rw [htr] at hrun
    exact Option.noConfusion hrun
  | some tr =>
    rw [htr] at hrun
    have hlast : tr.getLastD heap = heap2 := Option.some.inj hrun
    have hall : ∀ h ∈ tr, depth_one h all := by
      unfold handle_pair_trace at htr
      split at htr
      · rw [← Option.some.inj htr]
        intro h hh
        exact absurd hh (List.not_mem_nil h)
      · rename_i hpar
        dsimp only at htr
        split at htr
        · have hpar2 : (heap.read tmp).eq_parent = none := by
            cases hp : (heap.read tmp).eq_parent with
            | none => rfl
            | some q =>
              rw [hp] at hpar
              exact absurd rfl hpar
          have hroot := find_root_eq heap fuel ref hfuel
            (fun p hp => (hinv.wf.parent_root ref href p hp).2)
          rw [hroot] at htr
          rw [← Option.some.inj htr]
          have hpeerless : ∀ c ∈ all, (heap.read c).eq_parent ≠ some tmp :=
            fun c hc h => hinv.np c hc tmp h htp
          have hpt : cluster_root heap ref ≠ tmp := by
            cases hr : (heap.read ref).eq_parent with
            | none =>
              rw [cluster_root_of_root heap ref hr]
              exact fun e => hrp (e ▸ htp)
            | some q =>
              rw [cluster_root_of_child heap ref q hr]
              intro e
              subst e
              exact hpeerless ref href hr
          have hn0 : (heap.read tmp).eq_n = 0 := by
            obtain ⟨l, _, _, hlen, hmem⟩ := hinv.wf.peers tmp htmp hpar2
            have hl : l = [] := by
              cases l with
              | nil => rfl
              | cons c l =>
                exact absurd ((hmem c).mp (List.mem_cons_self _ _)).2
                  (hpeerless c ((hmem c).mp (List.mem_cons_self _ _)).1)
            rw [← hlen, hl]
            rfl
          intro h hh
          exact attach_trace_depth_one heap all _ tmp _ hpt hd
            (cluster_root_mem threshold heap all hinv.wf ref href).2 hpeerless hn0 h hh
        · rw [← Option.some.inj htr]
          intro h hh
          exact absurd hh (List.not_mem_nil h)
    refine ⟨tr, rfl, hlast ▸ hinv2, hall, ?_⟩
    cases tr with
    | nil => exact hd
    | cons a l =>
      rw [List.getLastD_cons]
      exact hall _ (by
        rw [← List.getLastD_cons heap a l, List.getLastD_eq_getLast?,
          List.getLast?_eq_getLast _ (List.cons_ne_nil a l)]
        exact List.getLast_mem _)

theorem calls_trace_inner (fuel : Nat) (threshold : Int) (heap0 : Mem item_t)
    (all pend : List Nat) (ref : Nat) (hfuel : 2 ≤ fuel) (href : ref ∈ all) (hrp : ref ∉ pend)
    (l : List Nat) :
    ∀ heap : Mem item_t, (∀ x ∈ l, x ∈ all ∧ x ∈ pend) →
      intra_inv threshold heap0 all pend heap → depth_one heap all →
      ∃ tr, calls_trace fuel threshold heap (l.map (fun tmp => (ref, tmp))) = some tr ∧
        intra_inv threshold heap0 all pend (tr.getLastD heap) ∧
        (∀ h ∈ tr, depth_one h all) ∧ depth_one (tr.getLastD heap) all := by
  induction l with
  | nil =>
    intro heap _ hinv hd
    exact ⟨[], rfl, hinv, fun h hh => absurd hh (List.not_mem_nil h), hd⟩
  | cons t l ih =>
    intro heap hl hinv hd
    obtain ⟨hta, htp⟩ := hl t (List.mem_cons_self _ _)
    obtain ⟨t1, hrun1, hinv1, hall1, hd1⟩ :=
      handle_pair_trace_inv fuel threshold heap0 heap all pend ref t hfuel hinv hd href hrp
        hta htp
    obtain ⟨t2, hrun2, hinv2, hall2, hd2⟩ :=
      ih (t1.getLastD heap) (fun x hx => hl x (List.mem_cons_of_mem _ hx)) hinv1 hd1
    refine ⟨t1 ++ t2, ?_, ?_, ?_, ?_⟩
    · simp only [List.map_cons, calls_trace]
      rw [hrun1]
      simp only [Option.some_bind]
      rw [hrun2]
      rfl
    · rw [getLastD_append_getLastD]
      exact hinv2
    · intro h hh
      rcases List.mem_append.mp hh with hh | hh
      · exact hall1 h hh
      · exact hall2 h hh
    · rw [getLastD_append_getLastD]
      exact hd2

theorem calls_trace_outer (fuel : Nat) (threshold : Int) (heap0 : Mem item_t) (all : List Nat)
    (hfuel : 2 ≤ fuel) (l : List Nat) :
    ∀ heap : Mem item_t, l.Nodup → (∀ x ∈ l, x ∈ all) →
      intra_inv threshold heap0 all l heap → depth_one heap all →
      ∃ tr, calls_trace fuel threshold heap (intracmp_calls l) = some tr ∧
        ∀ h ∈ tr, depth_one h all := by
  induction l with
  | nil =>
    intro heap _ _ _ _
    exact ⟨[], rfl, fun h hh => absurd hh (List.not_mem_nil h)⟩
  | cons ref rest ih =>
    intro heap hnd hall hinv hd
    obtain ⟨hnotin, hnd2⟩ := List.nodup_cons.mp hnd
    have hinv_rest : intra_inv threshold heap0 all rest heap :=
      intra_inv_weaken threshold heap0 heap all (ref :: rest) rest
        (fun x hx => List.mem_cons_of_mem _ hx) hinv
    obtain ⟨t1, hrun1, hinv1, hall1, hd1⟩ :=
      calls_trace_inner fuel threshold heap0 all rest ref hfuel
        (hall ref (List.mem_cons_self _ _)) hnotin rest heap
        (fun x hx => ⟨hall x (List.mem_cons_of_mem _ hx), hx⟩) hinv_rest hd
    obtain ⟨t2, hrun2, hall2⟩ :=
      ih (t1.getLastD heap) hnd2 (fun x hx => hall x (List.mem_cons_of_mem _ hx)) hinv1 hd1
    refine ⟨t1 ++ t2, ?_, ?_⟩
    · simp only [intracmp_calls]
      rw [calls_trace_append, hrun1]
      simp only [Option.some_bind]
      rw [hrun2]
      rfl
    · intro h hh
      rcases List.mem_append.mp hh with hh | hh
      · exact hall1 h hh
      · exact hall2 h hh

/-- Claim C21. During and after `intracmp` over a list of distinct fresh items,
parent chains have depth at most one and roots are final.  The pass returns, and
in the start heap and in the heap after every single store of the pass (the last
one is the heap `intracmp` returns) every item with a parent has a parent whose
own `eq_parent` is `none`, and has `eq_n = 0`; and for any two of these heaps, an
item that has peers (`eq_n > 0`) in the earlier one has no parent in the later
one. -/
theorem intracmp_parent_depth_one (fuel : Nat) (threshold : Int) (heap : Mem item_t)
    (items : List Nat) (hfuel : 2 ≤ fuel) (hnd : items.Nodup)
    (hfresh : ∀ a ∈ items, fresh (heap.read a)) :
    ∃ tr, intracmp_trace fuel threshold heap items = some tr ∧
      intracmp fuel threshold heap items = some (tr.getLastD heap) ∧
      (∀ h ∈ heap :: tr, depth_one h items) ∧
      (heap :: tr).Pairwise (root_final items) := by
  have hd0 : depth_one heap items := by
    intro c hc p hp
    rw [(hfresh c hc).1] at hp
    exact Option.noConfusion hp
  obtain ⟨tr, hrun, hall⟩ :=
    calls_trace_outer fuel threshold heap items hfuel items heap hnd (fun x hx => hx)
      (intra_inv_init threshold heap items hfresh) hd0
  have hmem : ∀ h ∈ heap :: tr, depth_one h items := by
    intro h hh
    rcases List.mem_cons.mp hh with e | e
    · rw [e]
      exact hd0
    · exact hall h e
  refine ⟨tr, hrun, ?_, hmem, ?_⟩
  · rw [intracmp_eq_trace]
    unfold intracmp_trace
    rw [hrun]
    rfl
  · haveI : IsTrans (Mem item_t) n_mono := ⟨n_mono_trans⟩
    have hpw : (heap :: tr).Pairwise n_mono :=
      List.Chain.pairwise (calls_trace_chain fuel threshold _ heap tr hrun)
    refine hpw.imp_of_mem ?_
    intro h1 h2 _ hm2 hle x hx hpos
    cases hp : (h2.read x).eq_parent with
    | none => rfl
    | some p =>
      have h0 := (hmem h2 hm2 x hx p hp).2
      have := hle x
      omega

theorem intracmp_parent_depth_one_witness :
    ∃ tr, intracmp_trace 2 1 heap_chain3 [0, 1, 2] = some tr ∧
      intracmp 2 1 heap_chain3 [0, 1, 2] = some (tr.getLastD heap_chain3) ∧
      (∀ h ∈ heap_chain3 :: tr, depth_one h [0, 1, 2]) ∧
      (heap_chain3 :: tr).Pairwise (root_final [0, 1, 2]) :=
  intracmp_parent_depth_one 2 1 heap_chain3 [0, 1, 2] (by decide) (by decide) (by decide)

/-! ## The crop decision on a uniform image -/

/-- Claim C22 fails on the code: for a uniform white 16×16 image, with the default
settings and `xmod = ymod = 8`, the four depths `findborder` returns are 19, 20,
19 and 20, all above the margin; the crop computed from them has the origin
`(24, 24)` and the size `(-24, -24)`, and `do_crop` is true, because
`cx + cw = 0 ≤ 16` and `cy + ch = 0 ≤ 16`. -/
theorem handle_crop_uniform_negative_size :
    (handle_borders 16 ⟨26, 10, 4⟩ (fun _ => 255) 16 16).map
      (fun b => (b.mt, b.mb, b.ml, b.mr)) = some (19, 20, 19, 20) ∧
    handle_crop 16 ⟨26, 10, 4⟩ (fun _ => 255) 16 16 8 8
      = some (some ⟨24, 24, -24, -24, true⟩) := by
  decide

end Imgtools
